import Mathlib

/-!
# zaplogback: pattern compiler and streaming encoder

A shallow embedding of `parser.go` and `logback_encoder.go`.

* Go strings and byte slices are lists of bytes; a byte is a natural number below 256.
* A Go panic (index out of range on a nil submatch, call of a nil function value) is the
  result `none`.
* The closures of the action list are a tagged variant, one constructor per closure.
* `regexp` is not repository code: every regular expression of the source is embedded as the
  matcher Go's leftmost-first semantics gives for that one expression.  All metacharacters of
  the expressions are ASCII, so matching byte by byte and matching rune by rune agree.
* The iteration order of the Go map `strf_map` is unspecified; it is a parameter.
* Memory is not modelled, except that an allocation beyond the limit of the runtime is a
  panic.
* Results of zapcore and of package `time` that the encoder only passes on (level names,
  caller paths, formatted times) are the fields of `Ext`; an encoding strategy and a
  `MarshalLogObject` are given by the calls they make on the encoder.
* Left out: arrays, floats, complex numbers and binary values of the field sink, the
  logger-name action (the compiler never installs it), the instance and buffer pools.
-/

namespace Zaplogback

/-- A Go string or byte slice. -/
abbrev Bytes := List Nat

/-- UTF-8 encoding of one code point. -/
def utf8EncodeNat (n : Nat) : Bytes :=
  if n < 0x80 then [n]
  else if n < 0x800 then [0xC0 + n / 64, 0x80 + n % 64]
  else if n < 0x10000 then [0xE0 + n / 4096, 0x80 + n / 64 % 64, 0x80 + n % 64]
  else [0xF0 + n / 262144, 0x80 + n / 4096 % 64, 0x80 + n / 64 % 64, 0x80 + n % 64]

/-- UTF-8 encoding of a list of Unicode scalar values: a valid UTF-8 byte string. -/
def utf8 (cs : List Char) : Bytes := cs.flatMap (fun c => utf8EncodeNat c.toNat)

/-- The bytes of a string literal. -/
def str (s : String) : Bytes := utf8 s.data

/-! ## Character classes of the regular expressions -/

/-- The class `\w`: `[0-9A-Za-z_]`. -/
def isWord (b : Nat) : Bool :=
  (48 ≤ b && b ≤ 57) || (65 ≤ b && b ≤ 90) || b == 95 || (97 ≤ b && b ≤ 122)

/-- The class `\d`: `[0-9]`. -/
def isDigit (b : Nat) : Bool := 48 ≤ b && b ≤ 57

/-- The class `[^%]`. -/
def notPercent (b : Nat) : Bool := b != 37

/-- The class `.`: every character but the newline. -/
def notNewline (b : Nat) : Bool := b != 10

/-! ## `(?P<action>%\w+)(?P<config>\{.*?\})?(?P<remind>[^%]*)` -/

/-- One submatch of the token expression; `config` is `none` when the optional group did
not take part in the match (a nil slice in Go). -/
structure TokenMatch where
  action : Bytes
  config : Option Bytes
  remind : Bytes
deriving DecidableEq, Repr

/-- Number of bytes a token match covers. -/
def TokenMatch.size (m : TokenMatch) : Nat :=
  m.action.length + (m.config.getD []).length + m.remind.length

/-- The lazy `.*?\}` after an opening brace: the bytes up to the first `}`, and what
follows it; fails when a newline or the end of input comes first. -/
def lazyBrace : Bytes → Option (Bytes × Bytes)
  | [] => none
  | b :: t =>
    if b = 125 then some ([], t)
    else if b = 10 then none
    else match lazyBrace t with
      | some (inner, rest) => some (b :: inner, rest)
      | none => none

/-- The group `\{.*?\}` anchored at the head of the input: the matched text and the rest. -/
def matchConfigAt : Bytes → Option (Bytes × Bytes)
  | [] => none
  | b :: t =>
    if b = 123 then
      match lazyBrace t with
      | some (inner, rest) => some (123 :: inner ++ [125], rest)
      | none => none
    else none

/-- The token expression anchored at the head of the input.  `\w+` and `[^%]*` are greedy
and nothing after them can fail, so both take their maximal run. -/
def matchTokenAt : Bytes → Option TokenMatch
  | [] => none
  | b :: t =>
    if b = 37 then
      let name := t.takeWhile isWord
      if name = [] then none
      else
        let afterName := t.dropWhile isWord
        match matchConfigAt afterName with
        | some (config, rest) =>
          some { action := 37 :: name, config := some config, remind := rest.takeWhile notPercent }
        | none =>
          some { action := 37 :: name, config := none, remind := afterName.takeWhile notPercent }
    else none

/-- `FindAllSubmatch(b, -1)` for the token expression: successive leftmost matches, each
search starting where the previous match ended.  `skip` counts the bytes of the current
match that are still to be passed over. -/
def findAllTokens : Bytes → Nat → List TokenMatch
  | [], _ => []
  | _ :: t, skip + 1 => findAllTokens t skip
  | b :: t, 0 =>
    match matchTokenAt (b :: t) with
    | some m => m :: findAllTokens t (m.size - 1)
    | none => findAllTokens t 0

/-! ## `\{(.*)\}` -/

/-- The greedy `(.*)\}` after an opening brace: the bytes up to the last `}` of the line. -/
def greedyBrace : Bytes → Option Bytes
  | [] => none
  | b :: t =>
    if b = 10 then none
    else match greedyBrace t with
      | some g => some (b :: g)
      | none => if b = 125 then some [] else none

/-- `FindSubmatch` for `\{(.*)\}`: group 1 of the leftmost match, `none` without a match. -/
def configSubmatch : Bytes → Option Bytes
  | [] => none
  | b :: t =>
    if b = 123 then
      match greedyBrace t with
      | some g => some g
      | none => configSubmatch t
    else configSubmatch t

/-! ## `(\w+)(:(.*)(\$0)(.*))?` -/

/-- Groups 1, 3 and 5 of a match of the field-reference expression; groups that did not
take part are nil slices, which append nothing. -/
structure XConfigMatch where
  name : Bytes
  before : Bytes
  after : Bytes
deriving DecidableEq, Repr

/-- The greedy `(.*)(\$0)` inside one line: split at the last `$0`. -/
def splitLastDollarZero : Bytes → Option (Bytes × Bytes)
  | [] => none
  | b :: t =>
    match splitLastDollarZero t with
    | some (p, q) => some (b :: p, q)
    | none => if b = 36 ∧ t.head? = some 48 then some ([], t.tail) else none

/-- The field-reference expression anchored at a word character. -/
def xConfigAt (s : Bytes) : XConfigMatch :=
  let name := s.takeWhile isWord
  match s.dropWhile isWord with
  | [] => { name := name, before := [], after := [] }
  | b :: t =>
    if b = 58 then
      match splitLastDollarZero (t.takeWhile notNewline) with
      | some (p, q) => { name := name, before := p, after := q }
      | none => { name := name, before := [], after := [] }
    else { name := name, before := [], after := [] }

/-- `FindSubmatch` for the field-reference expression: the leftmost match starts at the
first word character; `none` when there is none. -/
def xConfigSubmatch : Bytes → Option XConfigMatch
  | [] => none
  | b :: t => if isWord b then some (xConfigAt (b :: t)) else xConfigSubmatch t

/-! ## Time layout translation -/

/-- A key of `strf_map`: the expression `%c` for a letter `c`, or `%(\d*)f`. -/
inductive StrfKey where
  | lit (c : Nat)
  | frac
deriving DecidableEq, Repr

/-- The directive table, in the order of the source text. -/
def strf_map : List (StrfKey × Bytes) :=
  [ (.lit 97, str "Mon"),      -- %a
    (.lit 65, str "Monday"),   -- %A
    (.lit 119, str "_2"),      -- %w
    (.lit 100, str "02"),      -- %d
    (.lit 98, str "Jan"),      -- %b
    (.lit 66, str "January"),  -- %B
    (.lit 109, str "01"),      -- %m
    (.lit 121, str "06"),      -- %y
    (.lit 89, str "2006"),     -- %Y
    (.lit 72, str "15"),       -- %H
    (.lit 73, str "03"),       -- %I
    (.lit 112, str "PM"),      -- %p
    (.lit 77, str "04"),       -- %M
    (.lit 83, str "05"),       -- %S
    (.frac, str "000"),        -- %(\d*)f
    (.lit 122, str "-0700"),   -- %z
    (.lit 90, str "MST"),      -- %Z
    (.lit 106, str "__2") ]    -- %j

/-- The constant `_default_milesecond_zero_count`. -/
def _default_milesecond_zero_count : Nat := 3

/-- `ReplaceAllString` for the expression `%c`. -/
def replaceLit (c : Nat) (v : Bytes) : Bytes → Bytes
  | [] => []
  | [a] => [a]
  | a :: b :: t =>
    if a = 37 ∧ b = c then v ++ replaceLit c v t
    else a :: replaceLit c v (b :: t)

/-- The expression `%(\d*)f` anchored at the head of the input: group 1. -/
def matchFracAt : Bytes → Option Bytes
  | [] => none
  | b :: t =>
    if b = 37 then
      match t.dropWhile isDigit with
      | c :: _ => if c = 102 then some (t.takeWhile isDigit) else none
      | [] => none
    else none

/-- `FindSubmatch` for `%(\d*)f`: group 1 of the leftmost match. -/
def fracSubmatch : Bytes → Option Bytes
  | [] => none
  | b :: t =>
    match matchFracAt (b :: t) with
    | some ds => some ds
    | none => fracSubmatch t

/-- `ReplaceAllString` for `%(\d*)f`; `skip` counts the bytes of the current match that
are still to be passed over. -/
def replaceFrac (v : Bytes) : Bytes → Nat → Bytes
  | [], _ => []
  | _ :: t, skip + 1 => replaceFrac v t skip
  | b :: t, 0 =>
    match matchFracAt (b :: t) with
    | some ds => v ++ replaceFrac v t (ds.length + 1)
    | none => b :: replaceFrac v t 0

/-- Value of a string of decimal digits. -/
def digitsValue (ds : Bytes) : Nat := ds.foldl (fun acc d => 10 * acc + (d - 48)) 0

/-- `strconv.Atoi` on a string of decimal digits (all that `(\d*)` can capture): an error
for the empty string and for a value that does not fit a 64-bit `int`. -/
def Atoi (ds : Bytes) : Option Nat :=
  if ds = [] then none
  else if digitsValue ds < 2 ^ 63 then some (digitsValue ds)
  else none

/-- The largest allocation of the Go runtime on 64-bit platforms, `maxAlloc`: 2^48 bytes. -/
def maxAlloc : Nat := 2 ^ 48

/-- `strings.Repeat` for a string of one byte: a panic when the result is longer than the
runtime can allocate (`makeslice: len out of range`).  An allocation within that limit is
taken to succeed. -/
def Repeat (b : Nat) (count : Nat) : Option Bytes :=
  if count ≤ maxAlloc then some (List.replicate count b) else none

/-- One round of the loop of `StrftimeFormatLayout`. -/
def strftimeStep (go_time_format : Bytes) : StrfKey × Bytes → Option Bytes
  | (.frac, _) =>
    match fracSubmatch go_time_format with
    | none => none
    | some ds =>
      let zero_count := match Atoi ds with
        | some n => n
        | none => _default_milesecond_zero_count
      match Repeat 48 zero_count with
      | none => none
      | some v => some (replaceFrac v go_time_format 0)
  | (.lit c, v) => some (replaceLit c v go_time_format)

/-- The loop of `StrftimeFormatLayout` over the table entries in iteration order. -/
def strftimeLoop : List (StrfKey × Bytes) → Bytes → Option Bytes
  | [], go_time_format => some go_time_format
  | e :: rest, go_time_format =>
    match strftimeStep go_time_format e with
    | none => none
    | some next => strftimeLoop rest next

/-- `StrftimeFormatLayout`, with the iteration order of `strf_map` as a parameter (a
permutation of `strf_map`). -/
def StrftimeFormatLayout (order : List (StrfKey × Bytes)) (layout : Bytes) : Option Bytes :=
  strftimeLoop order layout

/-! ## Pattern compiler -/

/-- The closures `logActionOperation` the compiler builds, as a tagged variant:
`logAddBytesAction(value)`, `logAddTimeAction`, `logAddLevelAction`, `logAddCallerAction`,
`logAddMsgAction`, `logAddUsedFieldAction(field, before_byte, after_byte)` and
`logAddRemindFieldAction`. -/
inductive Action where
  | logAddBytesAction (value : Bytes)
  | logAddTimeAction
  | logAddLevelAction
  | logAddCallerAction
  | logAddMsgAction
  | logAddUsedFieldAction (field before_byte after_byte : Bytes)
  | logAddRemindFieldAction
deriving DecidableEq, Repr

/-- The level encoders of zapcore that `LevelEncoderOf` can return. -/
inductive LevelStrategy where
  | CapitalLevelEncoder
  | CapitalColorLevelEncoder
  | LowercaseColorLevelEncoder
  | LowercaseLevelEncoder
deriving DecidableEq, Repr

/-- The caller encoders of zapcore that `CallerEncoderOf` can return. -/
inductive CallerStrategy where
  | FullCallerEncoder
  | ShortCallerEncoder
deriving DecidableEq, Repr

/-- `LevelEncoderOf`. -/
def LevelEncoderOf (level_type : Bytes) : LevelStrategy :=
  if level_type = str "upper" then .CapitalLevelEncoder
  else if level_type = str "capital" then .CapitalLevelEncoder
  else if level_type = str "capitalcolor" then .CapitalColorLevelEncoder
  else if level_type = str "color" then .LowercaseColorLevelEncoder
  else if level_type = str "lower" then .LowercaseLevelEncoder
  else .LowercaseLevelEncoder

/-- `CallerEncoderOf`. -/
def CallerEncoderOf (caller_type : Bytes) : CallerStrategy :=
  if caller_type = str "full" then .FullCallerEncoder else .ShortCallerEncoder

/-- `TimeEncoderOf`: the translated layout handed to `zapcore.TimeEncoderOfLayout`. -/
def TimeEncoderOf (order : List (StrfKey × Bytes)) (layout : Bytes) : Option Bytes :=
  StrftimeFormatLayout order layout

/-- `LogbackConfig`; a nil encoder is `none`, the map `used_fields` is the list of its keys. -/
structure LogbackConfig where
  EncodeLevel : Option LevelStrategy
  EncodeTime : Option Bytes
  EncodeCaller : Option CallerStrategy
  actions : List Action
  used_fields : List Bytes
deriving DecidableEq, Repr

/-- Assignment `used_fields[key] = empty_member`. -/
def mapInsert (m : List Bytes) (key : Bytes) : List Bytes :=
  if key ∈ m then m else m ++ [key]

/-- The statement `if len(remind) >= 1 { action_ops = append(action_ops, logAddBytesAction(remind)) }`. -/
def appendRemind (action_ops : List Action) (remind : Bytes) : List Action :=
  if remind.length ≥ 1 then action_ops ++ [.logAddBytesAction remind] else action_ops

/-- The body of the loop of `Parse_compile_log_format` for one match; `order` is the
iteration order of `strf_map` should this round translate a time layout. -/
def parseMatch (order : List (StrfKey × Bytes)) (c : LogbackConfig) (m : TokenMatch) :
    Option LogbackConfig :=
  let action_config : Bytes :=
    match configSubmatch (m.config.getD []) with
    | some g => g
    | none => []
  if m.action = str "%date" then
    if action_config.length > 0 then
      match TimeEncoderOf order action_config with
      | none => none
      | some layout =>
        some { c with EncodeTime := some layout,
                      actions := appendRemind (c.actions ++ [.logAddTimeAction]) m.remind }
    else some { c with actions := appendRemind (c.actions ++ [.logAddTimeAction]) m.remind }
  else if m.action = str "%level" then
    if action_config.length > 0 then
      some { c with EncodeLevel := some (LevelEncoderOf action_config),
                    actions := appendRemind (c.actions ++ [.logAddLevelAction]) m.remind }
    else some { c with actions := appendRemind (c.actions ++ [.logAddLevelAction]) m.remind }
  else if m.action = str "%caller" then
    if action_config.length > 0 then
      some { c with EncodeCaller := some (CallerEncoderOf action_config),
                    actions := appendRemind (c.actions ++ [.logAddCallerAction]) m.remind }
    else some { c with actions := appendRemind (c.actions ++ [.logAddCallerAction]) m.remind }
  else if m.action = str "%message" then
    some { c with actions := appendRemind (c.actions ++ [.logAddMsgAction]) m.remind }
  else if m.action = str "%x" then
    if action_config.length > 0 then
      match xConfigSubmatch action_config with
      | none => none
      | some adv_config =>
        some { c with
          used_fields := mapInsert c.used_fields adv_config.name,
          actions := appendRemind
            (c.actions ++
              [.logAddUsedFieldAction adv_config.name adv_config.before adv_config.after])
            m.remind }
    else some { c with actions := appendRemind c.actions m.remind }
  else if m.action = str "%fields" then
    some { c with actions := appendRemind (c.actions ++ [.logAddRemindFieldAction]) m.remind }
  else
    some { c with actions := appendRemind c.actions (m.remind ++ m.action) }

/-- The loop of `Parse_compile_log_format` over the matches; `k` is the index of the
current match and `ord k` the iteration order of `strf_map` in that round. -/
def parseLoop (ord : Nat → List (StrfKey × Bytes)) :
    Nat → LogbackConfig → List TokenMatch → Option LogbackConfig
  | _, c, [] => some c
  | k, c, m :: rest =>
    match parseMatch (ord k) c m with
    | none => none
    | some next => parseLoop ord (k + 1) next rest

/-- `Parse_compile_log_format`; `none` is a run-time panic. -/
def Parse_compile_log_format (ord : Nat → List (StrfKey × Bytes)) (log_format : Bytes) :
    Option LogbackConfig :=
  parseLoop ord 0
    { EncodeLevel := none, EncodeTime := none, EncodeCaller := none,
      actions := [], used_fields := [] }
    (findAllTokens log_format 0)

/-! ## Buffer primitives (`go.uber.org/zap/buffer`) -/

/-- `Buffer.AppendByte`. -/
def AppendByte (buf : Bytes) (v : Nat) : Bytes := buf ++ [v]

/-- `Buffer.AppendBytes`. -/
def AppendBytes (buf : Bytes) (v : Bytes) : Bytes := buf ++ v

/-- `Buffer.AppendString`. -/
def AppendString (buf : Bytes) (s : Bytes) : Bytes := buf ++ s

/-- Decimal digits of a natural number. -/
def decimal (n : Nat) : Bytes := (Nat.toDigits 10 n).map Char.toNat

/-- `Buffer.AppendInt`: the decimal form, with a minus sign for negative values. -/
def AppendInt (buf : Bytes) (v : Int) : Bytes :=
  if v < 0 then buf ++ 45 :: decimal v.natAbs else buf ++ decimal v.toNat

/-- `Buffer.AppendUint`. -/
def AppendUint (buf : Bytes) (v : Nat) : Bytes := buf ++ decimal v

/-- `Buffer.AppendBool`. -/
def AppendBool (buf : Bytes) (v : Bool) : Bytes :=
  if v then buf ++ str "true" else buf ++ str "false"

/-- `Buffer.TrimNewline`. -/
def TrimNewline (buf : Bytes) : Bytes :=
  if buf.getLast? = some 10 then buf.dropLast else buf

/-- The Go slice expression `s[lo:hi]`. -/
def slice (s : Bytes) (lo hi : Nat) : Bytes := (s.take hi).drop lo

/-! ## Escaping writer -/

/-- `utf8.RuneError`. -/
def RuneError : Nat := 0xFFFD

/-- `utf8.RuneSelf`. -/
def RuneSelf : Nat := 0x80

/-- The constant `_hex`. -/
def _hex : Bytes := str "0123456789abcdef"

/-- `utf8.DecodeRune` and `utf8.DecodeRuneInString`: the rune and its width in bytes,
`(RuneError, 1)` for an invalid or incomplete encoding. -/
def DecodeRune (p : Bytes) : Nat × Nat :=
  match p with
  | [] => (RuneError, 0)
  | p0 :: t =>
    if p0 < 0x80 then (p0, 1)
    else if p0 < 0xC2 then (RuneError, 1)
    else if p0 < 0xE0 then
      match t with
      | b1 :: _ =>
        if b1 < 0x80 ∨ 0xBF < b1 then (RuneError, 1)
        else (p0 % 32 * 64 + b1 % 64, 2)
      | _ => (RuneError, 1)
    else if p0 < 0xF0 then
      let lo := if p0 = 0xE0 then 0xA0 else 0x80
      let hi := if p0 = 0xED then 0x9F else 0xBF
      match t with
      | b1 :: b2 :: _ =>
        if b1 < lo ∨ hi < b1 then (RuneError, 1)
        else if b2 < 0x80 ∨ 0xBF < b2 then (RuneError, 1)
        else (p0 % 16 * 4096 + b1 % 64 * 64 + b2 % 64, 3)
      | _ => (RuneError, 1)
    else if p0 < 0xF5 then
      let lo := if p0 = 0xF0 then 0x90 else 0x80
      let hi := if p0 = 0xF4 then 0x8F else 0xBF
      match t with
      | b1 :: b2 :: b3 :: _ =>
        if b1 < lo ∨ hi < b1 then (RuneError, 1)
        else if b2 < 0x80 ∨ 0xBF < b2 then (RuneError, 1)
        else if b3 < 0x80 ∨ 0xBF < b3 then (RuneError, 1)
        else (p0 % 8 * 262144 + b1 % 64 * 4096 + b2 % 64 * 64 + b3 % 64, 4)
      | _ => (RuneError, 1)
    else (RuneError, 1)

/-- The `switch s[i]` of `safeAppendStringLike`: the escape of one byte below `RuneSelf`
that cannot be copied. -/
def appendEscape (buf : Bytes) (c : Nat) : Bytes :=
  if c = 92 ∨ c = 34 then AppendByte (AppendByte buf 92) c
  else if c = 10 then AppendByte (AppendByte buf 92) 110
  else if c = 13 then AppendByte (AppendByte buf 92) 114
  else if c = 9 then AppendByte (AppendByte buf 92) 116
  else
    AppendByte (AppendByte (AppendString buf (str "\\u00")) (_hex.getD (c / 16) 0))
      (_hex.getD (c % 16) 0)

/-- The `for` loop of `safeAppendStringLike`, returning `last` and the buffer.  Every
round advances `i`, so `len(s)` rounds are enough; `fuel` bounds the rounds. -/
def safeAppendLoop (appendTo : Bytes → Bytes → Bytes) (decodeRune : Bytes → Nat × Nat)
    (s : Bytes) : Nat → Nat → Nat → Bytes → Nat × Bytes
  | 0, _, last, buf => (last, buf)
  | fuel + 1, i, last, buf =>
    if i < s.length then
      let c := s.getD i 0
      if c ≥ RuneSelf then
        let (r, size) := decodeRune (s.drop i)
        if r ≠ RuneError ∨ size ≠ 1 then
          safeAppendLoop appendTo decodeRune s fuel (i + size) last buf
        else
          let buf := appendTo buf (slice s last i)
          let buf := AppendString buf (str "\\ufffd")
          safeAppendLoop appendTo decodeRune s fuel (i + 1) (i + 1) buf
      else
        if c ≥ 0x20 ∧ c ≠ 92 ∧ c ≠ 34 then
          safeAppendLoop appendTo decodeRune s fuel (i + 1) last buf
        else
          let buf := appendTo buf (slice s last i)
          let buf := appendEscape buf c
          safeAppendLoop appendTo decodeRune s fuel (i + 1) (i + 1) buf
    else (last, buf)

/-- `safeAppendStringLike`. -/
def safeAppendStringLike (appendTo : Bytes → Bytes → Bytes) (decodeRune : Bytes → Nat × Nat)
    (buf : Bytes) (s : Bytes) : Bytes :=
  let (last, buf) := safeAppendLoop appendTo decodeRune s s.length 0 0 buf
  appendTo buf (s.drop last)

/-! ## Records, fields and configuration (`go.uber.org/zap/zapcore`) -/

/-- What the encoder reads of a `time.Time`: `IsZero()` and `UnixNano()`. -/
structure Time where
  IsZero : Bool
  UnixNano : Int
deriving DecidableEq, Repr

/-- `zapcore.EntryCaller`. -/
structure EntryCaller where
  Defined : Bool
  File : Bytes
  Line : Int
  Function : Bytes
deriving DecidableEq, Repr

/-- `zapcore.Entry`. -/
structure Entry where
  Level : Int
  Time : Time
  LoggerName : Bytes
  Message : Bytes
  Caller : EntryCaller
  Stack : Bytes
deriving DecidableEq, Repr

/-- The calls an encoding strategy makes on the `PrimitiveArrayEncoder` it is handed. -/
inductive PrimCall where
  | AppendBool (v : Bool)
  | AppendByteString (v : Bytes)
  | AppendInt64 (v : Int)
  | AppendUint64 (v : Nat)
  | AppendString (v : Bytes)
deriving DecidableEq, Repr

/-- A `zapcore.LevelEncoder`: one of the encoders of zapcore, or a user function given by
the calls it makes. -/
inductive LevelEncoder where
  | zap (s : LevelStrategy)
  | custom (f : Int → List PrimCall)

/-- A `zapcore.TimeEncoder`: `zapcore.TimeEncoderOfLayout(layout)`, or a user function. -/
inductive TimeEncoder where
  | ofLayout (layout : Bytes)
  | custom (f : Time → List PrimCall)

/-- A `zapcore.CallerEncoder`. -/
inductive CallerEncoder where
  | zap (s : CallerStrategy)
  | custom (f : EntryCaller → List PrimCall)

/-- A `zapcore.DurationEncoder`: a user function given by the calls it makes. -/
inductive DurationEncoder where
  | custom (f : Int → List PrimCall)

/-- Results of zapcore and of package `time` that the encoder only passes on. -/
structure Ext where
  /-- `Level.String()`. -/
  levelString : Int → Bytes
  /-- The text a level encoder of zapcore hands to `AppendString`. -/
  levelText : LevelStrategy → Int → Bytes
  /-- `EntryCaller.String()`. -/
  callerString : EntryCaller → Bytes
  /-- The text a caller encoder of zapcore hands to `AppendString`. -/
  callerText : CallerStrategy → EntryCaller → Bytes
  /-- `Time.Format(layout)`. -/
  timeFormat : Time → Bytes → Bytes

/-- The fields of `zapcore.EncoderConfig` the encoder reads; a nil encoder is `none`. -/
structure EncoderConfig where
  MessageKey : Bytes
  LevelKey : Bytes
  TimeKey : Bytes
  NameKey : Bytes
  CallerKey : Bytes
  FunctionKey : Bytes
  StacktraceKey : Bytes
  SkipLineEnding : Bool
  LineEnding : Bytes
  EncodeLevel : Option LevelEncoder
  EncodeTime : Option TimeEncoder
  EncodeDuration : Option DurationEncoder
  EncodeCaller : Option CallerEncoder

/-- What the reflection encoder does with a value handed to `AddReflected`: the value is
nil, or `Encode` writes `out` to the scratch buffer, or `Encode` fails with `err`. -/
inductive Reflected where
  | nil
  | encoded (out : Bytes)
  | failed (err : Bytes)
deriving DecidableEq, Repr

/-- The calls a `MarshalLogObject` makes on the `ObjectEncoder` it is handed.  A nested
marshaler is the list of its calls and the error it returns. -/
inductive SinkOp where
  | AddString (key val : Bytes)
  | AddInt64 (key : Bytes) (val : Int)
  | AddUint64 (key : Bytes) (val : Nat)
  | AddBool (key : Bytes) (val : Bool)
  | AddByteString (key val : Bytes)
  | AddDuration (key : Bytes) (val : Int)
  | AddTime (key : Bytes) (val : Time)
  | AddReflected (key : Bytes) (obj : Reflected)
  | OpenNamespace (key : Bytes)
  | AddObject (key : Bytes) (calls : List SinkOp) (err : Option Bytes)

/-- `zapcore.FieldType`, each type together with the dynamic value `Field.Interface`
holds for it. -/
inductive FieldType where
  | StringType
  | Int64Type
  | Uint64Type
  | BoolType
  | ByteStringType (val : Bytes)
  | DurationType
  | TimeType
  | ReflectType (obj : Reflected)
  | NamespaceType
  | ObjectMarshalerType (calls : List SinkOp) (err : Option Bytes)
  | SkipType

/-- `zapcore.Field`. -/
structure Field where
  Key : Bytes
  Type_ : FieldType
  Integer : Int
  String : Bytes

/-- `zap.String`. -/
def Field.ofString (key val : Bytes) : Field :=
  { Key := key, Type_ := .StringType, Integer := 0, String := val }

/-! ## The encoder -/

/-- `logbackEncoder`.  The scratch buffer of the reflection encoder is not kept: it is
reset before every use. -/
structure logbackEncoder where
  EncoderConfig : EncoderConfig
  buf : Bytes
  openNamespaces : Nat
  actions : List Action
  used_fields : List Bytes

namespace logbackEncoder

/-- `addElementSeparator`. -/
def addElementSeparator (enc : logbackEncoder) : logbackEncoder :=
  match enc.buf.getLast? with
  | none => enc
  | some b =>
    if b = 123 ∨ b = 91 ∨ b = 58 ∨ b = 44 ∨ b = 32 then enc
    else { enc with buf := AppendByte enc.buf 32 }

/-- `safeAddString`. -/
def safeAddString (enc : logbackEncoder) (s : Bytes) : logbackEncoder :=
  { enc with buf := safeAppendStringLike AppendString DecodeRune enc.buf s }

/-- `safeAddByteString`. -/
def safeAddByteString (enc : logbackEncoder) (s : Bytes) : logbackEncoder :=
  { enc with buf := safeAppendStringLike AppendBytes DecodeRune enc.buf s }

/-- `addKey`. -/
def addKey (enc : logbackEncoder) (key : Bytes) : logbackEncoder :=
  let enc := enc.addElementSeparator
  let enc := { enc with buf := AppendByte enc.buf 34 }
  let enc := enc.safeAddString key
  let enc := { enc with buf := AppendByte enc.buf 34 }
  { enc with buf := AppendByte enc.buf 58 }

/-- `closeOpenNamespaces`. -/
def closeOpenNamespaces (enc : logbackEncoder) : logbackEncoder :=
  { enc with buf := enc.buf ++ List.replicate enc.openNamespaces 125, openNamespaces := 0 }

/-- `AppendString`. -/
def AppendString (enc : logbackEncoder) (val : Bytes) : logbackEncoder :=
  enc.safeAddString val

/-- `AppendStringQuota`. -/
def AppendStringQuota (enc : logbackEncoder) (val : Bytes) : logbackEncoder :=
  let enc := enc.addElementSeparator
  let enc := { enc with buf := AppendByte enc.buf 34 }
  let enc := enc.safeAddString val
  { enc with buf := AppendByte enc.buf 34 }

/-- `AppendByteString`. -/
def AppendByteString (enc : logbackEncoder) (val : Bytes) : logbackEncoder :=
  enc.addElementSeparator.safeAddByteString val

/-- `AppendBool`. -/
def AppendBool (enc : logbackEncoder) (val : Bool) : logbackEncoder :=
  let enc := enc.addElementSeparator
  { enc with buf := Zaplogback.AppendBool enc.buf val }

/-- `AppendInt64`. -/
def AppendInt64 (enc : logbackEncoder) (val : Int) : logbackEncoder :=
  let enc := enc.addElementSeparator
  { enc with buf := AppendInt enc.buf val }

/-- `AppendUint64`. -/
def AppendUint64 (enc : logbackEncoder) (val : Nat) : logbackEncoder :=
  let enc := enc.addElementSeparator
  { enc with buf := AppendUint enc.buf val }

/-- One call of a strategy on the encoder it was handed. -/
def primCall (enc : logbackEncoder) : PrimCall → logbackEncoder
  | .AppendBool v => enc.AppendBool v
  | .AppendByteString v => enc.AppendByteString v
  | .AppendInt64 v => enc.AppendInt64 v
  | .AppendUint64 v => enc.AppendUint64 v
  | .AppendString v => enc.AppendString v

/-- The calls of a strategy, in order. -/
def primCalls (enc : logbackEncoder) (calls : List PrimCall) : logbackEncoder :=
  calls.foldl primCall enc

/-- `AppendDuration`. -/
def AppendDuration (enc : logbackEncoder) (val : Int) : logbackEncoder :=
  let cur := enc.buf.length
  let enc := match enc.EncoderConfig.EncodeDuration with
    | some (.custom e) => enc.primCalls (e val)
    | none => enc
  if cur = enc.buf.length then enc.AppendInt64 val else enc

/-- `AppendTime`.  A layout encoder of zapcore calls `AppendString(val.Format(layout))`,
since the encoder has no `AppendTimeLayout`. -/
def AppendTime (x : Ext) (enc : logbackEncoder) (val : Time) : logbackEncoder :=
  let cur := enc.buf.length
  let enc := match enc.EncoderConfig.EncodeTime with
    | some (.ofLayout layout) => enc.AppendString (x.timeFormat val layout)
    | some (.custom e) => enc.primCalls (e val)
    | none => enc
  if cur = enc.buf.length then enc.AppendInt64 val.UnixNano else enc

/-- `encodeReflected`: the bytes to append, or the error of the reflection encoder. -/
def encodeReflected (obj : Reflected) : Except Bytes Bytes :=
  match obj with
  | .nil => .ok (str "null")
  | .failed err => .error err
  | .encoded out => .ok (TrimNewline out)

/-- `AddReflected`. -/
def AddReflected (enc : logbackEncoder) (key : Bytes) (obj : Reflected) :
    logbackEncoder × Option Bytes :=
  match encodeReflected obj with
  | .error err => (enc, some err)
  | .ok valueBytes =>
    let enc := enc.addKey key
    ({ enc with buf := enc.buf ++ valueBytes }, none)

/-- `OpenNamespace`. -/
def OpenNamespace (enc : logbackEncoder) (key : Bytes) : logbackEncoder :=
  let enc := enc.addKey key
  { enc with buf := AppendByte enc.buf 123, openNamespaces := enc.openNamespaces + 1 }

/-- `AddString`. -/
def AddString (enc : logbackEncoder) (key val : Bytes) : logbackEncoder :=
  (enc.addKey key).AppendString val

/-- `AddInt64`. -/
def AddInt64 (enc : logbackEncoder) (key : Bytes) (val : Int) : logbackEncoder :=
  (enc.addKey key).AppendInt64 val

/-- `AddUint64`. -/
def AddUint64 (enc : logbackEncoder) (key : Bytes) (val : Nat) : logbackEncoder :=
  (enc.addKey key).AppendUint64 val

/-- `AddBool`. -/
def AddBool (enc : logbackEncoder) (key : Bytes) (val : Bool) : logbackEncoder :=
  (enc.addKey key).AppendBool val

/-- `AddByteString`. -/
def AddByteString (enc : logbackEncoder) (key val : Bytes) : logbackEncoder :=
  (enc.addKey key).AppendByteString val

/-- `AddDuration`. -/
def AddDuration (enc : logbackEncoder) (key : Bytes) (val : Int) : logbackEncoder :=
  (enc.addKey key).AppendDuration val

/-- `AddTime`. -/
def AddTime (x : Ext) (enc : logbackEncoder) (key : Bytes) (val : Time) : logbackEncoder :=
  (enc.addKey key).AppendTime x val

mutual
/-- One call of a `MarshalLogObject` on the encoder; `AddObject` is `addKey` followed by
`AppendObject`. -/
def sinkOp (x : Ext) : SinkOp → logbackEncoder → logbackEncoder
  | .AddString key val, enc => enc.AddString key val
  | .AddInt64 key val, enc => enc.AddInt64 key val
  | .AddUint64 key val, enc => enc.AddUint64 key val
  | .AddBool key val, enc => enc.AddBool key val
  | .AddByteString key val, enc => enc.AddByteString key val
  | .AddDuration key val, enc => enc.AddDuration key val
  | .AddTime key val, enc => enc.AddTime x key val
  | .AddReflected key obj, enc => (enc.AddReflected key obj).1
  | .OpenNamespace key, enc => enc.OpenNamespace key
  | .AddObject key calls _, enc =>
    let enc := enc.addKey key
    let old := enc.openNamespaces
    let enc := { enc with openNamespaces := 0 }
    let enc := enc.addElementSeparator
    let enc := { enc with buf := AppendByte enc.buf 123 }
    let enc := sinkOps x calls enc
    let enc := { enc with buf := AppendByte enc.buf 125 }
    let enc := enc.closeOpenNamespaces
    { enc with openNamespaces := old }

/-- The calls of a `MarshalLogObject`, in order. -/
def sinkOps (x : Ext) : List SinkOp → logbackEncoder → logbackEncoder
  | [], enc => enc
  | op :: rest, enc => sinkOps x rest (sinkOp x op enc)
end

/-- `AppendObject`, for a marshaler given by its calls and the error it returns. -/
def AppendObject (x : Ext) (enc : logbackEncoder) (calls : List SinkOp) (err : Option Bytes) :
    logbackEncoder × Option Bytes :=
  let old := enc.openNamespaces
  let enc := { enc with openNamespaces := 0 }
  let enc := enc.addElementSeparator
  let enc := { enc with buf := AppendByte enc.buf 123 }
  let enc := sinkOps x calls enc
  let enc := { enc with buf := AppendByte enc.buf 125 }
  let enc := enc.closeOpenNamespaces
  ({ enc with openNamespaces := old }, err)

/-- `AddObject`. -/
def AddObject (x : Ext) (enc : logbackEncoder) (key : Bytes) (calls : List SinkOp)
    (err : Option Bytes) : logbackEncoder × Option Bytes :=
  (enc.addKey key).AppendObject x calls err

/-- `clone`: a blank instance from the pool that shares the configuration, the
consumed-field set and the namespace counter, with a fresh buffer. -/
def clone (enc : logbackEncoder) : logbackEncoder :=
  { EncoderConfig := enc.EncoderConfig
    buf := []
    openNamespaces := enc.openNamespaces
    actions := []
    used_fields := enc.used_fields }

/-- `Clone`. -/
def Clone (enc : logbackEncoder) : logbackEncoder :=
  let clone := enc.clone
  { clone with buf := clone.buf ++ enc.buf }

end logbackEncoder

/-- `Field.AddTo` of zapcore: the encoder call the field type selects; an error of that
call is reported as a string field named `<key>Error`. -/
def Field.AddTo (x : Ext) (f : Field) (enc : logbackEncoder) : logbackEncoder :=
  let r : logbackEncoder × Option Bytes :=
    match f.Type_ with
    | .StringType => (enc.AddString f.Key f.String, none)
    | .Int64Type => (enc.AddInt64 f.Key f.Integer, none)
    | .Uint64Type => (enc.AddUint64 f.Key (f.Integer % 2 ^ 64).toNat, none)
    | .BoolType => (enc.AddBool f.Key (f.Integer == 1), none)
    | .ByteStringType val => (enc.AddByteString f.Key val, none)
    | .DurationType => (enc.AddDuration f.Key f.Integer, none)
    | .TimeType => (enc.AddTime x f.Key { IsZero := false, UnixNano := f.Integer }, none)
    | .ReflectType obj => enc.AddReflected f.Key obj
    | .NamespaceType => (enc.OpenNamespace f.Key, none)
    | .ObjectMarshalerType calls err => enc.AddObject x f.Key calls err
    | .SkipType => (enc, none)
  match r.2 with
  | some err => r.1.AddString (f.Key ++ str "Error") err
  | none => r.1

/-! ## Rendering actions -/

/-- `logAddBytesAction(value)`. -/
def logAddBytesAction (value : Bytes) (final : logbackEncoder) : logbackEncoder :=
  { final with buf := AppendBytes final.buf value }

/-- `logAddTimeAction`. -/
def logAddTimeAction (x : Ext) (final : logbackEncoder) (ent : Entry) : logbackEncoder :=
  if final.EncoderConfig.TimeKey ≠ [] ∧ ent.Time.IsZero = false then final.AppendTime x ent.Time
  else final

/-- `logAddLevelAction`. -/
def logAddLevelAction (x : Ext) (final : logbackEncoder) (ent : Entry) : logbackEncoder :=
  if final.EncoderConfig.LevelKey ≠ [] then
    match final.EncoderConfig.EncodeLevel with
    | none => final
    | some e =>
      let cur := final.buf.length
      let final := match e with
        | .zap s => final.AppendString (x.levelText s ent.Level)
        | .custom f => final.primCalls (f ent.Level)
      if cur = final.buf.length then
        { final with buf := AppendBytes final.buf (x.levelString ent.Level) }
      else final
  else final

/-- `logAddCallerAction`; calling the nil `EncodeCaller` is a panic. -/
def logAddCallerAction (x : Ext) (final : logbackEncoder) (ent : Entry) :
    Option logbackEncoder :=
  if ent.Caller.Defined then
    let r : Option logbackEncoder :=
      if final.EncoderConfig.CallerKey ≠ [] then
        let cur := final.buf.length
        match final.EncoderConfig.EncodeCaller with
        | none => none
        | some e =>
          let final := match e with
            | .zap s => final.AppendString (x.callerText s ent.Caller)
            | .custom f => final.primCalls (f ent.Caller)
          if cur = final.buf.length then
            some { final with buf := AppendBytes final.buf (x.callerString ent.Caller) }
          else some final
      else some final
    match r with
    | none => none
    | some final =>
      if final.EncoderConfig.FunctionKey ≠ [] then
        some { final with buf := AppendBytes final.buf ent.Caller.Function }
      else some final
  else some final

/-- `logAddMsgAction`. -/
def logAddMsgAction (final : logbackEncoder) (ent : Entry) : logbackEncoder :=
  if final.EncoderConfig.MessageKey ≠ [] then
    { final with buf := AppendBytes final.buf ent.Message }
  else final

/-- `logAddUsedFieldAction(field, before_byte, after_byte)`. -/
def logAddUsedFieldAction (field before_byte after_byte : Bytes) (final : logbackEncoder) :
    List Field → logbackEncoder
  | [] => final
  | f :: rest =>
    if field = f.Key then
      logAddUsedFieldAction field before_byte after_byte
        { final with
          buf := AppendBytes (AppendBytes (AppendBytes final.buf before_byte) f.String)
            after_byte }
        rest
    else logAddUsedFieldAction field before_byte after_byte final rest

/-- The `for` loop of `logAddRemindFieldAction`. -/
def remindFieldLoop (x : Ext) : List Field → logbackEncoder → Bool → logbackEncoder
  | [], final, _ => final
  | field :: rest, final, comma_need =>
    if field.Key ∈ final.used_fields then remindFieldLoop x rest final comma_need
    else
      let final :=
        if comma_need then { final with buf := AppendByte final.buf 44 } else final
      let final := field.AddTo x final
      remindFieldLoop x rest final true

/-- `logAddRemindFieldAction`. -/
def logAddRemindFieldAction (x : Ext) (final : logbackEncoder) (fields : List Field) :
    logbackEncoder :=
  let final := { final with buf := AppendByte final.buf 123 }
  let final := remindFieldLoop x fields final false
  { final with buf := AppendByte final.buf 125 }

/-- Call of one `logActionOperation`. -/
def runAction (x : Ext) (a : Action) (final : logbackEncoder) (ent : Entry)
    (fields : List Field) : Option logbackEncoder :=
  match a with
  | .logAddBytesAction value => some (logAddBytesAction value final)
  | .logAddTimeAction => some (logAddTimeAction x final ent)
  | .logAddLevelAction => some (logAddLevelAction x final ent)
  | .logAddCallerAction => logAddCallerAction x final ent
  | .logAddMsgAction => some (logAddMsgAction final ent)
  | .logAddUsedFieldAction field before_byte after_byte =>
    some (logAddUsedFieldAction field before_byte after_byte final fields)
  | .logAddRemindFieldAction => some (logAddRemindFieldAction x final fields)

/-- The loop `for _, action := range enc.actions`. -/
def runActions (x : Ext) : List Action → logbackEncoder → Entry → List Field →
    Option logbackEncoder
  | [], final, _, _ => some final
  | a :: rest, final, ent, fields =>
    match runAction x a final ent fields with
    | none => none
    | some next => runActions x rest next ent fields

/-! ## Line renderer and constructors -/

/-- `EncodeEntry`: the returned buffer and the returned error (`none` is nil); the outer
`none` is a panic. -/
def logbackEncoder.EncodeEntry (x : Ext) (enc : logbackEncoder) (ent : Entry)
    (fields : List Field) : Option (Bytes × Option Bytes) :=
  let final := enc.clone
  match runActions x enc.actions final ent fields with
  | none => none
  | some final =>
    let final :=
      if enc.buf.length > 0 then
        let final := final.addElementSeparator
        { final with buf := final.buf ++ enc.buf }
      else final
    let final := final.closeOpenNamespaces
    let final :=
      if ent.Stack ≠ [] ∧ final.EncoderConfig.StacktraceKey ≠ [] then
        { final with buf := AppendBytes (AppendByte final.buf 10) ent.Stack }
      else final
    let final :=
      { final with buf := Zaplogback.AppendString final.buf final.EncoderConfig.LineEnding }
    some (final.buf, none)

/-- `newZaplogbackEncoder`. -/
def newZaplogbackEncoder (cfg : EncoderConfig) : logbackEncoder :=
  let cfg :=
    if cfg.SkipLineEnding then { cfg with LineEnding := [] }
    else if cfg.LineEnding = [] then { cfg with LineEnding := str "\n" }
    else cfg
  { EncoderConfig := cfg, buf := [], openNamespaces := 0, actions := [], used_fields := [] }

/-- `UseLogFormat`. -/
def logbackEncoder.UseLogFormat (ord : Nat → List (StrfKey × Bytes)) (enc : logbackEncoder)
    (log_format : Bytes) : Option logbackEncoder :=
  match Parse_compile_log_format ord log_format with
  | none => none
  | some logback_config =>
    let cfg := enc.EncoderConfig
    let cfg := match logback_config.EncodeTime with
      | some layout => { cfg with EncodeTime := some (.ofLayout layout) }
      | none => cfg
    let cfg := match logback_config.EncodeLevel with
      | some s => { cfg with EncodeLevel := some (.zap s) }
      | none => cfg
    let cfg := match logback_config.EncodeCaller with
      | some s => { cfg with EncodeCaller := some (.zap s) }
      | none => cfg
    some { enc with
      actions := logback_config.actions
      used_fields := logback_config.used_fields
      EncoderConfig := cfg }

/-- `NewZaplogbackEncoder`. -/
def NewZaplogbackEncoder (ord : Nat → List (StrfKey × Bytes)) (cfg : EncoderConfig)
    (log_format : Bytes) : Option logbackEncoder :=
  (newZaplogbackEncoder cfg).UseLogFormat ord log_format

/-! ## Definitions used to state the properties -/

/-- The bytes `safeAddString` appends for a string. -/
def escaped (s : Bytes) : Bytes := safeAppendStringLike AppendString DecodeRune [] s

/-- A string field as the remainder object holds it: the quoted, escaped key, a colon and
the escaped value. -/
def renderedStringField (p : Bytes × Bytes) : Bytes :=
  34 :: escaped p.1 ++ 34 :: 58 :: escaped p.2

/-- Byte strings joined by commas. -/
def commaSeparated : List Bytes → Bytes
  | [] => []
  | [a] => a
  | a :: b :: rest => a ++ 44 :: commaSeparated (b :: rest)

/-- Whether a layout holds a directive of the table: an occurrence of `%c` for a literal
key, a match of `%(\d*)f` for the fractional-second key. -/
def hasDirective : StrfKey → Bytes → Bool
  | .lit c, layout => decide ([37, c] <:+: layout)
  | .frac, layout => (fracSubmatch layout).isSome

/-- The field names of the named-field actions of an action list. -/
def namedFields : List Action → List Bytes
  | [] => []
  | .logAddUsedFieldAction field _ _ :: rest => field :: namedFields rest
  | _ :: rest => namedFields rest

/-- The consumed-field set holds exactly the names of the named-field actions. -/
def Consistent (c : LogbackConfig) : Prop :=
  ∀ F, F ∈ c.used_fields ↔ F ∈ namedFields c.actions

/-- Restated from the spec: emit every field of a list, in list order, separated by commas. -/
def emitFields (x : Ext) : List Field → logbackEncoder → Bool → logbackEncoder
  | [], final, _ => final
  | field :: rest, final, comma_need =>
    let final :=
      if comma_need then { final with buf := AppendByte final.buf 44 } else final
    emitFields x rest (field.AddTo x final) true

/-- Value of a hexadecimal digit. -/
def hexVal (b : Nat) : Option Nat :=
  if 48 ≤ b ∧ b ≤ 57 then some (b - 48)
  else if 97 ≤ b ∧ b ≤ 102 then some (b - 87)
  else if 65 ≤ b ∧ b ≤ 70 then some (b - 55)
  else none

/-- Value of four hexadecimal digits. -/
def hex4 (a b c d : Nat) : Option Nat :=
  match hexVal a, hexVal b, hexVal c, hexVal d with
  | some a, some b, some c, some d => some (((a * 16 + b) * 16 + c) * 16 + d)
  | _, _, _, _ => none

/-- The character a two-character JSON escape stands for. -/
def simpleEscape (e : Nat) : Option Nat :=
  if e = 34 then some 34
  else if e = 92 then some 92
  else if e = 47 then some 47
  else if e = 98 then some 8
  else if e = 102 then some 12
  else if e = 110 then some 10
  else if e = 114 then some 13
  else if e = 116 then some 9
  else none

/-- Output for a high surrogate escape that found no low surrogate: U+FFFD. -/
def flushPending : Option Nat → Bytes
  | none => []
  | some _ => utf8EncodeNat 0xFFFD

/-- Restated from the spec: the standard decoding of JSON string content (RFC 8259, the
text between the quotes).  Unescaped bytes are copied, except that a control character or
an unescaped quote is an error; `\"`, `\\`, `\/`, `\b`, `\f`, `\n`, `\r`, `\t` and `\uXXXX`
are unescaped, a surrogate pair gives one code point and a lone surrogate U+FFFD.
`pending` is a high surrogate escape just read. -/
def jsonUnescapeFrom : Option Nat → Bytes → Option Bytes
  | pending, [] => some (flushPending pending)
  | pending, b :: rest =>
    if b = 92 then
      match rest with
      | [] => none
      | e :: rest1 =>
        if e = 117 then
          match rest1 with
          | h1 :: h2 :: h3 :: h4 :: rest2 =>
            match hex4 h1 h2 h3 h4 with
            | none => none
            | some n =>
              if 0xD800 ≤ n ∧ n < 0xDC00 then
                (jsonUnescapeFrom (some n) rest2).map (fun out => flushPending pending ++ out)
              else if 0xDC00 ≤ n ∧ n < 0xE000 then
                match pending with
                | some hi =>
                  (jsonUnescapeFrom none rest2).map (fun out =>
                    utf8EncodeNat (0x10000 + (hi - 0xD800) * 1024 + (n - 0xDC00)) ++ out)
                | none =>
                  (jsonUnescapeFrom none rest2).map (fun out => utf8EncodeNat 0xFFFD ++ out)
              else
                (jsonUnescapeFrom none rest2).map (fun out =>
                  flushPending pending ++ utf8EncodeNat n ++ out)
          | _ => none
        else
          match simpleEscape e with
          | none => none
          | some c =>
            (jsonUnescapeFrom none rest1).map (fun out => flushPending pending ++ c :: out)
    else if b < 0x20 ∨ b = 34 then none
    else (jsonUnescapeFrom none rest).map (fun out => flushPending pending ++ b :: out)

/-- Decoding of JSON string content. -/
def jsonUnescape (s : Bytes) : Option Bytes := jsonUnescapeFrom none s

/-- The bytes the escaping writer appends for one Unicode scalar value. -/
def escapeScalar (n : Nat) : Bytes :=
  if n < 0x80 then
    if n ≥ 0x20 ∧ n ≠ 92 ∧ n ≠ 34 then [n] else appendEscape [] n
  else utf8EncodeNat n

/-- A Unicode scalar value: what a `Char` holds. -/
def IsScalar (n : Nat) : Prop := n < 0xD800 ∨ (0xDFFF < n ∧ n < 0x110000)

/-! ## Sample inputs -/

/-- External services with fixed answers. -/
def sampleExt : Ext :=
  { levelString := fun _ => str "info"
    levelText := fun _ _ => str "INFO"
    callerString := fun _ => str "main.go:34"
    callerText := fun _ _ => str "main.go:34"
    timeFormat := fun _ _ => str "2024-01-02" }

/-- The keys of `zap.NewProductionEncoderConfig()`, without encoders. -/
def sampleConfig : EncoderConfig :=
  { MessageKey := str "msg", LevelKey := str "level", TimeKey := str "ts",
    NameKey := str "logger", CallerKey := str "caller", FunctionKey := [],
    StacktraceKey := str "stacktrace", SkipLineEnding := false, LineEnding := str "\n",
    EncodeLevel := none, EncodeTime := none, EncodeDuration := none, EncodeCaller := none }

/-- A record with message `hello`, no caller and no stack trace. -/
def sampleEntry : Entry :=
  { Level := 0, Time := { IsZero := false, UnixNano := 0 }, LoggerName := [],
    Message := str "hello",
    Caller := { Defined := false, File := [], Line := 0, Function := [] },
    Stack := [] }

/-- The directive map iterated in the order of the source text, in every round. -/
def tableOrder : Nat → List (StrfKey × Bytes) := fun _ => strf_map

/-- The fields `tid = "T1"` and `other = "O1"`. -/
def scenarioFields : List Field :=
  [Field.ofString (str "tid") (str "T1"), Field.ofString (str "other") (str "O1")]

/-- The template of the named-field scenario. -/
def scenarioEncoder : logbackEncoder :=
  { newZaplogbackEncoder sampleConfig with
    actions := [.logAddUsedFieldAction (str "tid") (str "[\"tid\":") (str "]"),
      .logAddBytesAction (str " "), .logAddRemindFieldAction]
    used_fields := [str "tid"] }

/-- A field of `ReflectType` whose value the reflection encoder fails on with `boom`. -/
def failingReflectField : Field :=
  { Key := str "r", Type_ := .ReflectType (.failed (str "boom")), Integer := 0, String := [] }

/-- What the escaping writer appends for a byte string, byte by byte: a byte that can be
copied, the escape of one that cannot, the replacement-character escape for a byte that
starts no valid rune, and the bytes of a valid multi-byte rune unchanged (`skip` counts
those still to be copied). -/
def escapeBytes : Bytes → Nat → Bytes
  | [], _ => []
  | c :: t, skip + 1 => c :: escapeBytes t skip
  | c :: t, 0 =>
    if c ≥ RuneSelf then
      if (DecodeRune (c :: t)).1 ≠ RuneError ∨ (DecodeRune (c :: t)).2 ≠ 1 then
        c :: escapeBytes t ((DecodeRune (c :: t)).2 - 1)
      else str "\\ufffd" ++ escapeBytes t 0
    else if c ≥ 0x20 ∧ c ≠ 92 ∧ c ≠ 34 then c :: escapeBytes t 0
    else appendEscape [] c ++ escapeBytes t 0

/-- Restated from the claim: the escapes of `\`, `"`, newline, carriage return and tab,
the escape `\u00XX` of another control character, and the replacement-character escape. -/
def IsWriterEscape (t : Bytes) : Prop :=
  t = str "\\\\" ∨ t = str "\\\"" ∨ t = str "\\n" ∨ t = str "\\r" ∨ t = str "\\t" ∨
    t = str "\\ufffd" ∨ ∃ h1 h2, h1 ∈ _hex ∧ h2 ∈ _hex ∧ t = str "\\u00" ++ [h1, h2]

/-- Restated from the claim: a piece of JSON string content is one of the escapes, or
the UTF-8 encoding of a Unicode scalar value that is neither a control character nor `"`
nor `\`. -/
def IsContentPiece (t : Bytes) : Prop :=
  IsWriterEscape t ∨ ∃ n, IsScalar n ∧ 0x20 ≤ n ∧ n ≠ 34 ∧ n ≠ 92 ∧ t = utf8EncodeNat n

/-- Restated from the claim: JSON string content is a sequence of such pieces. -/
def IsJsonStringContent (out : Bytes) : Prop :=
  ∃ pieces : List Bytes, out = pieces.flatten ∧ ∀ t ∈ pieces, IsContentPiece t

/-- Valid UTF-8: the encodings of a sequence of Unicode scalar values. -/
def IsValidUtf8 (out : Bytes) : Prop :=
  ∃ ns : List Nat, (∀ n ∈ ns, IsScalar n) ∧ out = ns.flatMap utf8EncodeNat

/-- Number of `OpenNamespace` calls a marshaler makes itself; those of a nested marshaler
are closed by its own `AppendObject`. -/
def countOpen : List SinkOp → Nat
  | [] => 0
  | .OpenNamespace _ :: rest => countOpen rest + 1
  | _ :: rest => countOpen rest

/-- Nesting depth after reading bytes from depth `d`: `{` goes one level down, `}` one
level up, and a `}` at depth 0 is an error. -/
def braceDepth : Nat → Bytes → Option Nat
  | d, [] => some d
  | d, b :: t =>
    if b = 123 then braceDepth (d + 1) t
    else if b = 125 then (if d = 0 then none else braceDepth (d - 1) t)
    else braceDepth d t

/-- A byte string without brace characters. -/
abbrev NoBrace (c : Bytes) : Prop := ∀ b ∈ c, b ≠ 123 ∧ b ≠ 125

/-- A property of the bytes an operation appends and of the number of namespaces it leaves
open, which holds for brace-free bytes and is kept by the ways operations combine. -/
structure ChunkLaw (P : Bytes → Nat → Prop) : Prop where
  append : ∀ a b m n, P a m → P b n → P (a ++ b) (m + n)
  plain : ∀ c, NoBrace c → P c 0
  opening : P [123] 1
  close : ∀ a m k, P a (m + k) → P (a ++ List.replicate k 125) m

/-- What a content property `Q` of the texts handed to the encoder must give for the
appended bytes: the text is neutral as it is and once escaped, and `Q` passes to the key of
an error field. -/
structure ContentLaw (P : Bytes → Nat → Prop) (Q : Bytes → Prop) : Prop where
  raw : ∀ c, Q c → P c 0
  escaped : ∀ c, Q c → P (escapeBytes c 0) 0
  errorKey : ∀ c, Q c → Q (c ++ str "Error")

/-- The encoder `enc'` is `enc` with bytes appended that satisfy `P` and with `δ` more
namespaces open; nothing else differs. -/
def Step (P : Bytes → Nat → Prop) (δ : Nat) (enc enc' : logbackEncoder) : Prop :=
  ∃ out, enc' = { enc with buf := enc.buf ++ out, openNamespaces := enc.openNamespaces + δ } ∧
    P out δ

/-- The texts a strategy call hands over satisfy `Q`. -/
def PrimCall.All (Q : Bytes → Prop) : PrimCall → Prop
  | .AppendString v => Q v
  | .AppendByteString v => Q v
  | _ => True

/-- The bytes the reflection encoder produces, or its error text, satisfy `Q`. -/
def Reflected.All (Q : Bytes → Prop) : Reflected → Prop
  | .nil => True
  | .encoded out => Q (TrimNewline out)
  | .failed err => Q err

mutual
/-- The keys and values of a marshaler call satisfy `Q`. -/
def SinkOp.All (Q : Bytes → Prop) : SinkOp → Prop
  | .AddString key val => Q key ∧ Q val
  | .AddInt64 key _ => Q key
  | .AddUint64 key _ => Q key
  | .AddBool key _ => Q key
  | .AddByteString key val => Q key ∧ Q val
  | .AddDuration key _ => Q key
  | .AddTime key _ => Q key
  | .AddReflected key obj => Q key ∧ obj.All Q
  | .OpenNamespace key => Q key
  | .AddObject key calls _ => Q key ∧ SinkOp.AllOf Q calls

/-- The keys and values of the calls of a marshaler satisfy `Q`. -/
def SinkOp.AllOf (Q : Bytes → Prop) : List SinkOp → Prop
  | [] => True
  | op :: rest => SinkOp.All Q op ∧ SinkOp.AllOf Q rest
end

/-- The key, the values and the error text of a field satisfy `Q`. -/
def Field.All (Q : Bytes → Prop) (f : Field) : Prop :=
  Q f.Key ∧ Q f.String ∧
    match f.Type_ with
    | .ByteStringType val => Q val
    | .ReflectType obj => obj.All Q
    | .ObjectMarshalerType calls err => SinkOp.AllOf Q calls ∧ ∀ e, err = some e → Q e
    | _ => True

/-- The literal texts of an action satisfy `Q`. -/
def Action.All (Q : Bytes → Prop) : Action → Prop
  | .logAddBytesAction value => Q value
  | .logAddUsedFieldAction _ before_byte after_byte => Q before_byte ∧ Q after_byte
  | _ => True

/-- The texts of a record that the encoder copies satisfy `Q`. -/
def Entry.All (Q : Bytes → Prop) (ent : Entry) : Prop :=
  Q ent.Message ∧ Q ent.Caller.Function

/-- Every text the strategies of a configuration and the external services can hand to the
encoder satisfies `Q`. -/
def EncoderConfig.All (Q : Bytes → Prop) (x : Ext) (cfg : EncoderConfig) : Prop :=
  (∀ f, cfg.EncodeDuration = some (.custom f) → ∀ v, ∀ c ∈ f v, c.All Q) ∧
    (∀ f, cfg.EncodeTime = some (.custom f) → ∀ v, ∀ c ∈ f v, c.All Q) ∧
    (∀ layout, cfg.EncodeTime = some (.ofLayout layout) → ∀ v, Q (x.timeFormat v layout)) ∧
    (∀ f, cfg.EncodeLevel = some (.custom f) → ∀ v, ∀ c ∈ f v, c.All Q) ∧
    (∀ s, cfg.EncodeLevel = some (.zap s) → ∀ v, Q (x.levelText s v)) ∧
    (∀ v, Q (x.levelString v)) ∧
    (∀ f, cfg.EncodeCaller = some (.custom f) → ∀ v, ∀ c ∈ f v, c.All Q) ∧
    (∀ s, cfg.EncodeCaller = some (.zap s) → ∀ v, Q (x.callerText s v)) ∧
    (∀ v, Q (x.callerString v))

/-- The bytes are correctly nested from every depth and leave `δ` more braces open than
they close. -/
def Nests (out : Bytes) (δ : Nat) : Prop := ∀ d, braceDepth d out = some (d + δ)

/-- A namespace field, an object field whose marshaler opens a namespace, adds a string and
returns an error, and a string field. -/
def namespaceFields : List Field :=
  [{ Key := str "ns", Type_ := .NamespaceType, Integer := 0, String := [] },
    { Key := str "o",
      Type_ := .ObjectMarshalerType [.OpenNamespace (str "in"), .AddString (str "a") (str "b")]
        (some (str "bad")),
      Integer := 0, String := [] },
    Field.ofString (str "k") (str "v")]

/-- The template of the pattern `%fields`. -/
def fieldsEncoder : logbackEncoder :=
  { newZaplogbackEncoder sampleConfig with actions := [.logAddRemindFieldAction] }

/-- A piece of a layout: a byte of plain text, a directive `%c`, or a fractional-second
directive `%<digits>f`. -/
inductive LayoutItem where
  | text (b : Nat)
  | lit (c : Nat)
  | frac (ds : Bytes)
deriving DecidableEq, Repr

/-- The bytes of a piece. -/
def LayoutItem.render : LayoutItem → Bytes
  | .text b => [b]
  | .lit c => [37, c]
  | .frac ds => 37 :: ds ++ [102]

/-- The layout made of a list of pieces. -/
def renderItems (its : List LayoutItem) : Bytes := its.flatMap LayoutItem.render

/-- A piece is read back as what it is: plain text is not `%`, the letter of a directive
is neither `%` nor `f` nor a digit, and the count of a fractional-second directive is made
of digits. -/
def LayoutItem.ok : LayoutItem → Bool
  | .text b => b != 37
  | .lit c => c != 37 && c != 102 && !isDigit c
  | .frac ds => ds.all isDigit

/-- A table entry whose letter can be told from a fractional-second directive and whose
value has no `%`. -/
def entryOk (e : StrfKey × Bytes) : Bool :=
  (match e.1 with
    | .lit c => c != 37 && c != 102 && !isDigit c
    | .frac => true) && e.2.all (fun b => b != 37)

/-- What a round of the loop for the table entry `e` does to a piece; `z` is the text put
for a fractional-second directive. -/
def itemStep (z : Bytes) (e : StrfKey × Bytes) : LayoutItem → List LayoutItem
  | .text b => [.text b]
  | .lit d =>
    match e.1 with
    | .lit c => if d = c then e.2.map .text else [.lit d]
    | .frac => [.lit d]
  | .frac ds =>
    match e.1 with
    | .lit _ => [.frac ds]
    | .frac => z.map .text

/-- What a round of the loop for the table entry `e` does to a list of pieces. -/
def stepItems (z : Bytes) (e : StrfKey × Bytes) (its : List LayoutItem) : List LayoutItem :=
  its.flatMap (itemStep z e)

/-- The digits of the first fractional-second directive. -/
def firstFrac : List LayoutItem → Option Bytes
  | [] => none
  | .frac ds :: _ => some ds
  | .text _ :: rest => firstFrac rest
  | .lit _ :: rest => firstFrac rest

/-- The number of zeros the loop computes from the digits of a directive. -/
def zeroCount (ds : Bytes) : Nat :=
  match Atoi ds with
  | some n => n
  | none => _default_milesecond_zero_count

/-- The pieces of plain text. -/
def textItems (s : String) : List LayoutItem := (str s).map .text

/-- The pieces of the layout
`%Y-%m-%d %H:%M:%S.%3f %a %A %w %b %B %y %I %p %z %Z %j`. -/
def tableLayoutItems : List LayoutItem :=
  [.lit 89, .text 45, .lit 109, .text 45, .lit 100, .text 32, .lit 72, .text 58, .lit 77,
    .text 58, .lit 83, .text 46, .frac [51], .text 32, .lit 97, .text 32, .lit 65, .text 32,
    .lit 119, .text 32, .lit 98, .text 32, .lit 66, .text 32, .lit 121, .text 32, .lit 73,
    .text 32, .lit 112, .text 32, .lit 122, .text 32, .lit 90, .text 32, .lit 106]

/-- The pieces of the layout `%3f %6f`. -/
def twoFracItems : List LayoutItem := [.frac [51], .text 32, .frac [54]]

theorem matchTokenAt_of_ne {b : Nat} (t : Bytes) (h : b ≠ 37) :
    matchTokenAt (b :: t) = none := by
  simp [matchTokenAt, h]

theorem findAllTokens_of_no_percent :
    ∀ (s : Bytes) (k : Nat), 37 ∉ s → findAllTokens s k = []
  | [], _, _ => by simp [findAllTokens]
  | b :: t, 0, h => by
    have hb : b ≠ 37 := fun e => h (by simp [e])
    have ht : 37 ∉ t := fun e => h (List.mem_cons_of_mem _ e)
    rw [findAllTokens, matchTokenAt_of_ne t hb]
    exact findAllTokens_of_no_percent t 0 ht
  | b :: t, k + 1, h => by
    have ht : 37 ∉ t := fun e => h (List.mem_cons_of_mem _ e)
    rw [findAllTokens]
    exact findAllTokens_of_no_percent t k ht

/-! ## Literal-only format strings -/

/-- C1 fails on the code: for a format string without `%`, a record with an empty stack
trace and any field list, the encoder built from the format string has an empty buffer and
`EncodeEntry` returns exactly the configured line terminator; the literal text is not
emitted. -/
theorem literal_only_format_renders_line_ending (ord : Nat → List (StrfKey × Bytes))
    (cfg : EncoderConfig) (x : Ext) (log_format : Bytes) (ent : Entry) (fields : List Field)
    (hfmt : 37 ∉ log_format) (hstack : ent.Stack = []) :
    ∃ enc, NewZaplogbackEncoder ord cfg log_format = some enc ∧ enc.buf = [] ∧
      enc.EncodeEntry x ent fields =
        some ((newZaplogbackEncoder cfg).EncoderConfig.LineEnding, none) := by
  have hnew : NewZaplogbackEncoder ord cfg log_format = some (newZaplogbackEncoder cfg) := by
    simp only [NewZaplogbackEncoder, logbackEncoder.UseLogFormat, Parse_compile_log_format,
      findAllTokens_of_no_percent log_format 0 hfmt, parseLoop]
    rfl
  refine ⟨newZaplogbackEncoder cfg, hnew, rfl, ?_⟩
  simp [logbackEncoder.EncodeEntry, runActions, logbackEncoder.clone, newZaplogbackEncoder,
    logbackEncoder.closeOpenNamespaces, hstack, AppendString]

/-- Witness of C1 at the format string `hello`. -/
theorem literal_only_format_renders_line_ending_witness :
    37 ∉ str "hello" ∧ sampleEntry.Stack = [] ∧
      ∃ enc, NewZaplogbackEncoder tableOrder sampleConfig (str "hello") = some enc ∧
        enc.buf = [] ∧
        enc.EncodeEntry sampleExt sampleEntry [] =
          some ((newZaplogbackEncoder sampleConfig).EncoderConfig.LineEnding, none) :=
  ⟨by decide, rfl,
    literal_only_format_renders_line_ending tableOrder sampleConfig sampleExt (str "hello")
      sampleEntry [] (by decide) rfl⟩

/-- The format string `hello` contains no `%`, the record has no stack trace, and
`EncodeEntry` returns the line terminator alone, not `hello` followed by it. -/
theorem literal_only_format_hello :
    37 ∉ str "hello" ∧ sampleEntry.Stack = [] ∧
      (NewZaplogbackEncoder tableOrder sampleConfig (str "hello")).bind
          (fun enc => enc.EncodeEntry sampleExt sampleEntry []) = some (str "\n", none) ∧
      (NewZaplogbackEncoder tableOrder sampleConfig (str "hello")).bind
          (fun enc => enc.EncodeEntry sampleExt sampleEntry []) ≠
        some (str "hello" ++ str "\n", none) := by
  decide

/-! ## Layouts without a directive -/

theorem replaceLit_of_no_occurrence (c : Nat) (v : Bytes) :
    ∀ s : Bytes, ¬ [37, c] <:+: s → replaceLit c v s = s
  | [], _ => rfl
  | [_], _ => rfl
  | a :: b :: t, h => by
    have hab : ¬ (a = 37 ∧ b = c) := by
      rintro ⟨rfl, rfl⟩
      exact h (List.prefix_iff_eq_append.2 (by simp) |>.isInfix)
    have ht : ¬ [37, c] <:+: b :: t :=
      fun e => h (e.trans (List.suffix_cons a (b :: t)).isInfix)
    rw [replaceLit, if_neg hab, replaceLit_of_no_occurrence c v (b :: t) ht]

theorem strftimeLoop_of_no_directive (go_time_format : Bytes) :
    ∀ order : List (StrfKey × Bytes),
      (∀ e ∈ order, hasDirective e.1 go_time_format = false) →
      (∃ v, (StrfKey.frac, v) ∈ order) → strftimeLoop order go_time_format = none
  | [], _, hm => by simp at hm
  | (.frac, v) :: rest, hfree, _ => by
    have h := hfree (.frac, v) (by simp)
    have hnone : fracSubmatch go_time_format = none := by
      cases hf : fracSubmatch go_time_format with
      | none => rfl
      | some ds => simp [hasDirective, hf] at h
    simp [strftimeLoop, strftimeStep, hnone]
  | (.lit c, v) :: rest, hfree, hm => by
    have h := hfree (.lit c, v) (by simp)
    simp only [hasDirective, decide_eq_false_iff_not] at h
    have hrest : ∃ w, (StrfKey.frac, w) ∈ rest := by
      obtain ⟨w, hw⟩ := hm
      refine ⟨w, ?_⟩
      simpa using hw
    simp [strftimeLoop, strftimeStep, replaceLit_of_no_occurrence c v _ h,
      strftimeLoop_of_no_directive go_time_format rest
        (fun e he => hfree e (List.mem_cons_of_mem _ he)) hrest]

/-- C3 fails on the code: for a layout that contains none of the directives of the table,
`StrftimeFormatLayout` leaves the layout unchanged until it reaches the key `%(\d*)f`, where
it indexes the nil submatch and panics, in every iteration order of the directive map. -/
theorem strftime_panics_without_directive (order : List (StrfKey × Bytes)) (layout : Bytes)
    (horder : order.Perm strf_map)
    (hlayout : ∀ e ∈ strf_map, hasDirective e.1 layout = false) :
    StrftimeFormatLayout order layout = none := by
  have hm : ∃ v, (StrfKey.frac, v) ∈ order :=
    ⟨str "000", horder.mem_iff.2 (by decide)⟩
  exact strftimeLoop_of_no_directive layout order
    (fun e he => hlayout e (horder.mem_iff.1 he)) hm

/-- Witness of C3 at the layout `abc %q` and the order of the source text. -/
theorem strftime_panics_without_directive_witness :
    strf_map.Perm strf_map ∧ (∀ e ∈ strf_map, hasDirective e.1 (str "abc %q") = false) ∧
      StrftimeFormatLayout strf_map (str "abc %q") = none :=
  ⟨List.Perm.refl _, by decide,
    strftime_panics_without_directive strf_map (str "abc %q") (List.Perm.refl _)
      (by decide)⟩

/-! ## Unrecognized tokens -/

/-- C4 fails on the code: for `%foo bar` the compiler emits one literal action whose bytes
are the trailing run followed by the token, ` bar%foo`, not the token followed by the run. -/
theorem unrecognized_token_after_trailing_run (ord : Nat → List (StrfKey × Bytes)) :
    (Parse_compile_log_format ord (str "%foo bar")).map (fun c => c.actions) =
        some [Action.logAddBytesAction (str " bar%foo")] ∧
      str " bar%foo" ≠ str "%foo bar" := by
  exact ⟨rfl, by decide⟩

/-! ## Literal text between two tokens -/

theorem findAllTokens_skip :
    ∀ a r : Bytes, findAllTokens (a ++ r) a.length = findAllTokens r 0
  | [], r => by simp
  | b :: a, r => by
    simp only [List.cons_append, List.length_cons]
    rw [findAllTokens]
    exact findAllTokens_skip a r

theorem takeWhile_append_stop (p : Nat → Bool) :
    ∀ a r : Bytes, (∀ b ∈ a, p b = true) → (∀ b, r.head? = some b → p b = false) →
      (a ++ r).takeWhile p = a
  | [], [], _, _ => rfl
  | [], c :: r, _, hr => by simp [List.takeWhile, hr c rfl]
  | b :: a, r, ha, hr => by
    have hb : p b = true := ha b (by simp)
    have ih := takeWhile_append_stop p a r (fun c hc => ha c (List.mem_cons_of_mem _ hc)) hr
    simp [List.takeWhile_cons, hb, ih]

theorem dropWhile_append_stop (p : Nat → Bool) :
    ∀ a r : Bytes, (∀ b ∈ a, p b = true) → (∀ b, r.head? = some b → p b = false) →
      (a ++ r).dropWhile p = r
  | [], [], _, _ => rfl
  | [], c :: r, _, hr => by simp [List.dropWhile, hr c rfl]
  | b :: a, r, ha, hr => by
    have hb : p b = true := ha b (by simp)
    have ih := dropWhile_append_stop p a r (fun c hc => ha c (List.mem_cons_of_mem _ hc)) hr
    simp [List.dropWhile_cons, hb, ih]

theorem matchConfigAt_of_head (tail : Bytes) (h : ∀ b, tail.head? = some b → b ≠ 123) :
    matchConfigAt tail = none := by
  cases tail with
  | nil => rfl
  | cons b t => simp [matchConfigAt, h b rfl]

/-- A token without configuration: the name is followed by neither a word character nor
an opening brace. -/
theorem matchTokenAt_plain (name tail : Bytes) (hname : name ≠ [])
    (hw : ∀ b ∈ name, isWord b = true)
    (htail : ∀ b, tail.head? = some b → isWord b = false ∧ b ≠ 123) :
    matchTokenAt (37 :: (name ++ tail)) =
      some { action := 37 :: name, config := none, remind := tail.takeWhile notPercent } := by
  have ht := takeWhile_append_stop isWord name tail hw (fun b hb => (htail b hb).1)
  have hd := dropWhile_append_stop isWord name tail hw (fun b hb => (htail b hb).1)
  have hc := matchConfigAt_of_head tail (fun b hb => (htail b hb).2)
  simp [matchTokenAt, ht, hd, hc, hname]

theorem parseMatch_message (order : List (StrfKey × Bytes)) (c : LogbackConfig)
    (remind : Bytes) :
    parseMatch order c { action := str "%message", config := none, remind := remind } =
      some { c with actions := appendRemind (c.actions ++ [.logAddMsgAction]) remind } := by
  have h1 : ¬ str "%message" = str "%date" := by decide
  have h2 : ¬ str "%message" = str "%level" := by decide
  have h3 : ¬ str "%message" = str "%caller" := by decide
  unfold parseMatch
  dsimp only
  rw [if_neg h1, if_neg h2, if_neg h3, if_pos rfl]

theorem findAllTokens_message_literal_message (L : Bytes) (hL : 37 ∉ L)
    (hhead : ∀ b, L.head? = some b → isWord b = false ∧ b ≠ 123) :
    findAllTokens (str "%message" ++ L ++ str "%message") 0 =
      [ { action := str "%message", config := none, remind := L },
        { action := str "%message", config := none, remind := [] } ] := by
  have htail : ∀ b, (L ++ str "%message").head? = some b → isWord b = false ∧ b ≠ 123 := by
    intro b hb
    cases L with
    | nil =>
      have : b = 37 := by
        have h2 : (str "%message").head? = some 37 := by decide
        simp only [List.nil_append] at hb
        rw [h2] at hb
        exact (Option.some.inj hb).symm
      subst this
      decide
    | cons l t => exact hhead b (by simpa using hb)
  have hrem : (L ++ str "%message").takeWhile notPercent = L := by
    apply takeWhile_append_stop
    · intro b hb
      have : b ≠ 37 := fun e => hL (e ▸ hb)
      simp [notPercent, this]
    · intro b hb
      have h2 : (str "%message").head? = some 37 := by decide
      rw [h2] at hb
      have : b = 37 := (Option.some.inj hb).symm
      subst this
      rfl
  have hshape : str "%message" ++ L ++ str "%message" =
      37 :: (str "message" ++ (L ++ str "%message")) := by
    have : str "%message" = 37 :: str "message" := by decide
    rw [this]
    simp
  have hm := matchTokenAt_plain (str "message") (L ++ str "%message") (by decide)
    (by decide) htail
  rw [hrem] at hm
  rw [hshape, findAllTokens, hm]
  dsimp only
  have hsize : (TokenMatch.size { action := 37 :: str "message", config := none, remind := L })
      - 1 = (str "message" ++ L).length := by
    have h7 : (str "message").length = 7 := by decide
    simp [TokenMatch.size, h7]
  rw [hsize, ← List.append_assoc, findAllTokens_skip]
  have h37 : str "%message" = 37 :: str "message" := by decide
  have hlast : findAllTokens (str "%message") 0 =
      [{ action := str "%message", config := none, remind := [] }] := by decide
  rw [hlast, h37]

/-- C5, as the code has it: for a literal text `L` without `%` that begins with neither a
word character nor `{`, a non-empty message key and a record whose stack trace is not
rendered, the pattern `%message` ++ L ++ `%message` renders as the message, `L`, the message
and the line terminator. -/
theorem message_literal_message_rendered (ord : Nat → List (StrfKey × Bytes))
    (cfg : EncoderConfig) (x : Ext) (ent : Entry) (fields : List Field) (L : Bytes)
    (hkey : cfg.MessageKey ≠ []) (hL : 37 ∉ L)
    (hhead : ∀ b, L.head? = some b → isWord b = false ∧ b ≠ 123)
    (hstack : ent.Stack = [] ∨ cfg.StacktraceKey = []) :
    ∃ enc, NewZaplogbackEncoder ord cfg (str "%message" ++ L ++ str "%message") = some enc ∧
      enc.EncodeEntry x ent fields =
        some (ent.Message ++ L ++ ent.Message ++
          (newZaplogbackEncoder cfg).EncoderConfig.LineEnding, none) := by
  have hparse : Parse_compile_log_format ord (str "%message" ++ L ++ str "%message") =
      some { EncodeLevel := none, EncodeTime := none, EncodeCaller := none,
             actions := appendRemind [.logAddMsgAction] L ++ [.logAddMsgAction],
             used_fields := [] } := by
    rw [Parse_compile_log_format, findAllTokens_message_literal_message L hL hhead]
    simp [parseLoop, parseMatch_message, appendRemind]
  refine ⟨{ newZaplogbackEncoder cfg with
            actions := appendRemind [.logAddMsgAction] L ++ [.logAddMsgAction] }, ?_, ?_⟩
  · simp only [NewZaplogbackEncoder, logbackEncoder.UseLogFormat, hparse]
    rfl
  · have hk : (newZaplogbackEncoder cfg).EncoderConfig.MessageKey ≠ [] := by
      unfold newZaplogbackEncoder
      split_ifs <;> exact hkey
    have hs : ent.Stack = [] ∨ (newZaplogbackEncoder cfg).EncoderConfig.StacktraceKey = [] := by
      rcases hstack with h | h
      · exact Or.inl h
      · right
        unfold newZaplogbackEncoder
        split_ifs <;> exact h
    have hb : (newZaplogbackEncoder cfg).buf = [] := rfl
    have hn : (newZaplogbackEncoder cfg).openNamespaces = 0 := rfl
    generalize newZaplogbackEncoder cfg = e at hk hs hb hn ⊢
    have hstk : ¬ (ent.Stack ≠ [] ∧ e.EncoderConfig.StacktraceKey ≠ []) := by
      rintro ⟨h1, h2⟩
      rcases hs with h | h
      · exact h1 h
      · exact h2 h
    by_cases hLe : L = []
    · subst hLe
      simp [logbackEncoder.EncodeEntry, appendRemind, runActions, runAction, logAddMsgAction,
        logbackEncoder.clone, logbackEncoder.closeOpenNamespaces, hk, hb, hn, hstk,
        AppendBytes, AppendString]
    · have hlen : L.length ≥ 1 := by
        cases L with
        | nil => exact absurd rfl hLe
        | cons b t => simp
      simp [logbackEncoder.EncodeEntry, appendRemind, runActions, runAction, logAddMsgAction,
        logAddBytesAction, logbackEncoder.clone, logbackEncoder.closeOpenNamespaces, hk, hb,
        hn, hstk, hlen, AppendBytes, AppendString]

/-- Witness of C5 at the literal text ` - `. -/
theorem message_literal_message_rendered_witness :
    sampleConfig.MessageKey ≠ [] ∧ 37 ∉ str " - " ∧
      (∀ b, (str " - ").head? = some b → isWord b = false ∧ b ≠ 123) ∧
      (sampleEntry.Stack = [] ∨ sampleConfig.StacktraceKey = []) ∧
      ∃ enc, NewZaplogbackEncoder tableOrder sampleConfig
          (str "%message" ++ str " - " ++ str "%message") = some enc ∧
        enc.EncodeEntry sampleExt sampleEntry [] =
          some (sampleEntry.Message ++ str " - " ++ sampleEntry.Message ++
            (newZaplogbackEncoder sampleConfig).EncoderConfig.LineEnding, none) :=
  ⟨by decide, by decide, by decide, Or.inl rfl,
    message_literal_message_rendered tableOrder sampleConfig sampleExt sampleEntry []
      (str " - ") (by decide) (by decide) (by decide) (Or.inl rfl)⟩

/-- C5 as stated fails: the literal text `{x}` holds no conversion token, yet the pattern
`%message{x}%message` renders the message `hello` as `hellohello`: the text is taken as the
configuration segment of the first token and dropped. -/
theorem message_literal_message_counterexample :
    37 ∉ str "\x7bx\x7d" ∧ sampleConfig.MessageKey ≠ [] ∧ sampleEntry.Message = str "hello" ∧
      (NewZaplogbackEncoder tableOrder sampleConfig
          (str "%message" ++ str "\x7bx\x7d" ++ str "%message")).bind
        (fun enc => enc.EncodeEntry sampleExt sampleEntry []) =
          some (str "hellohello" ++ str "\n", none) ∧
      str "hellohello" ++ str "\n" ≠ str "hello" ++ str "\x7bx\x7d" ++ str "hello" ++ str "\n" := by
  decide

/-! ## The named-field scenario -/

theorem scenario_actions (x : Ext) (final : logbackEncoder) (ent : Entry)
    (hb : final.buf = []) (hu : final.used_fields = [str "tid"]) :
    runActions x
        [.logAddUsedFieldAction (str "tid") (str "[\"tid\":") (str "]"),
          .logAddBytesAction (str " "), .logAddRemindFieldAction]
        final ent scenarioFields =
      some { final with buf := str "[\"tid\":T1] \x7b\"other\":O1\x7d" } := by
  obtain ⟨c, b, n, a, u⟩ := final
  simp only at hb hu
  subst hb hu
  rfl

/-- C6, as the code has it: the pattern `%x{tid:["tid":$0]} %fields` with the string fields
`tid = "T1"`, `other = "O1"` renders, before the line terminator, as
`["tid":T1] {"other":O1}`: the remainder object holds the quoted key, a colon and the
escaped value, without quotes and without a space. -/
theorem named_field_scenario_rendered (ord : Nat → List (StrfKey × Bytes))
    (cfg : EncoderConfig) (x : Ext) (ent : Entry)
    (hstack : ent.Stack = [] ∨ cfg.StacktraceKey = []) :
    ∃ enc, NewZaplogbackEncoder ord cfg (str "%x\x7btid:[\"tid\":$0]\x7d %fields") = some enc ∧
      enc.EncodeEntry x ent scenarioFields =
        some (str "[\"tid\":T1] \x7b\"other\":O1\x7d" ++
          (newZaplogbackEncoder cfg).EncoderConfig.LineEnding, none) := by
  have hparse : Parse_compile_log_format ord (str "%x\x7btid:[\"tid\":$0]\x7d %fields") =
      some { EncodeLevel := none, EncodeTime := none, EncodeCaller := none,
             actions := [.logAddUsedFieldAction (str "tid") (str "[\"tid\":") (str "]"),
               .logAddBytesAction (str " "), .logAddRemindFieldAction],
             used_fields := [str "tid"] } := rfl
  refine ⟨{ newZaplogbackEncoder cfg with
            actions := [.logAddUsedFieldAction (str "tid") (str "[\"tid\":") (str "]"),
               .logAddBytesAction (str " "), .logAddRemindFieldAction],
            used_fields := [str "tid"] }, ?_, ?_⟩
  · simp only [NewZaplogbackEncoder, logbackEncoder.UseLogFormat, hparse]
  · have hs : ent.Stack = [] ∨ (newZaplogbackEncoder cfg).EncoderConfig.StacktraceKey = [] := by
      rcases hstack with h | h
      · exact Or.inl h
      · right
        unfold newZaplogbackEncoder
        split_ifs <;> exact h
    have hb : (newZaplogbackEncoder cfg).buf = [] := rfl
    have hn : (newZaplogbackEncoder cfg).openNamespaces = 0 := rfl
    generalize newZaplogbackEncoder cfg = e at hs hb hn ⊢
    have hstk : ¬ (ent.Stack ≠ [] ∧ e.EncoderConfig.StacktraceKey ≠ []) := by
      rintro ⟨h1, h2⟩
      rcases hs with h | h
      · exact h1 h
      · exact h2 h
    simp only [logbackEncoder.EncodeEntry]
    rw [scenario_actions x _ ent rfl rfl]
    simp [logbackEncoder.clone, logbackEncoder.closeOpenNamespaces, hb, hn, hstk,
      AppendString]

/-- Witness of C6 for a record without stack trace. -/
theorem named_field_scenario_rendered_witness :
    (sampleEntry.Stack = [] ∨ sampleConfig.StacktraceKey = []) ∧
      ∃ enc, NewZaplogbackEncoder tableOrder sampleConfig
          (str "%x\x7btid:[\"tid\":$0]\x7d %fields") = some enc ∧
        enc.EncodeEntry sampleExt sampleEntry scenarioFields =
          some (str "[\"tid\":T1] \x7b\"other\":O1\x7d" ++
            (newZaplogbackEncoder sampleConfig).EncoderConfig.LineEnding, none) :=
  ⟨Or.inl rfl,
    named_field_scenario_rendered tableOrder sampleConfig sampleExt sampleEntry (Or.inl rfl)⟩

/-- C6 as stated fails: the scenario renders `["tid":T1] {"other":O1}` before the line
terminator, not `["tid":T1] {"other": "O1"}`. -/
theorem named_field_scenario_counterexample :
    (NewZaplogbackEncoder tableOrder sampleConfig (str "%x\x7btid:[\"tid\":$0]\x7d %fields")).bind
        (fun enc => enc.EncodeEntry sampleExt sampleEntry scenarioFields) =
          some (str "[\"tid\":T1] \x7b\"other\":O1\x7d" ++ str "\n", none) ∧
      str "[\"tid\":T1] \x7b\"other\":O1\x7d" ++ str "\n" ≠
        str "[\"tid\":T1] \x7b\"other\": \"O1\"\x7d" ++ str "\n" := by
  decide

/-! ## Consistency of the action list and the consumed-field set -/

theorem mem_namedFields (F : Bytes) :
    ∀ actions : List Action,
      F ∈ namedFields actions ↔ ∃ B A, Action.logAddUsedFieldAction F B A ∈ actions
  | [] => by simp [namedFields]
  | a :: rest => by
    have ih := mem_namedFields F rest
    cases a <;> simp [namedFields, ih]
    rename_i field before_byte after_byte
    constructor
    · rintro (h | ⟨B, A, h⟩)
      · exact ⟨before_byte, after_byte, Or.inl ⟨h, rfl, rfl⟩⟩
      · exact ⟨B, A, Or.inr h⟩
    · rintro ⟨B, A, h | h⟩
      · exact Or.inl h.1
      · exact Or.inr ⟨B, A, h⟩

theorem namedFields_append (a b : List Action) :
    namedFields (a ++ b) = namedFields a ++ namedFields b := by
  induction a with
  | nil => rfl
  | cons h t ih => cases h <;> simp [namedFields, ih]

theorem namedFields_appendRemind (actions : List Action) (remind : Bytes) :
    namedFields (appendRemind actions remind) = namedFields actions := by
  unfold appendRemind
  split_ifs
  · simp [namedFields_append, namedFields]
  · rfl

theorem mem_mapInsert (m : List Bytes) (key F : Bytes) :
    F ∈ mapInsert m key ↔ F ∈ m ∨ F = key := by
  unfold mapInsert
  split_ifs with h
  · constructor
    · exact Or.inl
    · rintro (h1 | h1)
      · exact h1
      · exact h1 ▸ h
  · simp

theorem parseMatch_consistent (order : List (StrfKey × Bytes)) (c c' : LogbackConfig)
    (m : TokenMatch) (hc : Consistent c) (h : parseMatch order c m = some c') :
    Consistent c' := by
  unfold parseMatch at h
  simp only at h
  split_ifs at h <;> (try split at h) <;> simp at h <;> subst h <;> intro F <;>
    simp [namedFields_appendRemind, namedFields_append, namedFields, mem_mapInsert, hc F]

theorem parseLoop_consistent (ord : Nat → List (StrfKey × Bytes)) :
    ∀ (ms : List TokenMatch) (k : Nat) (c c' : LogbackConfig), Consistent c →
      parseLoop ord k c ms = some c' → Consistent c'
  | [], _, c, c', hc, h => by
    simp [parseLoop] at h
    exact h ▸ hc
  | m :: rest, k, c, c', hc, h => by
    rw [parseLoop] at h
    cases hm : parseMatch (ord k) c m with
    | none => simp [hm] at h
    | some next =>
      simp only [hm] at h
      exact parseLoop_consistent ord rest (k + 1) next c'
        (parseMatch_consistent (ord k) c next m hc hm) h

theorem parse_consistent (ord : Nat → List (StrfKey × Bytes)) (log_format : Bytes)
    (c : LogbackConfig) (h : Parse_compile_log_format ord log_format = some c) :
    Consistent c :=
  parseLoop_consistent ord _ 0 _ c (fun F => by simp [namedFields]) h

/-- C9: whenever the compiler returns a configuration, a field name is in `used_fields` if
and only if the action list holds a named-field action compiled for that name. -/
theorem used_fields_iff_named_field_action (ord : Nat → List (StrfKey × Bytes))
    (log_format : Bytes) (c : LogbackConfig) (F : Bytes)
    (h : Parse_compile_log_format ord log_format = some c) :
    F ∈ c.used_fields ↔ ∃ B A, Action.logAddUsedFieldAction F B A ∈ c.actions :=
  (parse_consistent ord log_format c h F).trans (mem_namedFields F c.actions)

/-- Witness of C9 at the pattern of the named-field scenario and the name `tid`. -/
theorem used_fields_iff_named_field_action_witness :
    Parse_compile_log_format tableOrder (str "%x\x7btid:[\"tid\":$0]\x7d %fields") =
        some { EncodeLevel := none, EncodeTime := none, EncodeCaller := none,
               actions := [.logAddUsedFieldAction (str "tid") (str "[\"tid\":") (str "]"),
                 .logAddBytesAction (str " "), .logAddRemindFieldAction],
               used_fields := [str "tid"] } ∧
      (str "tid" ∈ [str "tid"] ↔
        ∃ B A, Action.logAddUsedFieldAction (str "tid") B A ∈
          [Action.logAddUsedFieldAction (str "tid") (str "[\"tid\":") (str "]"),
            Action.logAddBytesAction (str " "), Action.logAddRemindFieldAction]) :=
  ⟨rfl, used_fields_iff_named_field_action tableOrder (str "%x\x7btid:[\"tid\":$0]\x7d %fields")
    _ (str "tid") rfl⟩

/-! ## The remainder action -/

namespace logbackEncoder

theorem addElementSeparator_used_fields (enc : logbackEncoder) :
    enc.addElementSeparator.used_fields = enc.used_fields := by
  unfold addElementSeparator
  split
  · rfl
  · split_ifs <;> rfl

theorem addKey_used_fields (enc : logbackEncoder) (key : Bytes) :
    (enc.addKey key).used_fields = enc.used_fields := by
  simp [addKey, safeAddString, addElementSeparator_used_fields]

theorem primCalls_used_fields (calls : List PrimCall) :
    ∀ enc : logbackEncoder, (enc.primCalls calls).used_fields = enc.used_fields := by
  induction calls with
  | nil => intro enc; rfl
  | cons c rest ih =>
    intro enc
    rw [primCalls, List.foldl_cons]
    have h := ih (enc.primCall c)
    rw [primCalls] at h
    rw [h]
    cases c <;>
      simp [primCall, AppendBool, AppendByteString, AppendInt64, AppendUint64,
        logbackEncoder.AppendString, safeAddString, safeAddByteString,
        addElementSeparator_used_fields]

theorem AppendInt64_used_fields (enc : logbackEncoder) (val : Int) :
    (enc.AppendInt64 val).used_fields = enc.used_fields := by
  simp [AppendInt64, addElementSeparator_used_fields]

theorem AppendDuration_used_fields (enc : logbackEncoder) (val : Int) :
    (enc.AppendDuration val).used_fields = enc.used_fields := by
  unfold AppendDuration
  rcases h : enc.EncoderConfig.EncodeDuration with _ | ⟨e⟩ <;> simp only [] <;>
    split_ifs <;> simp [AppendInt64_used_fields, primCalls_used_fields]

theorem AppendTime_used_fields (x : Ext) (enc : logbackEncoder) (val : Time) :
    (enc.AppendTime x val).used_fields = enc.used_fields := by
  unfold AppendTime
  rcases h : enc.EncoderConfig.EncodeTime with _ | ⟨layout⟩ | ⟨e⟩ <;> simp only [] <;>
    split_ifs <;>
    simp [AppendInt64_used_fields, primCalls_used_fields, logbackEncoder.AppendString,
      safeAddString]

theorem AddReflected_used_fields (enc : logbackEncoder) (key : Bytes) (obj : Reflected) :
    (enc.AddReflected key obj).1.used_fields = enc.used_fields := by
  unfold AddReflected
  split <;> simp [addKey_used_fields]

theorem AddString_used_fields (enc : logbackEncoder) (key val : Bytes) :
    (enc.AddString key val).used_fields = enc.used_fields := by
  simp [AddString, logbackEncoder.AppendString, safeAddString, addKey_used_fields]

theorem AddInt64_used_fields (enc : logbackEncoder) (key : Bytes) (val : Int) :
    (enc.AddInt64 key val).used_fields = enc.used_fields := by
  simp [AddInt64, AppendInt64_used_fields, addKey_used_fields]

theorem AddUint64_used_fields (enc : logbackEncoder) (key : Bytes) (val : Nat) :
    (enc.AddUint64 key val).used_fields = enc.used_fields := by
  simp [AddUint64, AppendUint64, addElementSeparator_used_fields, addKey_used_fields]

theorem AddBool_used_fields (enc : logbackEncoder) (key : Bytes) (val : Bool) :
    (enc.AddBool key val).used_fields = enc.used_fields := by
  simp [AddBool, logbackEncoder.AppendBool, addElementSeparator_used_fields,
    addKey_used_fields]

theorem AddByteString_used_fields (enc : logbackEncoder) (key val : Bytes) :
    (enc.AddByteString key val).used_fields = enc.used_fields := by
  simp [AddByteString, AppendByteString, safeAddByteString, addElementSeparator_used_fields,
    addKey_used_fields]

theorem AddDuration_used_fields (enc : logbackEncoder) (key : Bytes) (val : Int) :
    (enc.AddDuration key val).used_fields = enc.used_fields := by
  simp [AddDuration, AppendDuration_used_fields, addKey_used_fields]

theorem AddTime_used_fields (x : Ext) (enc : logbackEncoder) (key : Bytes) (val : Time) :
    (enc.AddTime x key val).used_fields = enc.used_fields := by
  simp [AddTime, AppendTime_used_fields, addKey_used_fields]

theorem OpenNamespace_used_fields (enc : logbackEncoder) (key : Bytes) :
    (enc.OpenNamespace key).used_fields = enc.used_fields := by
  simp [OpenNamespace, addKey_used_fields]

mutual
theorem sinkOp_used_fields (x : Ext) :
    ∀ (op : SinkOp) (enc : logbackEncoder), (sinkOp x op enc).used_fields = enc.used_fields
  | .AddString key val, enc => by simp [sinkOp, AddString_used_fields]
  | .AddInt64 key val, enc => by simp [sinkOp, AddInt64_used_fields]
  | .AddUint64 key val, enc => by simp [sinkOp, AddUint64_used_fields]
  | .AddBool key val, enc => by simp [sinkOp, AddBool_used_fields]
  | .AddByteString key val, enc => by simp [sinkOp, AddByteString_used_fields]
  | .AddDuration key val, enc => by simp [sinkOp, AddDuration_used_fields]
  | .AddTime key val, enc => by simp [sinkOp, AddTime_used_fields]
  | .AddReflected key obj, enc => by simp [sinkOp, AddReflected_used_fields]
  | .OpenNamespace key, enc => by simp [sinkOp, OpenNamespace_used_fields]
  | .AddObject key calls err, enc => by
    simp [sinkOp, closeOpenNamespaces, sinkOps_used_fields x calls,
      addElementSeparator_used_fields, addKey_used_fields]

theorem sinkOps_used_fields (x : Ext) :
    ∀ (ops : List SinkOp) (enc : logbackEncoder),
      (sinkOps x ops enc).used_fields = enc.used_fields
  | [], enc => by simp [sinkOps]
  | op :: rest, enc => by
    rw [sinkOps, sinkOps_used_fields x rest, sinkOp_used_fields x op]
end

theorem AddObject_used_fields (x : Ext) (enc : logbackEncoder) (key : Bytes)
    (calls : List SinkOp) (err : Option Bytes) :
    (enc.AddObject x key calls err).1.used_fields = enc.used_fields := by
  simp [AddObject, AppendObject, closeOpenNamespaces, sinkOps_used_fields,
    addElementSeparator_used_fields, addKey_used_fields]

end logbackEncoder

theorem AddTo_used_fields (x : Ext) (f : Field) (enc : logbackEncoder) :
    (f.AddTo x enc).used_fields = enc.used_fields := by
  unfold Field.AddTo
  cases f.Type_ <;> simp only [] <;> (try split) <;>
    simp [logbackEncoder.AddString_used_fields, logbackEncoder.AddInt64_used_fields,
      logbackEncoder.AddUint64_used_fields, logbackEncoder.AddBool_used_fields,
      logbackEncoder.AddByteString_used_fields, logbackEncoder.AddDuration_used_fields,
      logbackEncoder.AddTime_used_fields, logbackEncoder.OpenNamespace_used_fields,
      logbackEncoder.AddReflected_used_fields, logbackEncoder.AddObject_used_fields]

theorem remindFieldLoop_eq_emitFields (x : Ext) (named : List Bytes) :
    ∀ (fields : List Field) (final : logbackEncoder) (comma_need : Bool),
      (∀ F, F ∈ final.used_fields ↔ F ∈ named) →
      remindFieldLoop x fields final comma_need =
        emitFields x (fields.filter (fun f => decide (f.Key ∉ named))) final comma_need
  | [], _, _, _ => rfl
  | field :: rest, final, comma_need, h => by
    by_cases hk : field.Key ∈ named
    · have hu : field.Key ∈ final.used_fields := (h _).2 hk
      rw [remindFieldLoop, if_pos hu, remindFieldLoop_eq_emitFields x named rest final _ h]
      simp [List.filter_cons, hk]
    · have hu : field.Key ∉ final.used_fields := fun e => hk ((h _).1 e)
      rw [remindFieldLoop, if_neg hu]
      simp only [List.filter_cons, hk, not_false_eq_true, decide_True, if_true, emitFields]
      apply remindFieldLoop_eq_emitFields x named rest
      intro F
      rw [AddTo_used_fields]
      split_ifs <;> exact h F

/-! ## The named-field action -/

theorem lazyBrace_append (rest : Bytes) :
    ∀ u : Bytes, (∀ b ∈ u, b ≠ 125 ∧ b ≠ 10) → lazyBrace (u ++ 125 :: rest) = some (u, rest)
  | [], _ => by simp [lazyBrace]
  | b :: u, h => by
    have hb := h b (by simp)
    have ih := lazyBrace_append rest u (fun c hc => h c (List.mem_cons_of_mem _ hc))
    simp [lazyBrace, hb.1, hb.2, ih]

theorem greedyBrace_append :
    ∀ u : Bytes, (∀ b ∈ u, b ≠ 10) → greedyBrace (u ++ [125]) = some u
  | [], _ => by simp [greedyBrace]
  | b :: u, h => by
    have hb := h b (by simp)
    have ih := greedyBrace_append u (fun c hc => h c (List.mem_cons_of_mem _ hc))
    simp [greedyBrace, hb, ih]

theorem splitLastDollarZero_of_no_marker :
    ∀ A : Bytes, ¬ [36, 48] <:+: A → splitLastDollarZero A = none
  | [], _ => rfl
  | b :: t, h => by
    have ht : ¬ [36, 48] <:+: t := fun e => h (e.trans (List.suffix_cons b t).isInfix)
    have ih := splitLastDollarZero_of_no_marker t ht
    rw [splitLastDollarZero, ih]
    have hbc : ¬ (b = 36 ∧ t.head? = some 48) := by
      rintro ⟨rfl, h2⟩
      cases t with
      | nil => simp at h2
      | cons c q =>
        simp at h2
        subst h2
        exact h (List.prefix_iff_eq_append.2 (by simp) |>.isInfix)
    simp [hbc]

theorem splitLastDollarZero_marker (A : Bytes) (hA : ¬ [36, 48] <:+: A) :
    splitLastDollarZero (36 :: 48 :: A) = some ([], A) := by
  have h48 : splitLastDollarZero (48 :: A) = none := by
    rw [splitLastDollarZero, splitLastDollarZero_of_no_marker A hA]
    simp
  rw [splitLastDollarZero, h48]
  simp

theorem splitLastDollarZero_append (A : Bytes) (hA : ¬ [36, 48] <:+: A) :
    ∀ B : Bytes, splitLastDollarZero (B ++ 36 :: 48 :: A) = some (B, A)
  | [] => splitLastDollarZero_marker A hA
  | b :: B => by
    rw [List.cons_append, splitLastDollarZero, splitLastDollarZero_append A hA B]

theorem xConfigSubmatch_reference (n B A : Bytes) (hn : n ≠ [])
    (hw : ∀ b ∈ n, isWord b = true) (hB : ∀ b ∈ B, b ≠ 10) (hA : ∀ b ∈ A, b ≠ 10)
    (hA0 : ¬ [36, 48] <:+: A) :
    xConfigSubmatch (n ++ 58 :: (B ++ 36 :: 48 :: A)) =
      some { name := n, before := B, after := A } := by
  have hstop : ∀ b, (58 :: (B ++ 36 :: 48 :: A)).head? = some b → isWord b = false := by
    intro b hb
    simp at hb
    subst hb
    rfl
  have ht := takeWhile_append_stop isWord n _ hw hstop
  have hd := dropWhile_append_stop isWord n _ hw hstop
  have hline : (B ++ 36 :: 48 :: A).takeWhile notNewline = B ++ 36 :: 48 :: A := by
    rw [List.takeWhile_eq_self_iff]
    intro b hb
    simp only [List.mem_append, List.mem_cons] at hb
    have : b ≠ 10 := by
      rcases hb with h | h | h | h
      · exact hB b h
      · omega
      · omega
      · exact hA b h
    simp [notNewline, this]
  cases n with
  | nil => exact absurd rfl hn
  | cons a n' =>
    have ha : isWord a = true := hw a (by simp)
    rw [List.cons_append, xConfigSubmatch, if_pos ha, ← List.cons_append]
    simp only [xConfigAt, ht, hd, hline, splitLastDollarZero_append A hA0 B, if_true]

theorem findAllTokens_of_short :
    ∀ (s : Bytes) (k : Nat), s.length ≤ k → findAllTokens s k = []
  | [], _, _ => by simp [findAllTokens]
  | b :: t, 0, h => by simp at h
  | b :: t, k + 1, h => by
    rw [findAllTokens]
    exact findAllTokens_of_short t k (by simpa using h)

theorem findAllTokens_field_reference (u : Bytes) (hu : ∀ b ∈ u, b ≠ 125 ∧ b ≠ 10) :
    findAllTokens (37 :: 120 :: 123 :: (u ++ [125])) 0 =
      [{ action := [37, 120], config := some (123 :: u ++ [125]), remind := [] }] := by
  have hm : matchTokenAt (37 :: 120 :: 123 :: (u ++ [125])) =
      some { action := [37, 120], config := some (123 :: u ++ [125]), remind := [] } := by
    have hl := lazyBrace_append [] u hu
    simp [matchTokenAt, List.takeWhile, List.dropWhile, isWord, matchConfigAt, hl]
  rw [findAllTokens, hm]
  simp only []
  rw [findAllTokens_of_short]
  simp [TokenMatch.size]
  omega

theorem logAddUsedFieldAction_buf (field before_byte after_byte : Bytes) :
    ∀ (fields : List Field) (final : logbackEncoder),
      logAddUsedFieldAction field before_byte after_byte final fields =
        { final with
          buf := final.buf ++
            (fields.filter (fun f => decide (f.Key = field))).flatMap
              (fun f => before_byte ++ f.String ++ after_byte) }
  | [], final => by simp [logAddUsedFieldAction]
  | f :: rest, final => by
    by_cases h : field = f.Key
    · rw [logAddUsedFieldAction, if_pos h, logAddUsedFieldAction_buf _ _ _ rest]
      simp [List.filter_cons, h, AppendBytes, List.flatMap_cons]
    · rw [logAddUsedFieldAction, if_neg h, logAddUsedFieldAction_buf _ _ _ rest]
      have h' : ¬ f.Key = field := fun e => h e.symm
      simp [List.filter_cons, h']

/-- C8: for a non-empty field name `n` of word characters and literal texts `B` and `A`
without `}` and newline, `A` without `$0`, the pattern `%x{n:B$0A}` compiles to the single
action `logAddUsedFieldAction(n, B, A)`, and that action appends to the buffer, for each
field whose key equals `n` and in field-list order, `B`, the field's raw string value and
`A`, and nothing for the other fields. -/
theorem field_reference_action_appends (ord : Nat → List (StrfKey × Bytes))
    (n B A : Bytes) (hn : n ≠ []) (hw : ∀ b ∈ n, isWord b = true)
    (hB : ∀ b ∈ B, b ≠ 125 ∧ b ≠ 10) (hA : ∀ b ∈ A, b ≠ 125 ∧ b ≠ 10)
    (hA0 : ¬ [36, 48] <:+: A) :
    (∃ c, Parse_compile_log_format ord
          (str "%x\x7b" ++ n ++ str ":" ++ B ++ str "$0" ++ A ++ str "\x7d") = some c ∧
        c.actions = [Action.logAddUsedFieldAction n B A]) ∧
      ∀ (x : Ext) (final : logbackEncoder) (ent : Entry) (fields : List Field),
        runAction x (Action.logAddUsedFieldAction n B A) final ent fields =
          some { final with
            buf := final.buf ++
              (fields.filter (fun f => decide (f.Key = n))).flatMap
                (fun f => B ++ f.String ++ A) } := by
  constructor
  · have hshape : str "%x\x7b" ++ n ++ str ":" ++ B ++ str "$0" ++ A ++ str "\x7d" =
        37 :: 120 :: 123 :: ((n ++ 58 :: (B ++ 36 :: 48 :: A)) ++ [125]) := by
      have h1 : str "%x\x7b" = [37, 120, 123] := by decide
      have h2 : str ":" = [58] := by decide
      have h3 : str "$0" = [36, 48] := by decide
      have h4 : str "\x7d" = [125] := by decide
      rw [h1, h2, h3, h4]
      simp
    have hu : ∀ b ∈ n ++ 58 :: (B ++ 36 :: 48 :: A), b ≠ 125 ∧ b ≠ 10 := by
      intro b hb
      simp only [List.mem_append, List.mem_cons] at hb
      rcases hb with h | h | h | h | h | h
      · have := hw b h
        constructor <;> rintro rfl <;> simp [isWord] at this
      · omega
      · exact hB b h
      · omega
      · omega
      · exact hA b h
    have hcfg : configSubmatch (123 :: (n ++ 58 :: (B ++ 36 :: 48 :: A)) ++ [125]) =
        some (n ++ 58 :: (B ++ 36 :: 48 :: A)) := by
      rw [List.cons_append, configSubmatch, if_pos rfl,
        greedyBrace_append _ (fun b hb => (hu b hb).2)]
    have hx := xConfigSubmatch_reference n B A hn hw (fun b hb => (hB b hb).2)
      (fun b hb => (hA b hb).2) hA0
    have hlen : (n ++ 58 :: (B ++ 36 :: 48 :: A)).length > 0 := by simp
    refine ⟨{ EncodeLevel := none, EncodeTime := none, EncodeCaller := none,
              actions := appendRemind ([] ++ [Action.logAddUsedFieldAction n B A]) [],
              used_fields := mapInsert [] n }, ?_, ?_⟩
    · rw [hshape, Parse_compile_log_format, findAllTokens_field_reference _ hu, parseLoop]
      have hx1 : ¬ ([37, 120] : Bytes) = str "%date" := by decide
      have hx2 : ¬ ([37, 120] : Bytes) = str "%level" := by decide
      have hx3 : ¬ ([37, 120] : Bytes) = str "%caller" := by decide
      have hx4 : ¬ ([37, 120] : Bytes) = str "%message" := by decide
      have hx5 : ([37, 120] : Bytes) = str "%x" := by decide
      unfold parseMatch
      simp only [Option.getD_some, hcfg]
      rw [if_neg hx1, if_neg hx2, if_neg hx3, if_neg hx4, if_pos hx5, if_pos hlen, hx]
      simp only [parseLoop]
    · simp [appendRemind]
  · intro x final ent fields
    simp [runAction, logAddUsedFieldAction_buf]

/-- Witness of C8 at the field reference of the named-field scenario. -/
theorem field_reference_action_appends_witness :
    str "tid" ≠ [] ∧ (∀ b ∈ str "tid", isWord b = true) ∧
      (∀ b ∈ str "[\"tid\":", b ≠ 125 ∧ b ≠ 10) ∧ (∀ b ∈ str "]", b ≠ 125 ∧ b ≠ 10) ∧
      ¬ [36, 48] <:+: str "]" ∧
      ((∃ c, Parse_compile_log_format tableOrder
            (str "%x\x7b" ++ str "tid" ++ str ":" ++ str "[\"tid\":" ++ str "$0" ++ str "]" ++
              str "\x7d") = some c ∧
          c.actions = [Action.logAddUsedFieldAction (str "tid") (str "[\"tid\":") (str "]")]) ∧
        ∀ (x : Ext) (final : logbackEncoder) (ent : Entry) (fields : List Field),
          runAction x (Action.logAddUsedFieldAction (str "tid") (str "[\"tid\":") (str "]"))
              final ent fields =
            some { final with
              buf := final.buf ++
                (fields.filter (fun f => decide (f.Key = str "tid"))).flatMap
                  (fun f => str "[\"tid\":" ++ f.String ++ str "]") }) :=
  ⟨by decide, by decide, by decide, by decide, by decide,
    field_reference_action_appends tableOrder (str "tid") (str "[\"tid\":") (str "]")
      (by decide) (by decide) (by decide) (by decide) (by decide)⟩

/-! ## JSON string content -/

theorem isScalar_toNat (c : Char) : IsScalar c.toNat := by
  have h := c.valid
  simpa [IsScalar, UInt32.isValidChar, Nat.isValidChar, Char.toNat] using h

theorem utf8EncodeNat_length_pos (n : Nat) : 1 ≤ (utf8EncodeNat n).length := by
  unfold utf8EncodeNat
  split_ifs <;> simp

theorem DecodeRune_utf8EncodeNat (n : Nat) (rest : Bytes) (hs : IsScalar n) (h : 0x80 ≤ n) :
    DecodeRune (utf8EncodeNat n ++ rest) = (n, (utf8EncodeNat n).length) ∧
      2 ≤ (utf8EncodeNat n).length := by
  unfold IsScalar at hs
  unfold utf8EncodeNat
  have h0 : ¬ n < 0x80 := by omega
  rw [if_neg h0]
  split_ifs with h1 h2
  · have a1 : ¬ (0xC0 + n / 64 < 0x80) := by omega
    have a2 : ¬ (0xC0 + n / 64 < 0xC2) := by omega
    have a3 : 0xC0 + n / 64 < 0xE0 := by omega
    simp only [DecodeRune, List.cons_append, a1, a2, a3, if_true, if_false]
    refine ⟨?_, by simp⟩
    split_ifs <;> simp <;> omega
  · have a1 : ¬ (0xE0 + n / 4096 < 0x80) := by omega
    have a2 : ¬ (0xE0 + n / 4096 < 0xC2) := by omega
    have a3 : ¬ (0xE0 + n / 4096 < 0xE0) := by omega
    have a4 : 0xE0 + n / 4096 < 0xF0 := by omega
    simp only [DecodeRune, List.cons_append, a1, a2, a3, a4, if_true, if_false]
    refine ⟨?_, by simp⟩
    split_ifs <;> simp <;> omega
  · have a1 : ¬ (0xF0 + n / 262144 < 0x80) := by omega
    have a2 : ¬ (0xF0 + n / 262144 < 0xC2) := by omega
    have a3 : ¬ (0xF0 + n / 262144 < 0xE0) := by omega
    have a4 : ¬ (0xF0 + n / 262144 < 0xF0) := by omega
    have a5 : 0xF0 + n / 262144 < 0xF5 := by omega
    simp only [DecodeRune, List.cons_append, a1, a2, a3, a4, a5, if_true, if_false]
    refine ⟨?_, by simp⟩
    split_ifs <;> simp <;> omega

theorem utf8EncodeNat_head_ge (n : Nat) (h : 0x80 ≤ n) (rest : Bytes) :
    0x80 ≤ (utf8EncodeNat n ++ rest).getD 0 0 := by
  unfold utf8EncodeNat
  split_ifs <;> simp <;> omega

theorem appendEscape_eq (buf : Bytes) (c : Nat) :
    appendEscape buf c = buf ++ appendEscape [] c := by
  unfold appendEscape
  split_ifs <;> simp [AppendByte, AppendString]

theorem slice_prefix (pre rest : Bytes) (last : Nat) :
    slice (pre ++ rest) last pre.length = pre.drop last := by
  simp [slice]

theorem getD_append_length (pre rest : Bytes) :
    (pre ++ rest).getD pre.length 0 = rest.getD 0 0 := by
  simp [List.getD_eq_getElem?_getD, List.getElem?_append_right]

/-- The loop of the escaping writer on a valid UTF-8 string: what has been appended,
together with the bytes not yet copied, is the escape of every scalar value in turn. -/
theorem safeAppendLoop_utf8 :
    ∀ (cs : List Char) (pre : Bytes) (fuel last : Nat) (buf : Bytes),
      last ≤ pre.length → (utf8 cs).length ≤ fuel →
      AppendString
          (safeAppendLoop AppendString DecodeRune (pre ++ utf8 cs) fuel pre.length last buf).2
          ((pre ++ utf8 cs).drop
            (safeAppendLoop AppendString DecodeRune (pre ++ utf8 cs) fuel pre.length last
              buf).1) =
        buf ++ pre.drop last ++ cs.flatMap (fun c => escapeScalar c.toNat)
  | [], pre, fuel, last, buf, hl, _ => by
    have hloop : safeAppendLoop AppendString DecodeRune (pre ++ utf8 []) fuel pre.length
        last buf = (last, buf) := by
      cases fuel with
      | zero => rfl
      | succ f => simp [safeAppendLoop, utf8]
    rw [hloop]
    simp [utf8, AppendString]
  | c :: cs, pre, fuel, last, buf, hl, hf => by
    have hsc := isScalar_toNat c
    have hutf : utf8 (c :: cs) = utf8EncodeNat c.toNat ++ utf8 cs := by simp [utf8]
    have hpos := utf8EncodeNat_length_pos c.toNat
    rw [hutf] at hf ⊢
    simp only [List.length_append] at hf
    obtain ⟨f, rfl⟩ : ∃ f, fuel = f + 1 := ⟨fuel - 1, by omega⟩
    have hlt : pre.length < (pre ++ (utf8EncodeNat c.toNat ++ utf8 cs)).length := by
      simp only [List.length_append]
      omega
    have hget : (pre ++ (utf8EncodeNat c.toNat ++ utf8 cs)).getD pre.length 0 =
        (utf8EncodeNat c.toNat ++ utf8 cs).getD 0 0 := getD_append_length _ _
    by_cases hascii : c.toNat < 0x80
    · have henc : utf8EncodeNat c.toNat = [c.toNat] := by simp [utf8EncodeNat, hascii]
      have hget' : (pre ++ (utf8EncodeNat c.toNat ++ utf8 cs)).getD pre.length 0 = c.toNat := by
        rw [hget, henc]
        simp
      have hassoc : pre ++ (utf8EncodeNat c.toNat ++ utf8 cs) = (pre ++ [c.toNat]) ++ utf8 cs := by
        rw [henc]
        simp
      have hlen' : (pre ++ [c.toNat]).length = pre.length + 1 := by simp
      have hfuel : (utf8 cs).length ≤ f := by
        rw [henc] at hf
        simp at hf
        omega
      by_cases hplain : c.toNat ≥ 0x20 ∧ c.toNat ≠ 92 ∧ c.toNat ≠ 34
      · have hstep : safeAppendLoop AppendString DecodeRune
            (pre ++ (utf8EncodeNat c.toNat ++ utf8 cs)) (f + 1) pre.length last buf =
            safeAppendLoop AppendString DecodeRune
              (pre ++ (utf8EncodeNat c.toNat ++ utf8 cs)) f (pre.length + 1) last buf := by
          rw [safeAppendLoop, if_pos hlt]
          simp only [hget', RuneSelf]
          rw [if_neg (by omega), if_pos hplain]
        rw [hstep, hassoc, ← hlen']
        rw [safeAppendLoop_utf8 cs (pre ++ [c.toNat]) f last buf (by rw [hlen']; omega) hfuel]
        simp [escapeScalar, hascii, hplain, List.drop_append_of_le_length hl]
      · have hstep : safeAppendLoop AppendString DecodeRune
            (pre ++ (utf8EncodeNat c.toNat ++ utf8 cs)) (f + 1) pre.length last buf =
            safeAppendLoop AppendString DecodeRune
              (pre ++ (utf8EncodeNat c.toNat ++ utf8 cs)) f (pre.length + 1) (pre.length + 1)
              (appendEscape (AppendString buf (pre.drop last)) c.toNat) := by
          rw [safeAppendLoop, if_pos hlt]
          simp only [hget', RuneSelf, slice_prefix]
          rw [if_neg (by omega), if_neg hplain]
        rw [hstep, hassoc, ← hlen']
        rw [safeAppendLoop_utf8 cs (pre ++ [c.toNat]) f _ _ (le_refl _) hfuel]
        rw [appendEscape_eq]
        simp [escapeScalar, hascii, hplain, AppendString]
    · have hge : 0x80 ≤ c.toNat := by omega
      obtain ⟨hdec, hlen2⟩ := DecodeRune_utf8EncodeNat c.toNat (utf8 cs) hsc hge
      have hget' : (pre ++ (utf8EncodeNat c.toNat ++ utf8 cs)).getD pre.length 0 ≥ RuneSelf := by
        rw [hget]
        exact utf8EncodeNat_head_ge c.toNat hge _
      have hdrop : (pre ++ (utf8EncodeNat c.toNat ++ utf8 cs)).drop pre.length =
          utf8EncodeNat c.toNat ++ utf8 cs := by simp
      have hassoc : pre ++ (utf8EncodeNat c.toNat ++ utf8 cs) =
          (pre ++ utf8EncodeNat c.toNat) ++ utf8 cs := by simp
      have hlen' : (pre ++ utf8EncodeNat c.toNat).length =
          pre.length + (utf8EncodeNat c.toNat).length := by simp
      have hstep : safeAppendLoop AppendString DecodeRune
          (pre ++ (utf8EncodeNat c.toNat ++ utf8 cs)) (f + 1) pre.length last buf =
          safeAppendLoop AppendString DecodeRune
            (pre ++ (utf8EncodeNat c.toNat ++ utf8 cs)) f
            (pre.length + (utf8EncodeNat c.toNat).length) last buf := by
        rw [safeAppendLoop, if_pos hlt]
        simp only []
        rw [if_pos hget', hdrop, hdec]
        simp only []
        rw [if_pos (Or.inr (by omega))]
      rw [hstep, hassoc, ← hlen']
      rw [safeAppendLoop_utf8 cs (pre ++ utf8EncodeNat c.toNat) f last buf
        (by rw [hlen']; omega) (by omega)]
      simp [escapeScalar, hascii, List.drop_append_of_le_length hl]

theorem safeAddString_utf8 (enc : logbackEncoder) (cs : List Char) :
    (enc.safeAddString (utf8 cs)).buf =
      enc.buf ++ cs.flatMap (fun c => escapeScalar c.toNat) := by
  have h := safeAppendLoop_utf8 cs [] (utf8 cs).length 0 enc.buf (le_refl _) (le_refl _)
  simp only [List.nil_append, List.length_nil, List.drop_zero, List.append_nil] at h
  simp only [logbackEncoder.safeAddString, safeAppendStringLike]
  exact h

theorem jsonUnescapeFrom_copy (rest : Bytes) :
    ∀ u : Bytes, (∀ b ∈ u, 0x20 ≤ b ∧ b ≠ 34 ∧ b ≠ 92) →
      jsonUnescapeFrom none (u ++ rest) =
        (jsonUnescapeFrom none rest).map (fun out => u ++ out)
  | [], _ => by simp
  | b :: u, h => by
    obtain ⟨h1, h2, h3⟩ := h b (by simp)
    have ih := jsonUnescapeFrom_copy rest u (fun c hc => h c (List.mem_cons_of_mem _ hc))
    rw [List.cons_append, jsonUnescapeFrom.eq_def]
    simp only []
    rw [if_neg h3, if_neg (by omega), ih]
    simp [flushPending, Option.map_map, Function.comp_def]

theorem utf8EncodeNat_bytes_ge (n : Nat) (h : 0x80 ≤ n) :
    ∀ b ∈ utf8EncodeNat n, 0x20 ≤ b ∧ b ≠ 34 ∧ b ≠ 92 := by
  unfold utf8EncodeNat
  intro b hb
  split_ifs at hb <;> simp at hb <;> omega

theorem jsonUnescapeFrom_escapeScalar (n : Nat) (rest : Bytes) :
    jsonUnescapeFrom none (escapeScalar n ++ rest) =
      (jsonUnescapeFrom none rest).map (fun out => utf8EncodeNat n ++ out) := by
  unfold escapeScalar
  by_cases hascii : n < 0x80
  · rw [if_pos hascii]
    have henc : utf8EncodeNat n = [n] := by simp [utf8EncodeNat, hascii]
    by_cases hplain : n ≥ 0x20 ∧ n ≠ 92 ∧ n ≠ 34
    · rw [if_pos hplain, henc]
      exact jsonUnescapeFrom_copy rest [n] (by
        intro b hb
        simp at hb
        subst hb
        exact ⟨hplain.1, hplain.2.2, hplain.2.1⟩)
    · rw [if_neg hplain, henc]
      have hcases : n < 0x20 ∨ n = 92 ∨ n = 34 := by omega
      rcases hcases with h | h | h
      · interval_cases n <;>
          simp only [appendEscape, AppendByte, AppendString, _hex, str, utf8, utf8EncodeNat] <;>
          rw [jsonUnescapeFrom.eq_def] <;>
          simp [hex4, hexVal, simpleEscape, flushPending, utf8EncodeNat]
      · subst h
        simp only [appendEscape, AppendByte]
        rw [jsonUnescapeFrom.eq_def]
        simp [simpleEscape, flushPending]
      · subst h
        simp only [appendEscape, AppendByte]
        rw [jsonUnescapeFrom.eq_def]
        simp [simpleEscape, flushPending]
  · rw [if_neg hascii]
    exact jsonUnescapeFrom_copy rest _ (utf8EncodeNat_bytes_ge n (by omega))

theorem jsonUnescape_escaped :
    ∀ cs : List Char,
      jsonUnescape (cs.flatMap (fun c => escapeScalar c.toNat)) = some (utf8 cs)
  | [] => by simp [jsonUnescape, jsonUnescapeFrom, flushPending, utf8]
  | c :: cs => by
    have ih := jsonUnescape_escaped cs
    unfold jsonUnescape at ih ⊢
    rw [List.flatMap_cons, jsonUnescapeFrom_escapeScalar, ih]
    simp [utf8]

/-- C10: for every valid UTF-8 string, given as the encoding of a list of Unicode scalar
values, `safeAddString` appends to the buffer bytes whose decoding as JSON string content is
the string itself. -/
theorem safeAddString_json_roundtrip (enc : logbackEncoder) (cs : List Char) :
    ∃ out, (enc.safeAddString (utf8 cs)).buf = enc.buf ++ out ∧
      jsonUnescape out = some (utf8 cs) :=
  ⟨cs.flatMap (fun c => escapeScalar c.toNat), safeAddString_utf8 enc cs,
    jsonUnescape_escaped cs⟩

/-! ## A field reference without a name -/

theorem xConfigSubmatch_of_no_word :
    ∀ g : Bytes, (∀ b ∈ g, isWord b = false) → xConfigSubmatch g = none
  | [], _ => rfl
  | b :: t, h => by
    have hb : isWord b = false := h b (by simp)
    rw [xConfigSubmatch, hb]
    simp only [Bool.false_eq_true, if_false]
    exact xConfigSubmatch_of_no_word t (fun c hc => h c (List.mem_cons_of_mem _ hc))

/-- C2 fails on the code: a `%x{...}` whose configuration is non-empty and holds no word
character (nor `}` or a newline) makes the compiler index the nil submatch of the
field-reference expression: `Parse_compile_log_format` panics, whatever the iteration order
of the directive map. -/
theorem parse_panics_on_wordless_field_reference (ord : Nat → List (StrfKey × Bytes))
    (g : Bytes) (hg : g ≠ []) (hw : ∀ b ∈ g, isWord b = false ∧ b ≠ 125 ∧ b ≠ 10) :
    Parse_compile_log_format ord (str "%x\x7b" ++ g ++ str "\x7d") = none := by
  have hshape : str "%x\x7b" ++ g ++ str "\x7d" = 37 :: 120 :: 123 :: (g ++ [125]) := by
    have h1 : str "%x\x7b" = [37, 120, 123] := by decide
    have h2 : str "\x7d" = [125] := by decide
    rw [h1, h2]
    simp
  have hcfg : configSubmatch (123 :: g ++ [125]) = some g := by
    rw [List.cons_append, configSubmatch, if_pos rfl,
      greedyBrace_append _ (fun b hb => (hw b hb).2.2)]
  have hx := xConfigSubmatch_of_no_word g (fun b hb => (hw b hb).1)
  have hlen : g.length > 0 := List.length_pos.2 hg
  have hx1 : ¬ ([37, 120] : Bytes) = str "%date" := by decide
  have hx2 : ¬ ([37, 120] : Bytes) = str "%level" := by decide
  have hx3 : ¬ ([37, 120] : Bytes) = str "%caller" := by decide
  have hx4 : ¬ ([37, 120] : Bytes) = str "%message" := by decide
  have hx5 : ([37, 120] : Bytes) = str "%x" := by decide
  rw [hshape, Parse_compile_log_format,
    findAllTokens_field_reference g (fun b hb => (hw b hb).2), parseLoop]
  unfold parseMatch
  simp only [Option.getD_some, hcfg]
  rw [if_neg hx1, if_neg hx2, if_neg hx3, if_neg hx4, if_pos hx5, if_pos hlen, hx]

/-- Witness of C2 at the pattern `%x{-}`. -/
theorem parse_panics_on_wordless_field_reference_witness :
    str "-" ≠ [] ∧ (∀ b ∈ str "-", isWord b = false ∧ b ≠ 125 ∧ b ≠ 10) ∧
      Parse_compile_log_format tableOrder (str "%x\x7b" ++ str "-" ++ str "\x7d") = none :=
  ⟨by decide, by decide,
    parse_panics_on_wordless_field_reference tableOrder (str "-") (by decide) (by decide)⟩

/-! ## Bytes of the remainder object for string fields -/

theorem safeAppendLoop_buf (decodeRune : Bytes → Nat × Nat) (s : Bytes) :
    ∀ (fuel i last : Nat) (buf : Bytes),
      safeAppendLoop AppendString decodeRune s fuel i last buf =
        ((safeAppendLoop AppendString decodeRune s fuel i last []).1,
          buf ++ (safeAppendLoop AppendString decodeRune s fuel i last []).2)
  | 0, _, _, _ => by simp [safeAppendLoop]
  | fuel + 1, i, last, buf => by
    rw [safeAppendLoop, safeAppendLoop]
    by_cases hi : i < s.length
    · simp only [if_pos hi]
      by_cases hc : s.getD i 0 ≥ RuneSelf
      · simp only [if_pos hc]
        by_cases hr : (decodeRune (s.drop i)).1 ≠ RuneError ∨ (decodeRune (s.drop i)).2 ≠ 1
        · simp only [if_pos hr]
          exact safeAppendLoop_buf decodeRune s fuel _ last buf
        · simp only [if_neg hr]
          rw [safeAppendLoop_buf decodeRune s fuel _ _ (AppendString (AppendString buf _) _),
            safeAppendLoop_buf decodeRune s fuel _ _ (AppendString (AppendString [] _) _)]
          simp [AppendString]
      · simp only [if_neg hc]
        by_cases hp : s.getD i 0 ≥ 0x20 ∧ s.getD i 0 ≠ 92 ∧ s.getD i 0 ≠ 34
        · simp only [if_pos hp]
          exact safeAppendLoop_buf decodeRune s fuel _ last buf
        · simp only [if_neg hp]
          rw [safeAppendLoop_buf decodeRune s fuel _ _ (appendEscape (AppendString buf _) _),
            safeAppendLoop_buf decodeRune s fuel _ _ (appendEscape (AppendString [] _) _),
            appendEscape_eq (AppendString buf _), appendEscape_eq (AppendString [] _)]
          simp [AppendString]
    · simp [if_neg hi]

theorem safeAppendStringLike_buf (buf s : Bytes) :
    safeAppendStringLike AppendString DecodeRune buf s = buf ++ escaped s := by
  unfold escaped safeAppendStringLike
  rw [safeAppendLoop_buf DecodeRune s s.length 0 0 buf]
  simp [AppendString]

theorem addElementSeparator_after_opening (enc : logbackEncoder)
    (h : enc.buf.getLast? = some 123 ∨ enc.buf.getLast? = some 44) :
    enc.addElementSeparator = enc := by
  unfold logbackEncoder.addElementSeparator
  rcases h with h | h <;> simp [h]

theorem AddString_buf_after_opening (enc : logbackEncoder) (key val : Bytes)
    (h : enc.buf.getLast? = some 123 ∨ enc.buf.getLast? = some 44) :
    (enc.AddString key val).buf = enc.buf ++ renderedStringField (key, val) := by
  simp [logbackEncoder.AddString, logbackEncoder.addKey, logbackEncoder.AppendString,
    logbackEncoder.safeAddString, addElementSeparator_after_opening enc h,
    safeAppendStringLike_buf, renderedStringField, AppendByte]

theorem AddTo_ofString (x : Ext) (key val : Bytes) (enc : logbackEncoder) :
    (Field.ofString key val).AddTo x enc = enc.AddString key val := by
  simp [Field.AddTo, Field.ofString]

theorem emitFields_strings_after_first (x : Ext) :
    ∀ (kvs : List (Bytes × Bytes)) (final : logbackEncoder),
      (emitFields x (kvs.map (fun p => Field.ofString p.1 p.2)) final true).buf =
        final.buf ++ kvs.flatMap (fun p => 44 :: renderedStringField p)
  | [], final => by simp [emitFields]
  | p :: rest, final => by
    rw [List.map_cons, emitFields]
    simp only [if_true]
    rw [emitFields_strings_after_first x rest, AddTo_ofString,
      AddString_buf_after_opening _ _ _ (Or.inr (by simp [AppendByte]))]
    simp [AppendByte]

theorem commaSeparated_cons (a : Bytes) :
    ∀ rest : List Bytes, commaSeparated (a :: rest) = a ++ rest.flatMap (fun b => 44 :: b)
  | [] => by simp [commaSeparated]
  | b :: rest => by
    rw [commaSeparated, commaSeparated_cons b rest]
    simp

theorem emitFields_strings (x : Ext) (kvs : List (Bytes × Bytes)) (final : logbackEncoder)
    (h : final.buf.getLast? = some 123) :
    (emitFields x (kvs.map (fun p => Field.ofString p.1 p.2)) final false).buf =
      final.buf ++ commaSeparated (kvs.map renderedStringField) := by
  cases kvs with
  | nil => simp [emitFields, commaSeparated]
  | cons p rest =>
    rw [List.map_cons, emitFields]
    simp only [Bool.false_eq_true, if_false]
    rw [emitFields_strings_after_first x rest, AddTo_ofString,
      AddString_buf_after_opening _ _ _ (Or.inl h), List.map_cons, commaSeparated_cons]
    simp [List.flatMap_map, List.flatMap_def, Function.comp_def]

theorem logAddRemindFieldAction_eq_emit (x : Ext) (named : List Bytes)
    (final : logbackEncoder) (fields : List Field)
    (h : ∀ F, F ∈ final.used_fields ↔ F ∈ named) :
    logAddRemindFieldAction x final fields =
      (let opened := { final with buf := AppendByte final.buf 123 }
       let emitted := emitFields x
         (fields.filter (fun f => decide (f.Key ∉ named))) opened false
       { emitted with buf := AppendByte emitted.buf 125 }) := by
  unfold logAddRemindFieldAction
  simp only []
  rw [remindFieldLoop_eq_emitFields x named]
  exact h

/-- C7: for a template built from a pattern and a working instance that carries the
template's consumed-field set (as `clone` hands it over), the remainder action emits, between
`{` and `}`, exactly the fields whose key is not named by a `%x{...}` action of the pattern:
each such field once, in field-list order, and no other field; their keys are the keys of the
field list with the named keys removed; and for string fields the bytes appended are the
rendered fields of that sub-list, comma-separated, inside the braces. -/
theorem remind_action_emits_unconsumed_fields (ord : Nat → List (StrfKey × Bytes))
    (cfg : EncoderConfig) (log_format : Bytes) (enc final : logbackEncoder) (x : Ext)
    (fields : List Field)
    (hnew : NewZaplogbackEncoder ord cfg log_format = some enc)
    (hfinal : final.used_fields = enc.clone.used_fields) :
    logAddRemindFieldAction x final fields =
        (let opened := { final with buf := AppendByte final.buf 123 }
         let emitted := emitFields x
           (fields.filter (fun f => decide (f.Key ∉ namedFields enc.actions))) opened false
         { emitted with buf := AppendByte emitted.buf 125 }) ∧
      (fields.filter (fun f => decide (f.Key ∉ namedFields enc.actions))).map Field.Key =
        (fields.map Field.Key).filter (fun k => decide (k ∉ namedFields enc.actions)) ∧
      ∀ kvs : List (Bytes × Bytes),
        (logAddRemindFieldAction x final (kvs.map (fun p => Field.ofString p.1 p.2))).buf =
          final.buf ++ 123 :: commaSeparated
            ((kvs.filter (fun p => decide (p.1 ∉ namedFields enc.actions))).map
              renderedStringField) ++ [125] := by
  have hcons : ∀ F, F ∈ enc.used_fields ↔ F ∈ namedFields enc.actions := by
    unfold NewZaplogbackEncoder logbackEncoder.UseLogFormat at hnew
    cases hp : Parse_compile_log_format ord log_format with
    | none => simp [hp] at hnew
    | some c =>
      simp only [hp, Option.some.injEq] at hnew
      subst hnew
      exact parse_consistent ord log_format c hp
  have hused : ∀ F, F ∈ final.used_fields ↔ F ∈ namedFields enc.actions := by
    intro F
    rw [hfinal]
    exact hcons F
  refine ⟨logAddRemindFieldAction_eq_emit x _ final fields hused, ?_, ?_⟩
  · simp [List.filter_map, Function.comp_def]
  · intro kvs
    rw [logAddRemindFieldAction_eq_emit x _ final _ hused]
    simp only []
    have hfilter : (kvs.map (fun p => Field.ofString p.1 p.2)).filter
        (fun f => decide (f.Key ∉ namedFields enc.actions)) =
        (kvs.filter (fun p => decide (p.1 ∉ namedFields enc.actions))).map
          (fun p => Field.ofString p.1 p.2) := by
      simp [List.filter_map, Function.comp_def, Field.ofString]
    rw [hfilter, emitFields_strings x _ _ (by simp [AppendByte])]
    simp [AppendByte]

/-- Witness of C7 at the named-field scenario. -/
theorem remind_action_emits_unconsumed_fields_witness :
    NewZaplogbackEncoder tableOrder sampleConfig (str "%x\x7btid:[\"tid\":$0]\x7d %fields") =
        some scenarioEncoder ∧
      scenarioEncoder.clone.used_fields = scenarioEncoder.clone.used_fields ∧
      logAddRemindFieldAction sampleExt scenarioEncoder.clone scenarioFields =
        (let opened :=
           { scenarioEncoder.clone with buf := AppendByte scenarioEncoder.clone.buf 123 }
         let emitted := emitFields sampleExt
           (scenarioFields.filter
             (fun f => decide (f.Key ∉ namedFields scenarioEncoder.actions))) opened false
         { emitted with buf := AppendByte emitted.buf 125 }) ∧
      (scenarioFields.filter
          (fun f => decide (f.Key ∉ namedFields scenarioEncoder.actions))).map Field.Key =
        (scenarioFields.map Field.Key).filter
          (fun k => decide (k ∉ namedFields scenarioEncoder.actions)) ∧
      ∀ kvs : List (Bytes × Bytes),
        (logAddRemindFieldAction sampleExt scenarioEncoder.clone
            (kvs.map (fun p => Field.ofString p.1 p.2))).buf =
          scenarioEncoder.clone.buf ++ 123 :: commaSeparated
            ((kvs.filter (fun p => decide (p.1 ∉ namedFields scenarioEncoder.actions))).map
              renderedStringField) ++ [125] :=
  ⟨rfl, rfl,
    remind_action_emits_unconsumed_fields tableOrder sampleConfig
      (str "%x\x7btid:[\"tid\":$0]\x7d %fields") scenarioEncoder scenarioEncoder.clone
      sampleExt scenarioFields rfl rfl⟩

/-! ## The separator rule -/

/-- C19: `addElementSeparator` changes nothing but the buffer; it leaves the buffer
unchanged when it is empty or ends in `{`, `[`, `:`, `,` or a space, and otherwise appends
exactly one separator byte, the space; applying it twice is applying it once. -/
theorem addElementSeparator_rule (enc : logbackEncoder) :
    enc.addElementSeparator =
        { enc with
          buf :=
            if enc.buf = [] ∨ enc.buf.getLast? = some 123 ∨ enc.buf.getLast? = some 91 ∨
                enc.buf.getLast? = some 58 ∨ enc.buf.getLast? = some 44 ∨
                enc.buf.getLast? = some 32 then enc.buf
            else enc.buf ++ [32] } ∧
      enc.addElementSeparator.addElementSeparator = enc.addElementSeparator := by
  have hfirst : enc.addElementSeparator =
      { enc with
        buf :=
          if enc.buf = [] ∨ enc.buf.getLast? = some 123 ∨ enc.buf.getLast? = some 91 ∨
              enc.buf.getLast? = some 58 ∨ enc.buf.getLast? = some 44 ∨
              enc.buf.getLast? = some 32 then enc.buf
          else enc.buf ++ [32] } := by
    obtain ⟨c, buf, n, a, u⟩ := enc
    unfold logbackEncoder.addElementSeparator
    simp only []
    cases hlast : buf.getLast? with
    | none =>
      have hnil : buf = [] := List.getLast?_eq_none_iff.1 hlast
      simp [hnil]
    | some b =>
      have hne : buf ≠ [] := by
        intro h
        simp [h] at hlast
      by_cases hb : b = 123 ∨ b = 91 ∨ b = 58 ∨ b = 44 ∨ b = 32
      · simp [hb, hne]
      · simp [hb, hne, AppendByte]
  refine ⟨hfirst, ?_⟩
  unfold logbackEncoder.addElementSeparator
  cases hlast : enc.buf.getLast? with
  | none => simp [hlast]
  | some b =>
    by_cases hb : b = 123 ∨ b = 91 ∨ b = 58 ∨ b = 44 ∨ b = 32
    · simp [hb, hlast]
    · simp [hb, AppendByte]

/-! ## Reflection failures -/

/-- C14, as the code has it: `EncodeEntry` returns a nil error whenever it returns, whether
or not the reflection encoder failed; a field whose reflection fails is rendered by
`Field.AddTo` as the string field `<key>Error` holding the error text. -/
theorem encodeEntry_error_is_nil (x : Ext) (enc : logbackEncoder) (ent : Entry)
    (fields : List Field) (key err s : Bytes) (i : Int) :
    ((enc.EncodeEntry x ent fields).map (fun r => r.2) = none ∨
        (enc.EncodeEntry x ent fields).map (fun r => r.2) = some none) ∧
      Field.AddTo x (⟨key, .ReflectType (.failed err), i, s⟩ : Field) enc =
        enc.AddString (key ++ str "Error") err := by
  constructor
  · unfold logbackEncoder.EncodeEntry
    simp only []
    cases h : runActions x enc.actions enc.clone ent fields with
    | none => exact Or.inl rfl
    | some final => exact Or.inr rfl
  · simp [Field.AddTo, logbackEncoder.AddReflected, logbackEncoder.encodeReflected]

/-- C14 as stated fails: with the pattern `%fields` and a field whose reflection fails with
`boom`, `EncodeEntry` returns the line `{"rError":boom}` and a nil error. -/
theorem encodeEntry_reflection_failure_counterexample :
    (NewZaplogbackEncoder tableOrder sampleConfig (str "%fields")).bind
        (fun enc => enc.EncodeEntry sampleExt sampleEntry [failingReflectField]) =
      some (str "\x7b\"rError\":boom\x7d\n", none) := by
  rfl

/-! ## Cloned encoders -/

/-- C15 fails on the code: `Clone` hands over the configuration, the consumed-field set,
the namespace counter and the buffer but not the action list, so `EncodeEntry` on a clone
behaves as on the template with an empty action list; for the pattern `%message` the
template renders `hello` and the line terminator, its clone the line terminator alone. -/
theorem clone_drops_actions (x : Ext) (enc : logbackEncoder) (ent : Entry)
    (fields : List Field) :
    enc.Clone.EncodeEntry x ent fields =
        ({ enc with actions := [] } : logbackEncoder).EncodeEntry x ent fields ∧
      (NewZaplogbackEncoder tableOrder sampleConfig (str "%message")).bind
          (fun e => e.EncodeEntry sampleExt sampleEntry []) = some (str "hello\n", none) ∧
      (NewZaplogbackEncoder tableOrder sampleConfig (str "%message")).bind
          (fun e => e.Clone.EncodeEntry sampleExt sampleEntry []) = some (str "\n", none) := by
  refine ⟨?_, rfl, rfl⟩
  simp [logbackEncoder.Clone, logbackEncoder.clone]

/-! ## The escaping writer on arbitrary bytes -/

theorem DecodeRune_size (c : Nat) (t : Bytes) :
    1 ≤ (DecodeRune (c :: t)).2 ∧ (DecodeRune (c :: t)).2 ≤ (c :: t).length := by
  unfold DecodeRune
  simp only []
  split_ifs <;> (try split) <;> (try split_ifs) <;> simp

theorem utf8EncodeNat_two (c b1 : Nat) (hc : 0xC2 ≤ c) (hc' : c < 0xE0) (h1 : 0x80 ≤ b1)
    (h1' : b1 ≤ 0xBF) :
    IsScalar (c % 32 * 64 + b1 % 64) ∧ 0x80 ≤ c % 32 * 64 + b1 % 64 ∧
      utf8EncodeNat (c % 32 * 64 + b1 % 64) = [c, b1] := by
  refine ⟨?_, ?_, ?_⟩
  · unfold IsScalar
    omega
  · omega
  · unfold utf8EncodeNat
    rw [if_neg (by omega), if_pos (by omega)]
    congr 1
    · omega
    · congr 1
      omega

theorem utf8EncodeNat_three (c b1 b2 : Nat) (hc : 0xE0 ≤ c) (hc' : c < 0xF0)
    (h1 : (if c = 0xE0 then 0xA0 else 0x80) ≤ b1)
    (h1' : b1 ≤ (if c = 0xED then 0x9F else 0xBF)) (h2 : 0x80 ≤ b2) (h2' : b2 ≤ 0xBF) :
    IsScalar (c % 16 * 4096 + b1 % 64 * 64 + b2 % 64) ∧
      0x80 ≤ c % 16 * 4096 + b1 % 64 * 64 + b2 % 64 ∧
      utf8EncodeNat (c % 16 * 4096 + b1 % 64 * 64 + b2 % 64) = [c, b1, b2] := by
  have h1a : 0x80 ≤ b1 := by split_ifs at h1 <;> omega
  have h1b : b1 ≤ 0xBF := by split_ifs at h1' <;> omega
  have hE0 : c = 0xE0 → 0xA0 ≤ b1 := by
    intro e
    rw [if_pos e] at h1
    exact h1
  have hED : c = 0xED → b1 ≤ 0x9F := by
    intro e
    rw [if_pos e] at h1'
    exact h1'
  refine ⟨?_, ?_, ?_⟩
  · unfold IsScalar
    by_cases e : c = 0xED
    · have := hED e
      omega
    · omega
  · omega
  · unfold utf8EncodeNat
    have hge : 0x800 ≤ c % 16 * 4096 + b1 % 64 * 64 + b2 % 64 := by
      by_cases e : c = 0xE0
      · have := hE0 e
        omega
      · omega
    rw [if_neg (by omega), if_neg (by omega), if_pos (by omega)]
    congr 1
    · omega
    · congr 1
      · omega
      · congr 1
        omega

theorem utf8EncodeNat_four (c b1 b2 b3 : Nat) (hc : 0xF0 ≤ c) (hc' : c < 0xF5)
    (h1 : (if c = 0xF0 then 0x90 else 0x80) ≤ b1)
    (h1' : b1 ≤ (if c = 0xF4 then 0x8F else 0xBF)) (h2 : 0x80 ≤ b2) (h2' : b2 ≤ 0xBF)
    (h3 : 0x80 ≤ b3) (h3' : b3 ≤ 0xBF) :
    IsScalar (c % 8 * 262144 + b1 % 64 * 4096 + b2 % 64 * 64 + b3 % 64) ∧
      0x80 ≤ c % 8 * 262144 + b1 % 64 * 4096 + b2 % 64 * 64 + b3 % 64 ∧
      utf8EncodeNat (c % 8 * 262144 + b1 % 64 * 4096 + b2 % 64 * 64 + b3 % 64) =
        [c, b1, b2, b3] := by
  have h1a : 0x80 ≤ b1 := by split_ifs at h1 <;> omega
  have h1b : b1 ≤ 0xBF := by split_ifs at h1' <;> omega
  have hF0 : c = 0xF0 → 0x90 ≤ b1 := by
    intro e
    rw [if_pos e] at h1
    exact h1
  have hF4 : c = 0xF4 → b1 ≤ 0x8F := by
    intro e
    rw [if_pos e] at h1'
    exact h1'
  have hge : 0x10000 ≤ c % 8 * 262144 + b1 % 64 * 4096 + b2 % 64 * 64 + b3 % 64 := by
    by_cases e : c = 0xF0
    · have := hF0 e
      omega
    · omega
  have hlt : c % 8 * 262144 + b1 % 64 * 4096 + b2 % 64 * 64 + b3 % 64 < 0x110000 := by
    by_cases e : c = 0xF4
    · have := hF4 e
      omega
    · omega
  refine ⟨?_, ?_, ?_⟩
  · unfold IsScalar
    omega
  · omega
  · unfold utf8EncodeNat
    rw [if_neg (by omega), if_neg (by omega), if_neg (by omega)]
    congr 1
    · omega
    · congr 1
      · omega
      · congr 1
        · omega
        · congr 1
          omega

theorem DecodeRune_valid (c : Nat) (t : Bytes) (hc : 0x80 ≤ c)
    (h : (DecodeRune (c :: t)).1 ≠ RuneError ∨ (DecodeRune (c :: t)).2 ≠ 1) :
    IsScalar (DecodeRune (c :: t)).1 ∧ 0x80 ≤ (DecodeRune (c :: t)).1 ∧
      utf8EncodeNat (DecodeRune (c :: t)).1 = (c :: t).take (DecodeRune (c :: t)).2 := by
  have h80 : ¬ c < 0x80 := by omega
  have herr : DecodeRune (c :: t) = (RuneError, 1) → False := by
    intro e
    rw [e] at h
    simp at h
  by_cases hC2 : c < 0xC2
  · exact (herr (by simp only [DecodeRune, h80, hC2, if_true, if_false])).elim
  by_cases hE0 : c < 0xE0
  · rcases t with _ | ⟨b1, t'⟩
    · exact (herr (by simp only [DecodeRune, h80, hC2, hE0, if_true, if_false])).elim
    · by_cases hb : b1 < 0x80 ∨ 0xBF < b1
      · exact (herr (by simp only [DecodeRune, h80, hC2, hE0, hb, if_true, if_false])).elim
      · have hd : DecodeRune (c :: b1 :: t') = (c % 32 * 64 + b1 % 64, 2) := by
          simp only [DecodeRune, h80, hC2, hE0, hb, if_true, if_false]
        rw [hd]
        simpa using utf8EncodeNat_two c b1 (by omega) hE0 (by omega) (by omega)
  by_cases hF0 : c < 0xF0
  · rcases t with _ | ⟨b1, _ | ⟨b2, t'⟩⟩
    · exact (herr (by simp only [DecodeRune, h80, hC2, hE0, hF0, if_true, if_false])).elim
    · exact (herr (by simp only [DecodeRune, h80, hC2, hE0, hF0, if_true, if_false])).elim
    · by_cases hb1 : b1 < (if c = 0xE0 then 0xA0 else 0x80) ∨
          (if c = 0xED then 0x9F else 0xBF) < b1
      · exact (herr (by
          simp only [DecodeRune, h80, hC2, hE0, hF0, hb1, if_true, if_false])).elim
      · by_cases hb2 : b2 < 0x80 ∨ 0xBF < b2
        · exact (herr (by
            simp only [DecodeRune, h80, hC2, hE0, hF0, hb1, hb2, if_true, if_false])).elim
        · have hd : DecodeRune (c :: b1 :: b2 :: t') =
              (c % 16 * 4096 + b1 % 64 * 64 + b2 % 64, 3) := by
            simp only [DecodeRune, h80, hC2, hE0, hF0, hb1, hb2, if_true, if_false]
          rw [hd]
          simpa using utf8EncodeNat_three c b1 b2 (by omega) hF0 (by omega) (by omega)
            (by omega) (by omega)
  by_cases hF5 : c < 0xF5
  · rcases t with _ | ⟨b1, _ | ⟨b2, _ | ⟨b3, t'⟩⟩⟩
    · exact (herr (by
        simp only [DecodeRune, h80, hC2, hE0, hF0, hF5, if_true, if_false])).elim
    · exact (herr (by
        simp only [DecodeRune, h80, hC2, hE0, hF0, hF5, if_true, if_false])).elim
    · exact (herr (by
        simp only [DecodeRune, h80, hC2, hE0, hF0, hF5, if_true, if_false])).elim
    · by_cases hb1 : b1 < (if c = 0xF0 then 0x90 else 0x80) ∨
          (if c = 0xF4 then 0x8F else 0xBF) < b1
      · exact (herr (by
          simp only [DecodeRune, h80, hC2, hE0, hF0, hF5, hb1, if_true, if_false])).elim
      · by_cases hb2 : b2 < 0x80 ∨ 0xBF < b2
        · exact (herr (by
            simp only [DecodeRune, h80, hC2, hE0, hF0, hF5, hb1, hb2, if_true,
              if_false])).elim
        · by_cases hb3 : b3 < 0x80 ∨ 0xBF < b3
          · exact (herr (by
              simp only [DecodeRune, h80, hC2, hE0, hF0, hF5, hb1, hb2, hb3, if_true,
                if_false])).elim
          · have hd : DecodeRune (c :: b1 :: b2 :: b3 :: t') =
                (c % 8 * 262144 + b1 % 64 * 4096 + b2 % 64 * 64 + b3 % 64, 4) := by
              simp only [DecodeRune, h80, hC2, hE0, hF0, hF5, hb1, hb2, hb3, if_true,
                if_false]
            rw [hd]
            simpa using utf8EncodeNat_four c b1 b2 b3 (by omega) hF5 (by omega) (by omega)
              (by omega) (by omega) (by omega) (by omega)
  · exact (herr (by
      simp only [DecodeRune, h80, hC2, hE0, hF0, hF5, if_true, if_false])).elim

theorem escapeBytes_skip :
    ∀ a r : Bytes, escapeBytes (a ++ r) a.length = a ++ escapeBytes r 0
  | [], r => by simp
  | c :: a, r => by
    simp only [List.cons_append, List.length_cons]
    rw [escapeBytes, escapeBytes_skip a r]

theorem escapeBytes_take_drop :
    ∀ (k : Nat) (t : Bytes), k ≤ t.length →
      escapeBytes t k = t.take k ++ escapeBytes (t.drop k) 0
  | 0, t, _ => by simp
  | k + 1, [], h => by simp at h
  | k + 1, c :: t, h => by
    rw [escapeBytes, escapeBytes_take_drop k t (by simpa using h)]
    simp

/-- The loop of the escaping writer on any byte string: what has been appended, together
with the bytes not yet copied, is `escapeBytes` of the string. -/
theorem safeAppendLoop_escapeBytes (appendTo : Bytes → Bytes → Bytes)
    (happ : ∀ b v, appendTo b v = b ++ v) :
    ∀ (fuel : Nat) (pre suf : Bytes) (last : Nat) (buf : Bytes),
      last ≤ pre.length → suf.length ≤ fuel →
      (safeAppendLoop appendTo DecodeRune (pre ++ suf) fuel pre.length last buf).2 ++
          (pre ++ suf).drop
            (safeAppendLoop appendTo DecodeRune (pre ++ suf) fuel pre.length last buf).1 =
        buf ++ pre.drop last ++ escapeBytes suf 0
  | 0, pre, suf, last, buf, hl, hf => by
    have hsuf : suf = [] := List.length_eq_zero.1 (Nat.le_zero.1 hf)
    subst hsuf
    simp [safeAppendLoop, escapeBytes]
  | fuel + 1, pre, [], last, buf, hl, _ => by
    simp [safeAppendLoop, escapeBytes]
  | fuel + 1, pre, c :: t, last, buf, hl, hf => by
    have hlt : pre.length < (pre ++ c :: t).length := by simp
    have hget : (pre ++ c :: t).getD pre.length 0 = c := by
      rw [getD_append_length]
      rfl
    have hdrop : (pre ++ c :: t).drop pre.length = c :: t := by simp
    have hft : t.length ≤ fuel := by simpa using hf
    have hassoc : pre ++ c :: t = (pre ++ [c]) ++ t := by simp
    have hlen1 : (pre ++ [c]).length = pre.length + 1 := by simp
    rw [safeAppendLoop, if_pos hlt]
    simp only [hget, hdrop, slice_prefix, happ]
    by_cases hc : c ≥ RuneSelf
    · rw [if_pos hc]
      by_cases hv : (DecodeRune (c :: t)).1 ≠ RuneError ∨ (DecodeRune (c :: t)).2 ≠ 1
      · rw [if_pos hv]
        obtain ⟨hs1, hs2⟩ := DecodeRune_size c t
        have hsplit : c :: t = (c :: t).take (DecodeRune (c :: t)).2 ++
            (c :: t).drop (DecodeRune (c :: t)).2 := (List.take_append_drop _ _).symm
        have htlen : ((c :: t).take (DecodeRune (c :: t)).2).length =
            (DecodeRune (c :: t)).2 := by
          rw [List.length_take]
          omega
        have hassoc2 : pre ++ c :: t =
            (pre ++ (c :: t).take (DecodeRune (c :: t)).2) ++
              (c :: t).drop (DecodeRune (c :: t)).2 := by
          rw [List.append_assoc, ← hsplit]
        have hlen2 : (pre ++ (c :: t).take (DecodeRune (c :: t)).2).length =
            pre.length + (DecodeRune (c :: t)).2 := by
          rw [List.length_append, htlen]
        have ih := safeAppendLoop_escapeBytes appendTo happ fuel
          (pre ++ (c :: t).take (DecodeRune (c :: t)).2)
          ((c :: t).drop (DecodeRune (c :: t)).2) last buf (by omega)
          (by rw [List.length_drop]; simp only [List.length_cons] at hs2 hf ⊢; omega)
        rw [hlen2, ← hassoc2] at ih
        rw [ih]
        have hesc : escapeBytes (c :: t) 0 =
            (c :: t).take (DecodeRune (c :: t)).2 ++
              escapeBytes ((c :: t).drop (DecodeRune (c :: t)).2) 0 := by
          rw [escapeBytes, if_pos hc, if_pos hv]
          obtain ⟨k, hk⟩ : ∃ k, (DecodeRune (c :: t)).2 = k + 1 :=
            ⟨(DecodeRune (c :: t)).2 - 1, by omega⟩
          rw [hk]
          simp only [Nat.add_sub_cancel, List.take_succ_cons, List.drop_succ_cons,
            List.cons_append]
          rw [escapeBytes_take_drop k t (by simp only [List.length_cons] at hs2; omega)]
        rw [hesc, List.drop_append_of_le_length hl]
        simp
      · rw [if_neg hv]
        have ih := safeAppendLoop_escapeBytes appendTo happ fuel (pre ++ [c]) t
          (pre.length + 1) (AppendString (buf ++ pre.drop last) (str "\\ufffd"))
          (by simp) hft
        rw [hlen1, ← hassoc] at ih
        rw [ih]
        have hesc : escapeBytes (c :: t) 0 = str "\\ufffd" ++ escapeBytes t 0 := by
          rw [escapeBytes, if_pos hc, if_neg hv]
        rw [hesc, ← hlen1, List.drop_length]
        simp [AppendString]
    · rw [if_neg hc]
      by_cases hp : c ≥ 0x20 ∧ c ≠ 92 ∧ c ≠ 34
      · rw [if_pos hp]
        have ih := safeAppendLoop_escapeBytes appendTo happ fuel (pre ++ [c]) t last buf
          (by simp; omega) hft
        rw [hlen1, ← hassoc] at ih
        rw [ih]
        have hesc : escapeBytes (c :: t) 0 = c :: escapeBytes t 0 := by
          rw [escapeBytes, if_neg hc, if_pos hp]
        rw [hesc, List.drop_append_of_le_length hl]
        simp
      · rw [if_neg hp]
        have ih := safeAppendLoop_escapeBytes appendTo happ fuel (pre ++ [c]) t
          (pre.length + 1) (appendEscape (buf ++ pre.drop last) c) (by simp) hft
        rw [hlen1, ← hassoc] at ih
        rw [ih]
        have hesc : escapeBytes (c :: t) 0 = appendEscape [] c ++ escapeBytes t 0 := by
          rw [escapeBytes, if_neg hc, if_neg hp]
        rw [hesc, ← hlen1, List.drop_length, appendEscape_eq]
        simp

theorem safeAppendStringLike_eq_escapeBytes (appendTo : Bytes → Bytes → Bytes)
    (happ : ∀ b v, appendTo b v = b ++ v) (buf s : Bytes) :
    safeAppendStringLike appendTo DecodeRune buf s = buf ++ escapeBytes s 0 := by
  have h := safeAppendLoop_escapeBytes appendTo happ s.length [] s 0 buf (le_refl _)
    (le_refl _)
  simp only [List.nil_append, List.length_nil, List.drop_zero, List.append_nil] at h
  simp only [safeAppendStringLike, happ]
  exact h

theorem hex_getD_mem (k : Nat) (hk : k < 16) : _hex.getD k 0 ∈ _hex := by
  interval_cases k <;> decide

theorem appendEscape_isWriterEscape (c : Nat) (hc : c < 0x80)
    (hp : ¬ (c ≥ 0x20 ∧ c ≠ 92 ∧ c ≠ 34)) : IsWriterEscape (appendEscape [] c) := by
  unfold IsWriterEscape appendEscape
  by_cases h1 : c = 92
  · subst h1
    exact Or.inl (by decide)
  by_cases h2 : c = 34
  · subst h2
    exact Or.inr (Or.inl (by decide))
  by_cases h3 : c = 10
  · subst h3
    exact Or.inr (Or.inr (Or.inl (by decide)))
  by_cases h4 : c = 13
  · subst h4
    exact Or.inr (Or.inr (Or.inr (Or.inl (by decide))))
  by_cases h5 : c = 9
  · subst h5
    exact Or.inr (Or.inr (Or.inr (Or.inr (Or.inl (by decide)))))
  · have hlt : c < 0x20 := by omega
    refine Or.inr (Or.inr (Or.inr (Or.inr (Or.inr (Or.inr
      ⟨_hex.getD (c / 16) 0, _hex.getD (c % 16) 0, hex_getD_mem _ (by omega),
        hex_getD_mem _ (by omega), ?_⟩)))))
    simp [h1, h2, h3, h4, h5, AppendByte, AppendString]

/-- One step of `escapeBytes`: a piece of JSON string content, then the rest. -/
theorem escapeBytes_cons_piece (c : Nat) (t : Bytes) :
    ∃ piece rest, IsContentPiece piece ∧ rest.length ≤ t.length ∧
      escapeBytes (c :: t) 0 = piece ++ escapeBytes rest 0 := by
  by_cases hc : c ≥ RuneSelf
  · by_cases hv : (DecodeRune (c :: t)).1 ≠ RuneError ∨ (DecodeRune (c :: t)).2 ≠ 1
    · obtain ⟨hs1, hs2⟩ := DecodeRune_size c t
      obtain ⟨hsc, hge, henc⟩ := DecodeRune_valid c t hc hv
      refine ⟨(c :: t).take (DecodeRune (c :: t)).2, (c :: t).drop (DecodeRune (c :: t)).2,
        Or.inr ⟨_, hsc, by omega, by omega, by omega, henc.symm⟩, ?_, ?_⟩
      · rw [List.length_drop]
        simp only [List.length_cons]
        omega
      · rw [escapeBytes, if_pos hc, if_pos hv]
        obtain ⟨k, hk⟩ : ∃ k, (DecodeRune (c :: t)).2 = k + 1 :=
          ⟨(DecodeRune (c :: t)).2 - 1, by omega⟩
        rw [hk]
        simp only [Nat.add_sub_cancel, List.take_succ_cons, List.drop_succ_cons,
          List.cons_append]
        rw [escapeBytes_take_drop k t (by simp only [List.length_cons] at hs2; omega)]
    · refine ⟨str "\\ufffd", t, Or.inl (Or.inr (Or.inr (Or.inr (Or.inr (Or.inr
        (Or.inl rfl)))))), le_refl _, ?_⟩
      rw [escapeBytes, if_pos hc, if_neg hv]
  · have hlt : c < 0x80 := by
      unfold RuneSelf at hc
      omega
    by_cases hp : c ≥ 0x20 ∧ c ≠ 92 ∧ c ≠ 34
    · refine ⟨[c], t, Or.inr ⟨c, Or.inl (by omega), hp.1, hp.2.2, hp.2.1, ?_⟩, le_refl _, ?_⟩
      · simp [utf8EncodeNat, hlt]
      · rw [escapeBytes, if_neg hc, if_pos hp]
        rfl
    · refine ⟨appendEscape [] c, t, Or.inl (appendEscape_isWriterEscape c hlt hp),
        le_refl _, ?_⟩
      rw [escapeBytes, if_neg hc, if_neg hp]

theorem escapeBytes_pieces :
    ∀ (n : Nat) (s : Bytes), s.length ≤ n →
      ∃ pieces : List Bytes, escapeBytes s 0 = pieces.flatten ∧
        ∀ t ∈ pieces, IsContentPiece t
  | _, [], _ => ⟨[], by simp [escapeBytes], by simp⟩
  | 0, c :: t, h => by simp at h
  | n + 1, c :: t, h => by
    obtain ⟨piece, rest, hpiece, hlen, heq⟩ := escapeBytes_cons_piece c t
    obtain ⟨pieces, hflat, hall⟩ := escapeBytes_pieces n rest (by
      simp only [List.length_cons] at h
      omega)
    refine ⟨piece :: pieces, ?_, ?_⟩
    · rw [heq, hflat]
      simp
    · intro u hu
      rcases List.mem_cons.1 hu with rfl | hu
      · exact hpiece
      · exact hall u hu

theorem writerEscape_bytes (t : Bytes) (h : IsWriterEscape t) :
    ∀ b ∈ t, 0x20 ≤ b ∧ b < 0x80 := by
  have hhex : ∀ b ∈ _hex, 0x20 ≤ b ∧ b < 0x80 := by decide
  rcases h with h | h | h | h | h | h | ⟨h1, h2, hh1, hh2, h⟩ <;> subst h
  · decide
  · decide
  · decide
  · decide
  · decide
  · decide
  · intro b hb
    have hpre : ∀ b ∈ str "\\u00", 0x20 ≤ b ∧ b < 0x80 := by decide
    simp only [List.mem_append, List.mem_cons, List.mem_singleton, List.not_mem_nil,
      or_false] at hb
    rcases hb with hb | rfl | rfl
    · exact hpre b hb
    · exact hhex _ hh1
    · exact hhex _ hh2

theorem scalarPiece_bytes (n : Nat) (h20 : 0x20 ≤ n) (h34 : n ≠ 34) (h92 : n ≠ 92) :
    ∀ b ∈ utf8EncodeNat n, 0x20 ≤ b ∧ b ≠ 34 ∧ b ≠ 92 := by
  by_cases hlt : n < 0x80
  · intro b hb
    simp [utf8EncodeNat, hlt] at hb
    subst hb
    exact ⟨h20, h34, h92⟩
  · exact utf8EncodeNat_bytes_ge n (by omega)

theorem contentPiece_bytes (t : Bytes) (h : IsContentPiece t) : ∀ b ∈ t, 0x20 ≤ b := by
  rcases h with h | ⟨n, _, h20, h34, h92, rfl⟩
  · exact fun b hb => (writerEscape_bytes t h b hb).1
  · exact fun b hb => (scalarPiece_bytes n h20 h34 h92 b hb).1

theorem contentPiece_quote (t : Bytes) (h : IsContentPiece t) (hq : 34 ∈ t ∨ 92 ∈ t) :
    IsWriterEscape t := by
  rcases h with h | ⟨n, _, h20, h34, h92, rfl⟩
  · exact h
  · rcases hq with hq | hq
    · exact absurd rfl (scalarPiece_bytes n h20 h34 h92 _ hq).2.1
    · exact absurd rfl (scalarPiece_bytes n h20 h34 h92 _ hq).2.2

theorem ascii_isValidUtf8 :
    ∀ t : Bytes, (∀ b ∈ t, b < 0x80) →
      (∀ n ∈ t, IsScalar n) ∧ t = t.flatMap utf8EncodeNat
  | [], _ => by simp
  | b :: t, h => by
    have hb : b < 0x80 := h b (by simp)
    obtain ⟨h1, h2⟩ := ascii_isValidUtf8 t (fun c hc => h c (List.mem_cons_of_mem _ hc))
    constructor
    · intro n hn
      rcases List.mem_cons.1 hn with rfl | hn
      · exact Or.inl (by omega)
      · exact h1 n hn
    · rw [List.flatMap_cons, ← h2]
      simp [utf8EncodeNat, hb]

theorem contentPiece_isValidUtf8 (t : Bytes) (h : IsContentPiece t) : IsValidUtf8 t := by
  rcases h with h | ⟨n, hs, _, _, _, rfl⟩
  · obtain ⟨h1, h2⟩ := ascii_isValidUtf8 t (fun b hb => (writerEscape_bytes t h b hb).2)
    exact ⟨t, h1, h2⟩
  · exact ⟨[n], by simpa using hs, by simp⟩

theorem flatten_isValidUtf8 :
    ∀ pieces : List Bytes, (∀ t ∈ pieces, IsValidUtf8 t) → IsValidUtf8 pieces.flatten
  | [], _ => ⟨[], by simp, by simp⟩
  | p :: pieces, h => by
    obtain ⟨ns, hns, hp⟩ := h p (by simp)
    obtain ⟨ms, hms, hrest⟩ :=
      flatten_isValidUtf8 pieces (fun t ht => h t (List.mem_cons_of_mem _ ht))
    refine ⟨ns ++ ms, ?_, ?_⟩
    · intro n hn
      rcases List.mem_append.1 hn with hn | hn
      · exact hns n hn
      · exact hms n hn
    · rw [List.flatten_cons, hp, hrest, List.flatMap_append]

/-- C11: for every byte string, valid UTF-8 or not, `safeAddString` and
`safeAddByteString` append the same bytes, and these are JSON string content: a sequence of
pieces, each one of the escapes or the encoding of a scalar value that is neither a control
character nor `"` nor `\`; a piece that holds `"` or `\` is an escape; no byte is below
0x20; the whole is valid UTF-8. -/
theorem escaped_bytes_are_json_string_content (enc : logbackEncoder) (s : Bytes) :
    ∃ out, (enc.safeAddString s).buf = enc.buf ++ out ∧
      (enc.safeAddByteString s).buf = enc.buf ++ out ∧
      (∃ pieces : List Bytes, out = pieces.flatten ∧
        ∀ t ∈ pieces, IsContentPiece t ∧ ((34 ∈ t ∨ 92 ∈ t) → IsWriterEscape t)) ∧
      (∀ b ∈ out, 0x20 ≤ b) ∧ IsValidUtf8 out := by
  obtain ⟨pieces, hflat, hall⟩ := escapeBytes_pieces s.length s (le_refl _)
  refine ⟨escapeBytes s 0, ?_, ?_, ⟨pieces, hflat, ?_⟩, ?_, ?_⟩
  · exact safeAppendStringLike_eq_escapeBytes AppendString (fun _ _ => rfl) enc.buf s
  · exact safeAppendStringLike_eq_escapeBytes AppendBytes (fun _ _ => rfl) enc.buf s
  · exact fun t ht => ⟨hall t ht, contentPiece_quote t (hall t ht)⟩
  · intro b hb
    rw [hflat, List.mem_flatten] at hb
    obtain ⟨t, ht, hbt⟩ := hb
    exact contentPiece_bytes t (hall t ht) b hbt
  · rw [hflat]
    exact flatten_isValidUtf8 pieces (fun t ht => contentPiece_isValidUtf8 t (hall t ht))

/-! ## An invalid byte between printable text -/

theorem escapeBytes_plain_run (r : Bytes) :
    ∀ p : Bytes, (∀ c ∈ p, 0x20 ≤ c ∧ c < 0x80 ∧ c ≠ 34 ∧ c ≠ 92) →
      escapeBytes (p ++ r) 0 = p ++ escapeBytes r 0
  | [], _ => by simp
  | c :: p, h => by
    obtain ⟨h1, h2, h3, h4⟩ := h c (by simp)
    have hc : ¬ c ≥ RuneSelf := by
      unfold RuneSelf
      omega
    rw [List.cons_append, escapeBytes, if_neg hc, if_pos ⟨h1, h4, h3⟩,
      escapeBytes_plain_run r p (fun d hd => h d (List.mem_cons_of_mem _ hd))]
    simp

theorem escapeBytes_plain (p : Bytes)
    (h : ∀ c ∈ p, 0x20 ≤ c ∧ c < 0x80 ∧ c ≠ 34 ∧ c ≠ 92) : escapeBytes p 0 = p := by
  have := escapeBytes_plain_run [] p h
  simpa [escapeBytes] using this

theorem DecodeRune_before_ascii (b : Nat) (q : Bytes) (hb : 0x80 ≤ b)
    (hq : ∀ c, q.head? = some c → c < 0x80) : DecodeRune (b :: q) = (RuneError, 1) := by
  have h80 : ¬ b < 0x80 := by omega
  rcases q with _ | ⟨c, q'⟩
  · simp only [DecodeRune, h80, if_false]
    split_ifs <;> rfl
  · have hc : c < 0x80 := hq c rfl
    have h2 : c < 0x80 ∨ 0xBF < c := Or.inl hc
    have h3 : c < (if b = 0xE0 then 0xA0 else 0x80) ∨ (if b = 0xED then 0x9F else 0xBF) < c := by
      left
      split_ifs <;> omega
    have h4 : c < (if b = 0xF0 then 0x90 else 0x80) ∨ (if b = 0xF4 then 0x8F else 0xBF) < c := by
      left
      split_ifs <;> omega
    rcases q' with _ | ⟨c2, _ | ⟨c3, q''⟩⟩ <;>
      simp only [DecodeRune, h80, h2, h3, h4, if_true, if_false] <;>
      split_ifs <;> rfl

/-- C12: for printable ASCII texts `p` and `q` without `"` and `\` and a byte `b` of 0x80
or more, which in front of ASCII text or at the end starts no valid rune, the string value
that `AppendString`, and so `AddString` after the key, appends for `p ++ [b] ++ q` is `p`,
the replacement-character escape and `q`. -/
theorem invalid_byte_replaced (enc : logbackEncoder) (key p q : Bytes) (b : Nat)
    (hp : ∀ c ∈ p, 0x20 ≤ c ∧ c < 0x80 ∧ c ≠ 34 ∧ c ≠ 92)
    (hq : ∀ c ∈ q, 0x20 ≤ c ∧ c < 0x80 ∧ c ≠ 34 ∧ c ≠ 92) (hb : 0x80 ≤ b) :
    (enc.AppendString (p ++ b :: q)).buf = enc.buf ++ (p ++ str "\\ufffd" ++ q) ∧
      (enc.AddString key (p ++ b :: q)).buf =
        (enc.addKey key).buf ++ (p ++ str "\\ufffd" ++ q) := by
  have hesc : escapeBytes (p ++ b :: q) 0 = p ++ str "\\ufffd" ++ q := by
    have hd : DecodeRune (b :: q) = (RuneError, 1) := by
      apply DecodeRune_before_ascii b q hb
      intro c hc
      cases q with
      | nil => simp at hc
      | cons d q' =>
        simp at hc
        subst hc
        exact (hq d (by simp)).2.1
    have hv : ¬ ((DecodeRune (b :: q)).1 ≠ RuneError ∨ (DecodeRune (b :: q)).2 ≠ 1) := by
      rw [hd]
      simp
    rw [escapeBytes_plain_run _ p hp, escapeBytes, if_pos (by unfold RuneSelf; omega),
      if_neg hv, escapeBytes_plain q hq]
    simp
  have happend : ∀ e : logbackEncoder,
      (e.AppendString (p ++ b :: q)).buf = e.buf ++ (p ++ str "\\ufffd" ++ q) := by
    intro e
    rw [← hesc]
    exact safeAppendStringLike_eq_escapeBytes AppendString (fun _ _ => rfl) e.buf _
  exact ⟨happend enc, happend (enc.addKey key)⟩

/-- Witness of C12 at `ab`, the byte 0xFF and `cd`. -/
theorem invalid_byte_replaced_witness :
    (∀ c ∈ str "ab", 0x20 ≤ c ∧ c < 0x80 ∧ c ≠ 34 ∧ c ≠ 92) ∧
      (∀ c ∈ str "cd", 0x20 ≤ c ∧ c < 0x80 ∧ c ≠ 34 ∧ c ≠ 92) ∧ 0x80 ≤ 0xFF ∧
      (scenarioEncoder.AppendString (str "ab" ++ 0xFF :: str "cd")).buf =
        scenarioEncoder.buf ++ (str "ab" ++ str "\\ufffd" ++ str "cd") ∧
      (scenarioEncoder.AddString (str "k") (str "ab" ++ 0xFF :: str "cd")).buf =
        (scenarioEncoder.addKey (str "k")).buf ++ (str "ab" ++ str "\\ufffd" ++ str "cd") :=
  ⟨by decide, by decide, by decide,
    invalid_byte_replaced scenarioEncoder (str "k") (str "ab") (str "cd") 0xFF (by decide)
      (by decide) (by decide)⟩

/-! ## What the operations of the field sink append -/

theorem Step.refl {P : Bytes → Nat → Prop} (law : ChunkLaw P) (enc : logbackEncoder) :
    Step P 0 enc enc :=
  ⟨[], by simp, law.plain [] (by simp [NoBrace])⟩

theorem Step.trans {P : Bytes → Nat → Prop} (law : ChunkLaw P) {m n : Nat}
    {a b c : logbackEncoder} (h1 : Step P m a b) (h2 : Step P n b c) : Step P (m + n) a c := by
  obtain ⟨o1, rfl, p1⟩ := h1
  obtain ⟨o2, rfl, p2⟩ := h2
  exact ⟨o1 ++ o2, by simp [Nat.add_assoc], law.append _ _ _ _ p1 p2⟩

theorem Step.trans0 {P : Bytes → Nat → Prop} (law : ChunkLaw P) {n : Nat}
    {a b c : logbackEncoder} (h1 : Step P 0 a b) (h2 : Step P n b c) : Step P n a c := by
  have := Step.trans law h1 h2
  rwa [Nat.zero_add] at this

theorem Step.append {P : Bytes → Nat → Prop} (enc : logbackEncoder) (c : Bytes)
    (h : P c 0) : Step P 0 enc { enc with buf := enc.buf ++ c } :=
  ⟨c, by simp, h⟩

theorem Step.config {P : Bytes → Nat → Prop} {δ : Nat} {a b : logbackEncoder}
    (h : Step P δ a b) : b.EncoderConfig = a.EncoderConfig ∧ b.used_fields = a.used_fields ∧
      b.actions = a.actions ∧ b.openNamespaces = a.openNamespaces + δ := by
  obtain ⟨o, rfl, _⟩ := h
  simp

theorem digitChar_lt (d : Nat) (h : d < 10) : (Nat.digitChar d).toNat < 123 := by
  interval_cases d <;> decide

theorem toDigitsCore_lt (fuel : Nat) : ∀ (n : Nat) (acc : List Char),
    (∀ c ∈ acc, c.toNat < 123) → ∀ c ∈ Nat.toDigitsCore 10 fuel n acc, c.toNat < 123 := by
  induction fuel with
  | zero => intro n acc h; simpa [Nat.toDigitsCore] using h
  | succ fuel ih =>
    intro n acc h
    have hcons : ∀ c ∈ Nat.digitChar (n % 10) :: acc, c.toNat < 123 := by
      intro c hc
      rcases List.mem_cons.1 hc with rfl | hc
      · exact digitChar_lt _ (Nat.mod_lt _ (by decide))
      · exact h c hc
    simp only [Nat.toDigitsCore]
    split_ifs
    · exact hcons
    · exact ih _ _ hcons

theorem decimal_noBrace (n : Nat) : NoBrace (decimal n) := by
  intro b hb
  simp only [decimal, List.mem_map] at hb
  obtain ⟨c, hc, rfl⟩ := hb
  have := toDigitsCore_lt (n + 1) n [] (by simp) c hc
  omega

theorem AppendInt_noBrace (buf : Bytes) (v : Int) :
    ∃ c, AppendInt buf v = buf ++ c ∧ NoBrace c := by
  unfold AppendInt
  split_ifs
  · refine ⟨45 :: decimal v.natAbs, rfl, ?_⟩
    intro b hb
    rcases List.mem_cons.1 hb with rfl | hb
    · decide
    · exact decimal_noBrace _ b hb
  · exact ⟨_, rfl, decimal_noBrace _⟩

theorem AppendBool_noBrace (buf : Bytes) (v : Bool) :
    ∃ c, Zaplogback.AppendBool buf v = buf ++ c ∧ NoBrace c := by
  cases v
  · exact ⟨str "false", rfl, by decide⟩
  · exact ⟨str "true", rfl, by decide⟩

theorem addElementSeparator_step {P : Bytes → Nat → Prop} (law : ChunkLaw P)
    (enc : logbackEncoder) : Step P 0 enc enc.addElementSeparator := by
  unfold logbackEncoder.addElementSeparator
  split
  · exact Step.refl law enc
  · split_ifs
    · exact Step.refl law enc
    · exact Step.append enc [32] (law.plain _ (by decide))

theorem appendByte_step {P : Bytes → Nat → Prop} (law : ChunkLaw P) (enc : logbackEncoder)
    (b : Nat) (hb : b ≠ 123 ∧ b ≠ 125) :
    Step P 0 enc { enc with buf := AppendByte enc.buf b } :=
  Step.append enc [b] (law.plain _ (by intro c hc; simp at hc; subst hc; exact hb))

theorem safeAddString_step {P : Bytes → Nat → Prop} (enc : logbackEncoder) (s : Bytes)
    (hs : P (escapeBytes s 0) 0) : Step P 0 enc (enc.safeAddString s) := by
  unfold logbackEncoder.safeAddString
  rw [safeAppendStringLike_eq_escapeBytes AppendString (fun _ _ => rfl)]
  exact Step.append enc _ hs

theorem safeAddByteString_step {P : Bytes → Nat → Prop} (enc : logbackEncoder) (s : Bytes)
    (hs : P (escapeBytes s 0) 0) : Step P 0 enc (enc.safeAddByteString s) := by
  unfold logbackEncoder.safeAddByteString
  rw [safeAppendStringLike_eq_escapeBytes AppendBytes (fun _ _ => rfl)]
  exact Step.append enc _ hs

theorem addKey_step {P : Bytes → Nat → Prop} (law : ChunkLaw P) (enc : logbackEncoder)
    (key : Bytes) (hk : P (escapeBytes key 0) 0) : Step P 0 enc (enc.addKey key) := by
  unfold logbackEncoder.addKey
  exact Step.trans0 law (Step.trans0 law (Step.trans0 law (Step.trans0 law
    (addElementSeparator_step law enc) (appendByte_step law _ 34 (by decide)))
    (safeAddString_step _ key hk)) (appendByte_step law _ 34 (by decide)))
    (appendByte_step law _ 58 (by decide))

theorem AppendString_step {P : Bytes → Nat → Prop} (enc : logbackEncoder) (s : Bytes)
    (hs : P (escapeBytes s 0) 0) : Step P 0 enc (enc.AppendString s) :=
  safeAddString_step enc s hs

theorem AppendByteString_step {P : Bytes → Nat → Prop} (law : ChunkLaw P)
    (enc : logbackEncoder) (s : Bytes) (hs : P (escapeBytes s 0) 0) :
    Step P 0 enc (enc.AppendByteString s) :=
  Step.trans0 law (addElementSeparator_step law enc) (safeAddByteString_step _ s hs)

theorem AppendBool_step {P : Bytes → Nat → Prop} (law : ChunkLaw P) (enc : logbackEncoder)
    (v : Bool) : Step P 0 enc (enc.AppendBool v) := by
  refine Step.trans0 law (addElementSeparator_step law enc) ?_
  obtain ⟨c, hc, hn⟩ := AppendBool_noBrace enc.addElementSeparator.buf v
  unfold logbackEncoder.AppendBool
  simp only [hc]
  exact Step.append _ c (law.plain c hn)

theorem AppendInt64_step {P : Bytes → Nat → Prop} (law : ChunkLaw P) (enc : logbackEncoder)
    (v : Int) : Step P 0 enc (enc.AppendInt64 v) := by
  refine Step.trans0 law (addElementSeparator_step law enc) ?_
  obtain ⟨c, hc, hn⟩ := AppendInt_noBrace enc.addElementSeparator.buf v
  unfold logbackEncoder.AppendInt64
  simp only [hc]
  exact Step.append _ c (law.plain c hn)

theorem AppendUint64_step {P : Bytes → Nat → Prop} (law : ChunkLaw P) (enc : logbackEncoder)
    (v : Nat) : Step P 0 enc (enc.AppendUint64 v) :=
  Step.trans0 law (addElementSeparator_step law enc)
    (Step.append _ (decimal v) (law.plain _ (decimal_noBrace v)))

theorem primCall_step {P : Bytes → Nat → Prop} {Q : Bytes → Prop} (law : ChunkLaw P)
    (cl : ContentLaw P Q) (enc : logbackEncoder) (c : PrimCall) (hc : c.All Q) :
    Step P 0 enc (enc.primCall c) := by
  cases c with
  | AppendBool v => exact AppendBool_step law enc v
  | AppendByteString v => exact AppendByteString_step law enc v (cl.escaped v hc)
  | AppendInt64 v => exact AppendInt64_step law enc v
  | AppendUint64 v => exact AppendUint64_step law enc v
  | AppendString v => exact AppendString_step enc v (cl.escaped v hc)

theorem primCalls_step {P : Bytes → Nat → Prop} {Q : Bytes → Prop} (law : ChunkLaw P)
    (cl : ContentLaw P Q) (calls : List PrimCall) :
    ∀ enc : logbackEncoder, (∀ c ∈ calls, c.All Q) → Step P 0 enc (enc.primCalls calls) := by
  induction calls with
  | nil => intro enc _; exact Step.refl law enc
  | cons c rest ih =>
    intro enc h
    exact Step.trans0 law (primCall_step law cl enc c (h c (List.mem_cons_self _ _)))
      (ih (enc.primCall c) (fun d hd => h d (List.mem_cons_of_mem _ hd)))

theorem AppendDuration_step {P : Bytes → Nat → Prop} {Q : Bytes → Prop} (law : ChunkLaw P)
    (cl : ContentLaw P Q) (x : Ext) (enc : logbackEncoder) (val : Int)
    (hcfg : enc.EncoderConfig.All Q x) : Step P 0 enc (enc.AppendDuration val) := by
  unfold logbackEncoder.AppendDuration
  have h1 : Step P 0 enc (match enc.EncoderConfig.EncodeDuration with
      | some (.custom e) => enc.primCalls (e val)
      | none => enc) := by
    cases he : enc.EncoderConfig.EncodeDuration with
    | none => exact Step.refl law enc
    | some e =>
      cases e with
      | custom f => exact primCalls_step law cl _ enc (hcfg.1 f he val)
  simp only []
  split_ifs
  · exact Step.trans0 law h1 (AppendInt64_step law _ val)
  · exact h1

theorem AppendTime_step {P : Bytes → Nat → Prop} {Q : Bytes → Prop} (law : ChunkLaw P)
    (cl : ContentLaw P Q) (x : Ext) (enc : logbackEncoder) (val : Time)
    (hcfg : enc.EncoderConfig.All Q x) : Step P 0 enc (enc.AppendTime x val) := by
  unfold logbackEncoder.AppendTime
  have h1 : Step P 0 enc (match enc.EncoderConfig.EncodeTime with
      | some (.ofLayout layout) => enc.AppendString (x.timeFormat val layout)
      | some (.custom e) => enc.primCalls (e val)
      | none => enc) := by
    cases he : enc.EncoderConfig.EncodeTime with
    | none => exact Step.refl law enc
    | some e =>
      cases e with
      | ofLayout layout =>
        exact AppendString_step enc _ (cl.escaped _ (hcfg.2.2.1 layout he val))
      | custom f => exact primCalls_step law cl _ enc (hcfg.2.1 f he val)
  simp only []
  split_ifs
  · exact Step.trans0 law h1 (AppendInt64_step law _ val.UnixNano)
  · exact h1

theorem AddReflected_step {P : Bytes → Nat → Prop} {Q : Bytes → Prop} (law : ChunkLaw P)
    (cl : ContentLaw P Q) (enc : logbackEncoder) (key : Bytes) (obj : Reflected)
    (hk : Q key) (ho : obj.All Q) : Step P 0 enc (enc.AddReflected key obj).1 := by
  cases obj with
  | nil =>
    exact Step.trans0 law (addKey_step law enc key (cl.escaped key hk))
      (Step.append _ (str "null") (law.plain _ (by decide)))
  | failed err => exact Step.refl law enc
  | encoded out =>
    exact Step.trans0 law (addKey_step law enc key (cl.escaped key hk))
      (Step.append _ (TrimNewline out) (cl.raw _ ho))

theorem OpenNamespace_step {P : Bytes → Nat → Prop} (law : ChunkLaw P) (enc : logbackEncoder)
    (key : Bytes) (hk : P (escapeBytes key 0) 0) : Step P 1 enc (enc.OpenNamespace key) := by
  have h : Step P 1 (enc.addKey key) (enc.OpenNamespace key) :=
    ⟨[123], rfl, law.opening⟩
  have := Step.trans law (addKey_step law enc key hk) h
  rwa [Nat.zero_add] at this

theorem AddString_step {P : Bytes → Nat → Prop} (law : ChunkLaw P) (enc : logbackEncoder)
    (key val : Bytes) (hk : P (escapeBytes key 0) 0) (hv : P (escapeBytes val 0) 0) :
    Step P 0 enc (enc.AddString key val) :=
  Step.trans0 law (addKey_step law enc key hk) (AppendString_step _ val hv)

theorem appendObject_step {P : Bytes → Nat → Prop} (law : ChunkLaw P) (x : Ext)
    (enc : logbackEncoder) (calls : List SinkOp) (err : Option Bytes) (m : Nat)
    (hinner : ∀ e : logbackEncoder, e.EncoderConfig = enc.EncoderConfig →
      Step P m e (logbackEncoder.sinkOps x calls e)) :
    Step P 0 enc (enc.AppendObject x calls err).1 := by
  obtain ⟨o1, h1, p1⟩ := addElementSeparator_step law { enc with openNamespaces := 0 }
  obtain ⟨o2, h2, p2⟩ := hinner
    { ({ enc with openNamespaces := 0 } : logbackEncoder).addElementSeparator with
      buf := AppendByte ({ enc with openNamespaces := 0 } : logbackEncoder).addElementSeparator.buf
        123 }
    (by rw [h1])
  refine ⟨o1 ++ [123] ++ o2 ++ List.replicate (m + 1) 125, ?_, ?_⟩
  · unfold logbackEncoder.AppendObject
    simp only []
    rw [h2, h1]
    simp [logbackEncoder.closeOpenNamespaces, AppendByte, List.replicate_succ]
  · have p3 := law.append _ _ _ _ (law.append _ _ _ _ p1 law.opening) p2
    have p4 := law.close (o1 ++ [123] ++ o2) 0 (m + 1)
      (by rw [show 0 + (m + 1) = 0 + 1 + m by omega]; exact p3)
    exact p4

mutual
theorem sinkOp_step {P : Bytes → Nat → Prop} {Q : Bytes → Prop} (law : ChunkLaw P)
    (cl : ContentLaw P Q) (x : Ext) (cfg : EncoderConfig) (hcfg : cfg.All Q x) :
    ∀ (op : SinkOp) (enc : logbackEncoder), enc.EncoderConfig = cfg → SinkOp.All Q op →
      Step P (countOpen [op]) enc (logbackEncoder.sinkOp x op enc)
  | .AddString key val, enc, _, h => by
    rw [logbackEncoder.sinkOp]
    exact AddString_step law enc key val (cl.escaped _ h.1) (cl.escaped _ h.2)
  | .AddInt64 key val, enc, _, h => by
    rw [logbackEncoder.sinkOp]
    exact Step.trans0 law (addKey_step law enc key (cl.escaped _ h)) (AppendInt64_step law _ val)
  | .AddUint64 key val, enc, _, h => by
    rw [logbackEncoder.sinkOp]
    exact Step.trans0 law (addKey_step law enc key (cl.escaped _ h)) (AppendUint64_step law _ val)
  | .AddBool key val, enc, _, h => by
    rw [logbackEncoder.sinkOp]
    exact Step.trans0 law (addKey_step law enc key (cl.escaped _ h)) (AppendBool_step law _ val)
  | .AddByteString key val, enc, _, h => by
    rw [logbackEncoder.sinkOp]
    exact Step.trans0 law (addKey_step law enc key (cl.escaped _ h.1))
      (AppendByteString_step law _ val (cl.escaped _ h.2))
  | .AddDuration key val, enc, he, h => by
    rw [logbackEncoder.sinkOp]
    have hk := addKey_step law enc key (cl.escaped _ h)
    exact Step.trans0 law hk (AppendDuration_step law cl x _ val
      (by rw [(Step.config hk).1, he]; exact hcfg))
  | .AddTime key val, enc, he, h => by
    rw [logbackEncoder.sinkOp]
    have hk := addKey_step law enc key (cl.escaped _ h)
    exact Step.trans0 law hk (AppendTime_step law cl x _ val
      (by rw [(Step.config hk).1, he]; exact hcfg))
  | .AddReflected key obj, enc, _, h => by
    rw [logbackEncoder.sinkOp]
    exact AddReflected_step law cl enc key obj h.1 h.2
  | .OpenNamespace key, enc, _, h => by
    rw [logbackEncoder.sinkOp]
    exact OpenNamespace_step law enc key (cl.escaped _ h)
  | .AddObject key calls err, enc, he, h => by
    rw [logbackEncoder.sinkOp]
    have hk := addKey_step law enc key (cl.escaped _ h.1)
    exact Step.trans0 law hk (appendObject_step law x (enc.addKey key) calls err
      (countOpen calls) (fun e hee => sinkOps_step law cl x cfg hcfg calls e
        (by rw [hee, (Step.config hk).1, he]) h.2))

theorem sinkOps_step {P : Bytes → Nat → Prop} {Q : Bytes → Prop} (law : ChunkLaw P)
    (cl : ContentLaw P Q) (x : Ext) (cfg : EncoderConfig) (hcfg : cfg.All Q x) :
    ∀ (calls : List SinkOp) (enc : logbackEncoder), enc.EncoderConfig = cfg →
      SinkOp.AllOf Q calls → Step P (countOpen calls) enc (logbackEncoder.sinkOps x calls enc)
  | [], enc, _, _ => by
    rw [logbackEncoder.sinkOps]
    exact Step.refl law enc
  | op :: rest, enc, he, h => by
    rw [logbackEncoder.sinkOps]
    have h1 := sinkOp_step law cl x cfg hcfg op enc he h.1
    have h2 := sinkOps_step law cl x cfg hcfg rest (logbackEncoder.sinkOp x op enc)
      (by rw [(Step.config h1).1, he]) h.2
    have h3 := Step.trans law h1 h2
    have hc : countOpen (op :: rest) = countOpen [op] + countOpen rest := by
      cases op <;> simp [countOpen, Nat.add_comm]
    rw [hc]
    exact h3
end

theorem chunkLaw_true : ChunkLaw (fun _ _ => True) :=
  ⟨fun _ _ _ _ _ _ => trivial, fun _ _ => trivial, trivial, fun _ _ _ _ => trivial⟩

theorem contentLaw_true : ContentLaw (fun _ _ => True) (fun _ => True) :=
  ⟨fun _ _ => trivial, fun _ _ => trivial, fun _ _ => trivial⟩

theorem primCall_all_true (c : PrimCall) : c.All (fun _ => True) := by
  cases c <;> trivial

theorem reflected_all_true (obj : Reflected) : obj.All (fun _ => True) := by
  cases obj <;> trivial

theorem config_all_true (x : Ext) (cfg : EncoderConfig) :
    cfg.All (fun _ => True) x :=
  ⟨fun _ _ _ c _ => primCall_all_true c, fun _ _ _ c _ => primCall_all_true c,
    fun _ _ _ => trivial, fun _ _ _ c _ => primCall_all_true c, fun _ _ _ => trivial,
    fun _ => trivial, fun _ _ _ c _ => primCall_all_true c, fun _ _ _ => trivial,
    fun _ => trivial⟩

mutual
theorem sinkOp_all_true : ∀ op : SinkOp, SinkOp.All (fun _ => True) op
  | .AddString _ _ => by rw [SinkOp.All]; exact ⟨trivial, trivial⟩
  | .AddInt64 _ _ => by rw [SinkOp.All]; trivial
  | .AddUint64 _ _ => by rw [SinkOp.All]; trivial
  | .AddBool _ _ => by rw [SinkOp.All]; trivial
  | .AddByteString _ _ => by rw [SinkOp.All]; exact ⟨trivial, trivial⟩
  | .AddDuration _ _ => by rw [SinkOp.All]; trivial
  | .AddTime _ _ => by rw [SinkOp.All]; trivial
  | .AddReflected _ obj => by rw [SinkOp.All]; exact ⟨trivial, reflected_all_true obj⟩
  | .OpenNamespace _ => by rw [SinkOp.All]; trivial
  | .AddObject _ calls _ => by rw [SinkOp.All]; exact ⟨trivial, sinkOps_all_true calls⟩

theorem sinkOps_all_true : ∀ calls : List SinkOp, SinkOp.AllOf (fun _ => True) calls
  | [] => by rw [SinkOp.AllOf]; trivial
  | op :: rest => by rw [SinkOp.AllOf]; exact ⟨sinkOp_all_true op, sinkOps_all_true rest⟩
end

theorem field_all_true (f : Field) : f.All (fun _ => True) := by
  refine ⟨trivial, trivial, ?_⟩
  cases f.Type_ <;> simp only []
  · exact reflected_all_true _
  · exact ⟨sinkOps_all_true _, fun _ _ => trivial⟩

theorem addElementSeparator_eq_buf (enc : logbackEncoder) :
    enc.addElementSeparator = { enc with buf := enc.addElementSeparator.buf } := by
  unfold logbackEncoder.addElementSeparator
  split
  · rfl
  · split_ifs <;> rfl

theorem addElementSeparator_buf_congr (a b : logbackEncoder) (h : a.buf = b.buf) :
    a.addElementSeparator.buf = b.addElementSeparator.buf := by
  unfold logbackEncoder.addElementSeparator
  rw [h]
  split
  · exact h
  · split_ifs
    · exact h
    · simp [h]

/-- C18: for every sink state and every nested object marshaler, given by its calls and
the error it returns, `AppendObject` appends the separator, an opening brace, the output
of the calls, then one closing brace and one more for each namespace the calls opened
themselves; the counter of open namespaces is afterwards what it was before, and the
error of the marshaler is returned unchanged. -/
theorem appendObject_closes_own_namespaces (x : Ext) (enc : logbackEncoder)
    (calls : List SinkOp) (err : Option Bytes) :
    ∃ out : Bytes,
      logbackEncoder.sinkOps x calls
          { enc with buf := enc.addElementSeparator.buf ++ [123], openNamespaces := 0 } =
        { enc with
          buf := enc.addElementSeparator.buf ++ [123] ++ out
          openNamespaces := countOpen calls } ∧
      enc.AppendObject x calls err =
        ({ enc with
            buf := enc.addElementSeparator.buf ++ [123] ++ out ++
              List.replicate (1 + countOpen calls) 125 }, err) ∧
      (enc.AppendObject x calls err).1.openNamespaces = enc.openNamespaces ∧
      (enc.AppendObject x calls err).2 = err := by
  have hsep : ({ enc with openNamespaces := 0 } : logbackEncoder).addElementSeparator =
      { enc with buf := enc.addElementSeparator.buf, openNamespaces := 0 } := by
    rw [addElementSeparator_eq_buf,
      addElementSeparator_buf_congr { enc with openNamespaces := 0 } enc rfl]
  obtain ⟨out, hout, -⟩ := sinkOps_step chunkLaw_true contentLaw_true x enc.EncoderConfig
    (config_all_true x _) calls
    { enc with buf := enc.addElementSeparator.buf ++ [123], openNamespaces := 0 } rfl
    (sinkOps_all_true calls)
  have hout2 : logbackEncoder.sinkOps x calls
      { enc with buf := enc.addElementSeparator.buf ++ [123], openNamespaces := 0 } =
      { enc with
        buf := enc.addElementSeparator.buf ++ [123] ++ out
        openNamespaces := countOpen calls } := by
    rw [hout]; simp
  have happ : enc.AppendObject x calls err =
      ({ enc with
          buf := enc.addElementSeparator.buf ++ [123] ++ out ++
            List.replicate (1 + countOpen calls) 125 }, err) := by
    unfold logbackEncoder.AppendObject
    simp only [hsep, AppendByte, hout2, logbackEncoder.closeOpenNamespaces]
    simp [Nat.add_comm 1 (countOpen calls), List.replicate_succ]
  refine ⟨out, hout2, happ, ?_, ?_⟩
  · rw [happ]
  · rw [happ]

theorem AddTo_step {P : Bytes → Nat → Prop} {Q : Bytes → Prop} (law : ChunkLaw P)
    (cl : ContentLaw P Q) (x : Ext) (f : Field) (enc : logbackEncoder)
    (hcfg : enc.EncoderConfig.All Q x) (hf : f.All Q) :
    ∃ δ, Step P δ enc (f.AddTo x enc) := by
  obtain ⟨hkey, hstr, hty⟩ := hf
  have hk := addKey_step law enc f.Key (cl.escaped _ hkey)
  have hcfg2 : (enc.addKey f.Key).EncoderConfig.All Q x := by
    rw [(Step.config hk).1]; exact hcfg
  unfold Field.AddTo
  cases hT : f.Type_ with
  | StringType =>
    exact ⟨0, AddString_step law enc _ _ (cl.escaped _ hkey) (cl.escaped _ hstr)⟩
  | Int64Type => exact ⟨0, Step.trans0 law hk (AppendInt64_step law _ _)⟩
  | Uint64Type => exact ⟨0, Step.trans0 law hk (AppendUint64_step law _ _)⟩
  | BoolType => exact ⟨0, Step.trans0 law hk (AppendBool_step law _ _)⟩
  | ByteStringType val =>
    rw [hT] at hty
    exact ⟨0, Step.trans0 law hk (AppendByteString_step law _ val (cl.escaped _ hty))⟩
  | DurationType => exact ⟨0, Step.trans0 law hk (AppendDuration_step law cl x _ _ hcfg2)⟩
  | TimeType => exact ⟨0, Step.trans0 law hk (AppendTime_step law cl x _ _ hcfg2)⟩
  | ReflectType obj =>
    rw [hT] at hty
    have h1 := AddReflected_step law cl enc f.Key obj hkey hty
    cases obj with
    | nil => exact ⟨0, h1⟩
    | encoded out => exact ⟨0, h1⟩
    | failed err =>
      exact ⟨0, AddString_step law enc _ _ (cl.escaped _ (cl.errorKey _ hkey))
        (cl.escaped _ hty)⟩
  | NamespaceType => exact ⟨1, OpenNamespace_step law enc _ (cl.escaped _ hkey)⟩
  | ObjectMarshalerType calls err =>
    rw [hT] at hty
    have h1 : Step P 0 enc (enc.AddObject x f.Key calls err).1 :=
      Step.trans0 law hk (appendObject_step law x (enc.addKey f.Key) calls err
        (countOpen calls) (fun e hee => sinkOps_step law cl x enc.EncoderConfig hcfg calls e
          (by rw [hee, (Step.config hk).1]) hty.1))
    cases err with
    | none => exact ⟨0, h1⟩
    | some e =>
      exact ⟨0, Step.trans0 law h1 (AddString_step law _ _ _
        (cl.escaped _ (cl.errorKey _ hkey)) (cl.escaped _ (hty.2 e rfl)))⟩
  | SkipType => exact ⟨0, Step.refl law enc⟩

theorem logAddBytesAction_step {P : Bytes → Nat → Prop} (final : logbackEncoder)
    (value : Bytes) (h : P value 0) : Step P 0 final (logAddBytesAction value final) :=
  Step.append final value h

theorem logAddTimeAction_step {P : Bytes → Nat → Prop} {Q : Bytes → Prop} (law : ChunkLaw P)
    (cl : ContentLaw P Q) (x : Ext) (final : logbackEncoder) (ent : Entry)
    (hcfg : final.EncoderConfig.All Q x) : Step P 0 final (logAddTimeAction x final ent) := by
  unfold logAddTimeAction
  split_ifs
  · exact AppendTime_step law cl x final _ hcfg
  · exact Step.refl law final

theorem fallback_step {P : Bytes → Nat → Prop} (law : ChunkLaw P) (final r : logbackEncoder)
    (c : Bytes) (h1 : Step P 0 final r) (hc : P c 0) :
    Step P 0 final
      (if final.buf.length = r.buf.length then { r with buf := AppendBytes r.buf c } else r) := by
  split_ifs
  · exact Step.trans0 law h1 (Step.append _ _ hc)
  · exact h1

theorem logAddLevelAction_step {P : Bytes → Nat → Prop} {Q : Bytes → Prop} (law : ChunkLaw P)
    (cl : ContentLaw P Q) (x : Ext) (final : logbackEncoder) (ent : Entry)
    (hcfg : final.EncoderConfig.All Q x) : Step P 0 final (logAddLevelAction x final ent) := by
  unfold logAddLevelAction
  by_cases hkey : final.EncoderConfig.LevelKey ≠ []
  · rw [if_pos hkey]
    cases he : final.EncoderConfig.EncodeLevel with
    | none => exact Step.refl law final
    | some e =>
      cases e with
      | zap s =>
        exact fallback_step law final _ _
          (AppendString_step final _ (cl.escaped _ (hcfg.2.2.2.2.1 s he _)))
          (cl.raw _ (hcfg.2.2.2.2.2.1 _))
      | custom f =>
        exact fallback_step law final _ _
          (primCalls_step law cl _ final (hcfg.2.2.2.1 f he _))
          (cl.raw _ (hcfg.2.2.2.2.2.1 _))
  · rw [if_neg hkey]
    exact Step.refl law final

theorem caller_function_step {P : Bytes → Nat → Prop} {Q : Bytes → Prop} (law : ChunkLaw P)
    (cl : ContentLaw P Q) (final r : logbackEncoder) (ent : Entry) (hent : ent.All Q)
    (h1 : Step P 0 final r) :
    ∃ final', (if r.EncoderConfig.FunctionKey ≠ [] then
        some { r with buf := AppendBytes r.buf ent.Caller.Function }
      else some r) = some final' ∧ Step P 0 final final' := by
  split_ifs
  · exact ⟨_, rfl, Step.trans0 law h1 (Step.append _ _ (cl.raw _ hent.2))⟩
  · exact ⟨_, rfl, h1⟩

theorem caller_fallback_step {P : Bytes → Nat → Prop} {Q : Bytes → Prop} (law : ChunkLaw P)
    (cl : ContentLaw P Q) (final r : logbackEncoder) (ent : Entry) (c : Bytes)
    (hent : ent.All Q) (h1 : Step P 0 final r) (hc : P c 0) :
    ∃ final', (match (if final.buf.length = r.buf.length then
          some { r with buf := AppendBytes r.buf c }
        else some r : Option logbackEncoder) with
      | none => none
      | some final =>
        if final.EncoderConfig.FunctionKey ≠ [] then
          some { final with buf := AppendBytes final.buf ent.Caller.Function }
        else some final) = some final' ∧ Step P 0 final final' := by
  by_cases hlen : final.buf.length = r.buf.length
  · rw [if_pos hlen]
    exact caller_function_step law cl final _ ent hent
      (Step.trans0 law h1 (Step.append _ _ hc))
  · rw [if_neg hlen]
    exact caller_function_step law cl final _ ent hent h1

theorem returns_of_some {S : logbackEncoder → Prop} {ok : Prop}
    {o : Option logbackEncoder} (h : ∃ r, o = some r ∧ S r) :
    (ok → o ≠ none) ∧ ∀ r, o = some r → S r := by
  obtain ⟨r, rfl, hs⟩ := h
  exact ⟨fun _ => by simp, fun r' hr => by cases hr; exact hs⟩

theorem logAddCallerAction_step {P : Bytes → Nat → Prop} {Q : Bytes → Prop}
    (law : ChunkLaw P) (cl : ContentLaw P Q) (x : Ext) (final : logbackEncoder) (ent : Entry)
    (hcfg : final.EncoderConfig.All Q x) (hent : ent.All Q) :
    (final.EncoderConfig.EncodeCaller ≠ none → logAddCallerAction x final ent ≠ none) ∧
      ∀ final', logAddCallerAction x final ent = some final' → Step P 0 final final' := by
  unfold logAddCallerAction
  by_cases hdef : ent.Caller.Defined = true
  · rw [if_pos hdef]
    by_cases hkey : final.EncoderConfig.CallerKey ≠ []
    · simp only [if_pos hkey]
      cases he : final.EncoderConfig.EncodeCaller with
      | none => exact ⟨fun h => absurd rfl h, fun _ h => by cases h⟩
      | some e =>
        cases e with
        | zap s =>
          exact returns_of_some (caller_fallback_step law cl final _ ent _ hent
            (AppendString_step final _ (cl.escaped _ (hcfg.2.2.2.2.2.2.2.1 s he _)))
            (cl.raw _ (hcfg.2.2.2.2.2.2.2.2 _)))
        | custom f =>
          exact returns_of_some (caller_fallback_step law cl final _ ent _ hent
            (primCalls_step law cl _ final (hcfg.2.2.2.2.2.2.1 f he _))
            (cl.raw _ (hcfg.2.2.2.2.2.2.2.2 _)))
    · simp only [if_neg hkey]
      exact returns_of_some
        (caller_function_step law cl final final ent hent (Step.refl law final))
  · rw [if_neg hdef]
    exact returns_of_some ⟨final, rfl, Step.refl law final⟩

theorem logAddMsgAction_step {P : Bytes → Nat → Prop} {Q : Bytes → Prop} (law : ChunkLaw P)
    (cl : ContentLaw P Q) (final : logbackEncoder) (ent : Entry) (hent : ent.All Q) :
    Step P 0 final (logAddMsgAction final ent) := by
  unfold logAddMsgAction
  split_ifs
  · exact Step.append _ _ (cl.raw _ hent.1)
  · exact Step.refl law final

theorem logAddUsedFieldAction_step {P : Bytes → Nat → Prop} {Q : Bytes → Prop}
    (law : ChunkLaw P) (cl : ContentLaw P Q) (field before_byte after_byte : Bytes)
    (hb : Q before_byte) (ha : Q after_byte) :
    ∀ (fields : List Field) (final : logbackEncoder), (∀ f ∈ fields, f.All Q) →
      Step P 0 final (logAddUsedFieldAction field before_byte after_byte final fields) := by
  intro fields
  induction fields with
  | nil => intro final _; exact Step.refl law final
  | cons f rest ih =>
    intro final h
    have hrest : ∀ g ∈ rest, g.All Q := fun g hg => h g (List.mem_cons_of_mem _ hg)
    simp only [logAddUsedFieldAction]
    split_ifs
    · refine Step.trans0 law ?_ (ih _ hrest)
      exact Step.trans0 law (Step.trans0 law (Step.append final _ (cl.raw _ hb))
        (Step.append _ _ (cl.raw _ (h f (List.mem_cons_self _ _)).2.1)))
        (Step.append _ _ (cl.raw _ ha))
    · exact ih _ hrest

theorem remindFieldLoop_step {P : Bytes → Nat → Prop} {Q : Bytes → Prop} (law : ChunkLaw P)
    (cl : ContentLaw P Q) (x : Ext) :
    ∀ (fields : List Field) (final : logbackEncoder) (comma_need : Bool),
      final.EncoderConfig.All Q x → (∀ f ∈ fields, f.All Q) →
      ∃ δ, Step P δ final (remindFieldLoop x fields final comma_need) := by
  intro fields
  induction fields with
  | nil => intro final _ _ _; exact ⟨0, Step.refl law final⟩
  | cons f rest ih =>
    intro final comma_need hcfg h
    have hrest : ∀ g ∈ rest, g.All Q := fun g hg => h g (List.mem_cons_of_mem _ hg)
    rw [remindFieldLoop]
    by_cases hused : f.Key ∈ final.used_fields
    · rw [if_pos hused]
      exact ih _ _ hcfg hrest
    · rw [if_neg hused]
      have h1 : Step P 0 final
          (if comma_need = true then { final with buf := AppendByte final.buf 44 }
            else final) := by
        split_ifs
        · exact appendByte_step law final 44 (by decide)
        · exact Step.refl law final
      obtain ⟨δ1, h2⟩ := AddTo_step law cl x f _
        (by rw [(Step.config h1).1]; exact hcfg) (h f (List.mem_cons_self _ _))
      obtain ⟨δ2, h3⟩ := ih _ true
        (by rw [(Step.config h2).1, (Step.config h1).1]; exact hcfg) hrest
      exact ⟨δ1 + δ2, Step.trans law (Step.trans0 law h1 h2) h3⟩

theorem logAddRemindFieldAction_step {P : Bytes → Nat → Prop} {Q : Bytes → Prop}
    (law : ChunkLaw P) (cl : ContentLaw P Q) (x : Ext) (final : logbackEncoder)
    (fields : List Field) (hcfg : final.EncoderConfig.All Q x) (h : ∀ f ∈ fields, f.All Q) :
    ∃ δ, Step P δ final (logAddRemindFieldAction x final fields) := by
  obtain ⟨δ, out, hout, p⟩ := remindFieldLoop_step law cl x fields
    { final with buf := AppendByte final.buf 123 } false hcfg h
  refine ⟨δ, [123] ++ out ++ List.replicate 1 125, ?_, ?_⟩
  · unfold logAddRemindFieldAction
    simp only []
    rw [hout]
    simp [AppendByte]
  · exact law.close _ δ 1 (by
      have := law.append _ _ _ _ law.opening p
      rwa [Nat.add_comm] at this)

theorem runAction_step {P : Bytes → Nat → Prop} {Q : Bytes → Prop} (law : ChunkLaw P)
    (cl : ContentLaw P Q) (x : Ext) (a : Action) (final : logbackEncoder) (ent : Entry)
    (fields : List Field) (hcfg : final.EncoderConfig.All Q x) (ha : a.All Q)
    (hent : ent.All Q) (hf : ∀ f ∈ fields, f.All Q) :
    (final.EncoderConfig.EncodeCaller ≠ none → runAction x a final ent fields ≠ none) ∧
      ∀ final', runAction x a final ent fields = some final' →
        ∃ δ, Step P δ final final' := by
  cases a with
  | logAddBytesAction value =>
    exact returns_of_some ⟨_, rfl, 0, logAddBytesAction_step final value (cl.raw _ ha)⟩
  | logAddTimeAction =>
    exact returns_of_some ⟨_, rfl, 0, logAddTimeAction_step law cl x final ent hcfg⟩
  | logAddLevelAction =>
    exact returns_of_some ⟨_, rfl, 0, logAddLevelAction_step law cl x final ent hcfg⟩
  | logAddCallerAction =>
    have h := logAddCallerAction_step law cl x final ent hcfg hent
    exact ⟨h.1, fun r hr => ⟨0, h.2 r hr⟩⟩
  | logAddMsgAction =>
    exact returns_of_some ⟨_, rfl, 0, logAddMsgAction_step law cl final ent hent⟩
  | logAddUsedFieldAction field b a =>
    exact returns_of_some
      ⟨_, rfl, 0, logAddUsedFieldAction_step law cl field b a ha.1 ha.2 fields final hf⟩
  | logAddRemindFieldAction =>
    exact returns_of_some ⟨_, rfl, logAddRemindFieldAction_step law cl x final fields hcfg hf⟩

theorem runActions_step {P : Bytes → Nat → Prop} {Q : Bytes → Prop} (law : ChunkLaw P)
    (cl : ContentLaw P Q) (x : Ext) (ent : Entry) (fields : List Field) (hent : ent.All Q)
    (hf : ∀ f ∈ fields, f.All Q) :
    ∀ (actions : List Action) (final : logbackEncoder), final.EncoderConfig.All Q x →
      (∀ a ∈ actions, a.All Q) →
      (final.EncoderConfig.EncodeCaller ≠ none →
        runActions x actions final ent fields ≠ none) ∧
      ∀ final', runActions x actions final ent fields = some final' →
        ∃ δ, Step P δ final final' := by
  intro actions
  induction actions with
  | nil =>
    intro final _ _
    exact returns_of_some ⟨final, rfl, 0, Step.refl law final⟩
  | cons a rest ih =>
    intro final hcfg ha
    have h1 := runAction_step law cl x a final ent fields hcfg
      (ha a (List.mem_cons_self _ _)) hent hf
    rw [runActions]
    cases hr : runAction x a final ent fields with
    | none => exact ⟨fun hc => absurd hr (h1.1 hc), fun _ h => by cases h⟩
    | some next =>
      obtain ⟨δ1, s1⟩ := h1.2 next hr
      have h2 := ih next (by rw [(Step.config s1).1]; exact hcfg)
        (fun b hb => ha b (List.mem_cons_of_mem _ hb))
      refine ⟨fun hc => h2.1 (by rw [(Step.config s1).1]; exact hc), fun r hr2 => ?_⟩
      obtain ⟨δ2, s2⟩ := h2.2 r hr2
      exact ⟨δ1 + δ2, Step.trans law s1 s2⟩

theorem runAction_stack (x : Ext) (a : Action) (final : logbackEncoder) (ent : Entry)
    (fields : List Field) (stack : Bytes) :
    runAction x a final { ent with Stack := stack } fields = runAction x a final ent fields := by
  cases a <;> rfl

theorem runActions_stack (x : Ext) (ent : Entry) (fields : List Field) (stack : Bytes) :
    ∀ (actions : List Action) (final : logbackEncoder),
      runActions x actions final { ent with Stack := stack } fields =
        runActions x actions final ent fields := by
  intro actions
  induction actions with
  | nil => intro final; rfl
  | cons a rest ih =>
    intro final
    rw [runActions, runActions, runAction_stack]
    cases runAction x a final ent fields with
    | none => rfl
    | some next => exact ih next

/-- C16: for every template, record and field list, a render that does not panic returns
`body ++ tail ++ LineEnding` with a nil error, where `body` is the same for every stack
trace of the record and `tail` is a newline followed by the stack trace as it is when
the trace is non-empty and a stack-trace key is configured, and empty otherwise; so the
output ends with the configured line terminator.  A render panics only by calling a nil
`EncodeCaller`: with a caller encoder configured every render returns. -/
theorem encodeEntry_body_stack_lineEnding (x : Ext) (enc : logbackEncoder) (ent : Entry)
    (fields : List Field) :
    (enc.EncoderConfig.EncodeCaller ≠ none → enc.EncodeEntry x ent fields ≠ none) ∧
      ∃ body : Bytes, ∀ stack : Bytes,
        enc.EncodeEntry x ent fields ≠ none →
        enc.EncodeEntry x { ent with Stack := stack } fields =
          some (body ++
            (if stack ≠ [] ∧ enc.EncoderConfig.StacktraceKey ≠ [] then 10 :: stack else []) ++
            enc.EncoderConfig.LineEnding, none) := by
  have hstep := runActions_step chunkLaw_true contentLaw_true x ent fields
    ⟨trivial, trivial⟩ (fun f _ => field_all_true f) enc.actions enc.clone
    (config_all_true x _) (fun a _ => by cases a <;> simp [Action.All])
  have hrun : ∀ stack : Bytes, enc.EncodeEntry x { ent with Stack := stack } fields =
      match runActions x enc.actions enc.clone ent fields with
      | none => none
      | some final =>
        some ((if enc.buf.length > 0 then
            { final.addElementSeparator with buf := final.addElementSeparator.buf ++ enc.buf }
          else final).closeOpenNamespaces.buf ++
          (if stack ≠ [] ∧ final.EncoderConfig.StacktraceKey ≠ [] then 10 :: stack else []) ++
          final.EncoderConfig.LineEnding, none) := by
    intro stack
    unfold logbackEncoder.EncodeEntry
    simp only [runActions_stack]
    cases runActions x enc.actions enc.clone ent fields with
    | none => rfl
    | some final =>
      simp only [Zaplogback.AppendString, AppendBytes, AppendByte, Option.some.injEq,
        Prod.mk.injEq, and_true]
      have hE : (if enc.buf.length > 0 then
            { final.addElementSeparator with buf := final.addElementSeparator.buf ++ enc.buf }
          else final).closeOpenNamespaces.EncoderConfig = final.EncoderConfig := by
        split_ifs
        · rw [addElementSeparator_eq_buf]; rfl
        · rfl
      split_ifs <;> simp_all [logbackEncoder.closeOpenNamespaces]
  constructor
  · intro hc
    have h0 := hrun ent.Stack
    have h1 := hstep.1 hc
    intro hnone
    rw [show ({ ent with Stack := ent.Stack } : Entry) = ent from rfl] at h0
    rw [hnone] at h0
    cases hr : runActions x enc.actions enc.clone ent fields with
    | none => exact h1 hr
    | some final => rw [hr] at h0; cases h0
  · cases hr : runActions x enc.actions enc.clone ent fields with
    | none =>
      refine ⟨[], fun stack hne => absurd ?_ hne⟩
      have h0 := hrun ent.Stack
      rw [show ({ ent with Stack := ent.Stack } : Entry) = ent from rfl, hr] at h0
      exact h0
    | some final =>
      obtain ⟨δ, hs⟩ := hstep.2 final hr
      have hcfg : final.EncoderConfig = enc.EncoderConfig := (Step.config hs).1
      refine ⟨(if enc.buf.length > 0 then
            { final.addElementSeparator with buf := final.addElementSeparator.buf ++ enc.buf }
          else final).closeOpenNamespaces.buf, fun stack _ => ?_⟩
      rw [hrun stack, hr]
      simp only [hcfg]

/-! ## Nesting of braces -/

theorem braceDepth_append (a b : Bytes) : ∀ d,
    braceDepth d (a ++ b) = (braceDepth d a).bind (fun e => braceDepth e b) := by
  induction a with
  | nil => intro d; rfl
  | cons c t ih =>
    intro d
    simp only [List.cons_append, braceDepth]
    split_ifs
    · exact ih _
    · rfl
    · exact ih _
    · exact ih _

theorem braceDepth_noBrace (c : Bytes) (h : NoBrace c) : ∀ d, braceDepth d c = some d := by
  induction c with
  | nil => intro d; rfl
  | cons b t ih =>
    intro d
    have hb := h b (List.mem_cons_self _ _)
    simp only [braceDepth, if_neg hb.1, if_neg hb.2]
    exact ih (fun e he => h e (List.mem_cons_of_mem _ he)) d

theorem braceDepth_closers (k : Nat) : ∀ d,
    braceDepth (d + k) (List.replicate k 125) = some d := by
  induction k with
  | zero => intro d; rfl
  | succ k ih =>
    intro d
    rw [List.replicate_succ, braceDepth, if_neg (by decide), if_pos rfl, if_neg (by omega)]
    exact ih d

theorem chunkLaw_nests : ChunkLaw Nests where
  append := by
    intro a b m n ha hb d
    rw [braceDepth_append, ha d]
    simp only [Option.some_bind]
    rw [hb (d + m), Nat.add_assoc]
  plain := by
    intro c hc d
    rw [braceDepth_noBrace c hc d, Nat.add_zero]
  opening := by
    intro d
    simp [braceDepth]
  close := by
    intro a m k ha d
    rw [braceDepth_append, ha d]
    simp only [Option.some_bind]
    rw [← Nat.add_assoc, braceDepth_closers]

theorem hex_getD_noBrace (k : Nat) : _hex.getD k 0 ≠ 123 ∧ _hex.getD k 0 ≠ 125 := by
  by_cases hk : k < 16
  · have h := hex_getD_mem k hk
    have hall : ∀ b ∈ _hex, b ≠ 123 ∧ b ≠ 125 := by decide
    exact hall _ h
  · have hlen : _hex.length ≤ k := by
      have : _hex.length = 16 := by decide
      omega
    rw [List.getD_eq_default _ _ hlen]
    decide

theorem appendEscape_noBrace (c : Nat) : NoBrace (appendEscape [] c) := by
  unfold appendEscape
  split_ifs with h1 h2 h3 h4
  · rcases h1 with rfl | rfl <;> decide
  · decide
  · decide
  · decide
  · intro b hb
    simp only [AppendByte, AppendString, List.nil_append, List.mem_append, List.mem_singleton]
      at hb
    rcases hb with (hb | hb) | hb
    · have hall : ∀ b ∈ str "\\u00", b ≠ 123 ∧ b ≠ 125 := by decide
      exact hall b hb
    · rw [hb]; exact hex_getD_noBrace _
    · rw [hb]; exact hex_getD_noBrace _

theorem escapeBytes_mem : ∀ (s : Bytes) (k b : Nat), b ∈ escapeBytes s k →
    b ∈ s ∨ (b ≠ 123 ∧ b ≠ 125)
  | [], _, b, h => by simp [escapeBytes] at h
  | c :: t, k + 1, b, h => by
    rw [escapeBytes] at h
    rcases List.mem_cons.1 h with rfl | h
    · exact Or.inl (List.mem_cons_self _ _)
    · rcases escapeBytes_mem t k b h with h | h
      · exact Or.inl (List.mem_cons_of_mem _ h)
      · exact Or.inr h
  | c :: t, 0, b, h => by
    rw [escapeBytes] at h
    have hrec : ∀ k, b ∈ escapeBytes t k → b ∈ c :: t ∨ (b ≠ 123 ∧ b ≠ 125) := by
      intro k hk
      rcases escapeBytes_mem t k b hk with h | h
      · exact Or.inl (List.mem_cons_of_mem _ h)
      · exact Or.inr h
    split_ifs at h
    · rcases List.mem_cons.1 h with rfl | h
      · exact Or.inl (List.mem_cons_self _ _)
      · exact hrec _ h
    · rcases List.mem_append.1 h with h | h
      · have hall : ∀ b ∈ str "\\ufffd", b ≠ 123 ∧ b ≠ 125 := by decide
        exact Or.inr (hall b h)
      · exact hrec _ h
    · rcases List.mem_cons.1 h with rfl | h
      · exact Or.inl (List.mem_cons_self _ _)
      · exact hrec _ h
    · rcases List.mem_append.1 h with h | h
      · exact Or.inr (appendEscape_noBrace c b h)
      · exact hrec _ h

theorem escapeBytes_noBrace (s : Bytes) (h : NoBrace s) : NoBrace (escapeBytes s 0) := by
  intro b hb
  rcases escapeBytes_mem s 0 b hb with hb | hb
  · exact h b hb
  · exact hb

theorem contentLaw_nests : ContentLaw Nests NoBrace where
  raw := fun c hc => chunkLaw_nests.plain c hc
  escaped := fun c hc => chunkLaw_nests.plain _ (escapeBytes_noBrace c hc)
  errorKey := by
    intro c hc b hb
    rcases List.mem_append.1 hb with hb | hb
    · exact hc b hb
    · have hall : ∀ b ∈ str "Error", b ≠ 123 ∧ b ≠ 125 := by decide
      exact hall b hb

theorem braceDepth_counts : ∀ (out : Bytes) (d e : Nat), braceDepth d out = some e →
    out.count 123 + d = out.count 125 + e ∧
      ∀ k, (out.take k).count 125 ≤ (out.take k).count 123 + d
  | [], d, e, h => by
    simp only [braceDepth, Option.some.injEq] at h
    simp [h]
  | b :: t, d, e, h => by
    rw [braceDepth] at h
    by_cases h1 : b = 123
    · subst h1
      rw [if_pos rfl] at h
      obtain ⟨hc, hp⟩ := braceDepth_counts t (d + 1) e h
      refine ⟨by simp [List.count_cons]; omega, fun k => ?_⟩
      cases k with
      | zero => simp
      | succ k =>
        have := hp k
        simp [List.count_cons]
        omega
    · rw [if_neg h1] at h
      by_cases h2 : b = 125
      · subst h2
        rw [if_pos rfl] at h
        by_cases hd : d = 0
        · rw [if_pos hd] at h
          cases h
        · rw [if_neg hd] at h
          obtain ⟨hc, hp⟩ := braceDepth_counts t (d - 1) e h
          refine ⟨by simp [List.count_cons]; omega, fun k => ?_⟩
          cases k with
          | zero => simp
          | succ k =>
            have := hp k
            simp [List.count_cons]
            omega
      · rw [if_neg h2] at h
        obtain ⟨hc, hp⟩ := braceDepth_counts t d e h
        refine ⟨by simp [List.count_cons, h1, h2]; omega, fun k => ?_⟩
        cases k with
        | zero => simp
        | succ k =>
          have := hp k
          simp [List.count_cons, h1, h2]
          omega

theorem encodeEntry_of_runActions (x : Ext) (enc : logbackEncoder) (ent : Entry)
    (fields : List Field) (final : logbackEncoder)
    (hr : runActions x enc.actions enc.clone ent fields = some final) :
    enc.EncodeEntry x ent fields =
      some ((if enc.buf.length > 0 then final.addElementSeparator.buf ++ enc.buf
          else final.buf) ++ List.replicate final.openNamespaces 125 ++
        (if ent.Stack ≠ [] ∧ final.EncoderConfig.StacktraceKey ≠ [] then 10 :: ent.Stack
          else []) ++ final.EncoderConfig.LineEnding, none) := by
  unfold logbackEncoder.EncodeEntry
  simp only [hr, Zaplogback.AppendString, AppendBytes, AppendByte, Option.some.injEq,
    Prod.mk.injEq, and_true]
  have hE : final.addElementSeparator.EncoderConfig = final.EncoderConfig := by
    rw [addElementSeparator_eq_buf]
  have hN : final.addElementSeparator.openNamespaces = final.openNamespaces := by
    rw [addElementSeparator_eq_buf]
  split_ifs <;> simp_all [logbackEncoder.closeOpenNamespaces]

/-- C17, amended: for every render in which no text copied into the buffer contains a brace
character (the literals of the pattern, the message and the caller function of the record,
its stack trace, the line terminator, the keys, values and error texts of the fields, and
the texts of the configured encoders) and whose template buffer leaves exactly its open
namespaces open, whatever namespaces the fields and nested marshalers open and whatever
errors the marshalers return, the returned buffer has as many closing as opening braces and
no prefix of it has more closing than opening braces; with a caller encoder configured the
render returns. -/
theorem finalized_buffer_braces_nested (x : Ext) (enc : logbackEncoder) (ent : Entry)
    (fields : List Field) (hact : ∀ a ∈ enc.actions, a.All NoBrace) (hent : ent.All NoBrace)
    (hstack : NoBrace ent.Stack) (hfields : ∀ f ∈ fields, f.All NoBrace)
    (hcfg : enc.EncoderConfig.All NoBrace x) (hle : NoBrace enc.EncoderConfig.LineEnding)
    (htemplate : Nests enc.buf enc.openNamespaces) :
    (enc.EncoderConfig.EncodeCaller ≠ none → enc.EncodeEntry x ent fields ≠ none) ∧
      ∀ out err, enc.EncodeEntry x ent fields = some (out, err) →
        out.count 123 = out.count 125 ∧
          ∀ k, (out.take k).count 125 ≤ (out.take k).count 123 := by
  have hstep := runActions_step chunkLaw_nests contentLaw_nests x ent fields hent hfields
    enc.actions enc.clone hcfg hact
  constructor
  · intro hc hnone
    cases hr : runActions x enc.actions enc.clone ent fields with
    | none => exact hstep.1 hc hr
    | some final =>
      rw [encodeEntry_of_runActions x enc ent fields final hr] at hnone
      cases hnone
  · intro out err hout
    cases hr : runActions x enc.actions enc.clone ent fields with
    | none =>
      unfold logbackEncoder.EncodeEntry at hout
      simp only [hr] at hout
      cases hout
    | some final =>
      obtain ⟨δ, acts, hfinal, hnest⟩ := hstep.2 final hr
      have hbuf : final.buf = acts := by rw [hfinal]; simp [logbackEncoder.clone]
      have hopen : final.openNamespaces = enc.openNamespaces + δ := by
        rw [hfinal]; simp [logbackEncoder.clone]
      have hconf : final.EncoderConfig = enc.EncoderConfig := by
        rw [hfinal]; simp [logbackEncoder.clone]
      have hbody : Nests (if enc.buf.length > 0 then final.addElementSeparator.buf ++ enc.buf
          else final.buf) (enc.openNamespaces + δ) := by
        split_ifs with hlen
        · obtain ⟨sep, hsep, hsepn⟩ := addElementSeparator_step chunkLaw_nests final
          have hsb : final.addElementSeparator.buf = acts ++ sep := by
            rw [hsep, hbuf]
          rw [hsb]
          have := chunkLaw_nests.append _ _ _ _
            (chunkLaw_nests.append _ _ _ _ hnest hsepn) htemplate
          rw [Nat.add_zero, Nat.add_comm] at this
          exact this
        · have hnil : enc.buf = [] := by
            cases hb : enc.buf with
            | nil => rfl
            | cons b t => rw [hb] at hlen; simp at hlen
          have h0 := htemplate 0
          rw [hnil] at h0
          simp only [braceDepth, Option.some.injEq] at h0
          have hz : enc.openNamespaces = 0 := by omega
          rw [hbuf, hz, Nat.zero_add]
          exact hnest
      have hclosed := chunkLaw_nests.close _ 0 (enc.openNamespaces + δ)
        (by rw [Nat.zero_add]; exact hbody)
      have htail : NoBrace (if ent.Stack ≠ [] ∧ final.EncoderConfig.StacktraceKey ≠ [] then
          10 :: ent.Stack else []) := by
        split_ifs
        · intro b hb
          rcases List.mem_cons.1 hb with rfl | hb
          · decide
          · exact hstack b hb
        · intro b hb
          simp at hb
      have hall := chunkLaw_nests.append _ _ _ _
        (chunkLaw_nests.append _ _ _ _ hclosed (chunkLaw_nests.plain _ htail))
        (chunkLaw_nests.plain final.EncoderConfig.LineEnding (by rw [hconf]; exact hle))
      rw [encodeEntry_of_runActions x enc ent fields final hr, hopen] at hout
      simp only [Option.some.injEq, Prod.mk.injEq] at hout
      rw [hout.1] at hall
      have hcount := braceDepth_counts out 0 0 (hall 0)
      exact ⟨by omega, fun k => by have := hcount.2 k; omega⟩

/-- Witness of C17 at the pattern `%fields` with a namespace field, an object field whose
marshaler opens a namespace and returns an error, and a string field. -/
theorem finalized_buffer_braces_nested_witness :
    fieldsEncoder.EncodeEntry sampleExt sampleEntry namespaceFields =
        some (str "\x7b\"ns\":\x7b,\"o\":\x7b\"in\":\x7b\"a\":b\x7d\x7d \"oError\":bad,\"k\":v\x7d\x7d\n",
          none) ∧
      ∀ out err, fieldsEncoder.EncodeEntry sampleExt sampleEntry namespaceFields =
          some (out, err) →
        out.count 123 = out.count 125 ∧
          ∀ k, (out.take k).count 125 ≤ (out.take k).count 123 :=
  ⟨by decide,
    (finalized_buffer_braces_nested sampleExt fieldsEncoder sampleEntry namespaceFields
      (by
        intro a ha
        simp only [fieldsEncoder, List.mem_singleton] at ha
        subst ha
        trivial)
      ⟨by decide, by decide⟩ (by decide)
      (by
        intro f hf
        simp only [namespaceFields, List.mem_cons, List.mem_singleton, List.not_mem_nil,
          or_false] at hf
        rcases hf with rfl | rfl | rfl
        · exact ⟨by decide, by decide, trivial⟩
        · refine ⟨by decide, by decide, ⟨?_, ?_, trivial⟩, ?_⟩
          · rw [SinkOp.All]
            decide
          · rw [SinkOp.All]
            exact ⟨by decide, by decide⟩
          intro e he
          cases he
          decide
        · exact ⟨by decide, by decide, trivial⟩)
      ⟨fun _ h => (nomatch h), fun _ h => (nomatch h), fun _ h => (nomatch h),
        fun _ h => (nomatch h), fun _ h => (nomatch h),
        fun _ => (show NoBrace (str "info") by decide), fun _ h => (nomatch h),
        fun _ h => (nomatch h), fun _ => (show NoBrace (str "main.go:34") by decide)⟩
      (by decide) (fun _ => rfl)).2⟩

/-- Counterexample to C17 as stated: the pattern `%message`, a brace-free message and no
fields, for a record whose stack trace is a closing brace and a configured stack-trace key.
The stack trace is copied as it is, so the output has a closing and no opening brace. -/
theorem stack_trace_brace_counterexample :
    NoBrace sampleEntry.Message ∧
      ∃ enc, NewZaplogbackEncoder tableOrder sampleConfig (str "%message") = some enc ∧
        (∀ a ∈ enc.actions, a.All NoBrace) ∧
        enc.EncodeEntry sampleExt { sampleEntry with Stack := str "\x7d" } [] =
          some (str "hello\n\x7d\n", none) ∧
        (str "hello\n\x7d\n").count 123 ≠ (str "hello\n\x7d\n").count 125 :=
  ⟨by decide, { newZaplogbackEncoder sampleConfig with actions := [.logAddMsgAction] }, rfl,
    by
      intro a ha
      simp only [List.mem_singleton] at ha
      subst ha
      trivial,
    rfl, by decide⟩

/-! ## Layout translation, piece by piece -/

theorem renderItems_cons (it : LayoutItem) (rest : List LayoutItem) :
    renderItems (it :: rest) = it.render ++ renderItems rest := by
  simp [renderItems]

theorem renderItems_append (a b : List LayoutItem) :
    renderItems (a ++ b) = renderItems a ++ renderItems b := by
  simp [renderItems]

theorem renderItems_text (v : Bytes) : renderItems (v.map .text) = v := by
  induction v with
  | nil => rfl
  | cons b t ih => rw [List.map_cons, renderItems_cons, ih]; rfl

theorem stepItems_cons (z : Bytes) (e : StrfKey × Bytes) (it : LayoutItem)
    (rest : List LayoutItem) :
    stepItems z e (it :: rest) = itemStep z e it ++ stepItems z e rest := by
  simp [stepItems]

theorem replaceLit_cons_ne (c : Nat) (v : Bytes) (a : Nat) (r : Bytes) (ha : a ≠ 37) :
    replaceLit c v (a :: r) = a :: replaceLit c v r := by
  cases r with
  | nil => rfl
  | cons b t => rw [replaceLit, if_neg (fun h => ha h.1)]

theorem replaceLit_percent_ne (c : Nat) (v : Bytes) (b : Nat) (r : Bytes) (hb : b ≠ c) :
    replaceLit c v (37 :: b :: r) = 37 :: replaceLit c v (b :: r) := by
  rw [replaceLit, if_neg (fun h => hb h.2)]

theorem replaceLit_plain_run (c : Nat) (v : Bytes) (r : Bytes) :
    ∀ p : Bytes, (∀ b ∈ p, b ≠ 37) → replaceLit c v (p ++ r) = p ++ replaceLit c v r := by
  intro p
  induction p with
  | nil => intro _; rfl
  | cons a t ih =>
    intro h
    rw [List.cons_append, replaceLit_cons_ne c v a _ (h a (List.mem_cons_self _ _)),
      ih (fun b hb => h b (List.mem_cons_of_mem _ hb)), List.cons_append]

theorem isDigit_ne_percent (d : Nat) (h : isDigit d = true) : d ≠ 37 ∧ d ≠ 102 := by
  simp only [isDigit, Bool.and_eq_true, decide_eq_true_eq] at h
  omega

theorem lit_ok (c : Nat) (h : (LayoutItem.lit c).ok = true) :
    c ≠ 37 ∧ c ≠ 102 ∧ isDigit c = false := by
  simp only [LayoutItem.ok, Bool.and_eq_true, bne_iff_ne, ne_eq, Bool.not_eq_true'] at h
  exact ⟨h.1.1, h.1.2, h.2⟩

theorem frac_ok (ds : Bytes) (h : (LayoutItem.frac ds).ok = true) :
    ∀ d ∈ ds, isDigit d = true := by
  simpa [LayoutItem.ok] using h

theorem replaceLit_render (z : Bytes) (c : Nat) (v : Bytes) (hc : isDigit c = false)
    (hf : c ≠ 102) :
    ∀ its : List LayoutItem, (∀ it ∈ its, it.ok = true) →
      replaceLit c v (renderItems its) = renderItems (stepItems z (.lit c, v) its) := by
  intro its
  induction its with
  | nil => intro _; rfl
  | cons it rest ih =>
    intro h
    have hrest := ih (fun i hi => h i (List.mem_cons_of_mem _ hi))
    have hit := h it (List.mem_cons_self _ _)
    rw [renderItems_cons, stepItems_cons, renderItems_append, ← hrest]
    cases it with
    | text b =>
      have hb : b ≠ 37 := by simpa [LayoutItem.ok] using hit
      exact replaceLit_cons_ne c v b _ hb
    | lit d =>
      obtain ⟨hd, -, -⟩ := lit_ok d hit
      by_cases hdc : d = c
      · subst hdc
        simp only [LayoutItem.render, itemStep, if_true, renderItems_text, List.cons_append,
          List.nil_append]
        rw [replaceLit, if_pos ⟨rfl, rfl⟩]
      · simp only [LayoutItem.render, itemStep, if_neg hdc, List.cons_append,
          List.nil_append]
        rw [replaceLit_percent_ne c v d _ hdc, replaceLit_cons_ne c v d _ hd]
        rfl
    | frac ds =>
      have hds := frac_ok ds hit
      have hp : ∀ b ∈ ds ++ [102], b ≠ 37 := by
        intro b hb
        rcases List.mem_append.1 hb with hb | hb
        · exact (isDigit_ne_percent b (hds b hb)).1
        · simp only [List.mem_singleton] at hb
          omega
      have hhead : ∀ b t, ds ++ [102] = b :: t → b ≠ c := by
        intro b t hbt
        cases ds with
        | nil =>
          simp only [List.nil_append, List.cons.injEq] at hbt
          omega
        | cons d ds' =>
          simp only [List.cons_append, List.cons.injEq] at hbt
          have := hds d (List.mem_cons_self _ _)
          rw [hbt.1] at this
          intro hbc
          rw [hbc, hc] at this
          cases this
      simp only [LayoutItem.render, itemStep, List.cons_append]
      cases hsplit : ds ++ [102] with
      | nil => simp at hsplit
      | cons b t =>
        rw [List.cons_append, replaceLit_percent_ne c v b _ (hhead b t hsplit), ← List.cons_append,
          ← hsplit, replaceLit_plain_run c v _ _ hp]
        simp [renderItems, LayoutItem.render]

theorem matchFracAt_ne (a : Nat) (r : Bytes) (ha : a ≠ 37) : matchFracAt (a :: r) = none := by
  rw [matchFracAt, if_neg ha]

theorem matchFracAt_lit (d : Nat) (r : Bytes) (hd : isDigit d = false) (hf : d ≠ 102) :
    matchFracAt (37 :: d :: r) = none := by
  rw [matchFracAt, if_pos rfl]
  simp [List.dropWhile, hd, hf]

theorem matchFracAt_frac (ds r : Bytes) (hds : ∀ d ∈ ds, isDigit d = true) :
    matchFracAt (37 :: (ds ++ 102 :: r)) = some ds := by
  rw [matchFracAt, if_pos rfl,
    dropWhile_append_stop isDigit ds (102 :: r) hds (by intro b hb; cases hb; decide),
    takeWhile_append_stop isDigit ds (102 :: r) hds (by intro b hb; cases hb; decide)]
  simp

theorem fracSubmatch_render :
    ∀ its : List LayoutItem, (∀ it ∈ its, it.ok = true) →
      fracSubmatch (renderItems its) = firstFrac its := by
  intro its
  induction its with
  | nil => intro _; rfl
  | cons it rest ih =>
    intro h
    have hrest := ih (fun i hi => h i (List.mem_cons_of_mem _ hi))
    have hit := h it (List.mem_cons_self _ _)
    rw [renderItems_cons]
    cases it with
    | text b =>
      have hb : b ≠ 37 := by simpa [LayoutItem.ok] using hit
      simp only [LayoutItem.render, List.cons_append, List.nil_append, firstFrac]
      rw [fracSubmatch, matchFracAt_ne b _ hb]
      exact hrest
    | lit d =>
      obtain ⟨hd, hf, hdig⟩ := lit_ok d hit
      simp only [LayoutItem.render, List.cons_append, List.nil_append, firstFrac]
      rw [fracSubmatch, matchFracAt_lit d _ hdig hf]
      simp only []
      rw [fracSubmatch, matchFracAt_ne d _ hd]
      exact hrest
    | frac ds =>
      have hds := frac_ok ds hit
      simp only [LayoutItem.render, List.cons_append, List.append_assoc, List.nil_append,
        firstFrac]
      rw [fracSubmatch, matchFracAt_frac ds _ hds]

theorem replaceFrac_skip (v r : Bytes) :
    ∀ p : Bytes, replaceFrac v (p ++ r) p.length = replaceFrac v r 0 := by
  intro p
  induction p with
  | nil => rfl
  | cons a t ih => rw [List.cons_append, List.length_cons, replaceFrac]; exact ih

theorem replaceFrac_render (z v : Bytes) :
    ∀ its : List LayoutItem, (∀ it ∈ its, it.ok = true) →
      replaceFrac z (renderItems its) 0 = renderItems (stepItems z (.frac, v) its) := by
  intro its
  induction its with
  | nil => intro _; rfl
  | cons it rest ih =>
    intro h
    have hrest := ih (fun i hi => h i (List.mem_cons_of_mem _ hi))
    have hit := h it (List.mem_cons_self _ _)
    rw [renderItems_cons, stepItems_cons, renderItems_append, ← hrest]
    cases it with
    | text b =>
      have hb : b ≠ 37 := by simpa [LayoutItem.ok] using hit
      simp only [LayoutItem.render, itemStep, List.cons_append, List.nil_append]
      rw [replaceFrac, matchFracAt_ne b _ hb]
      rfl
    | lit d =>
      obtain ⟨hd, hf, hdig⟩ := lit_ok d hit
      simp only [LayoutItem.render, itemStep, List.cons_append, List.nil_append]
      rw [replaceFrac, matchFracAt_lit d _ hdig hf]
      simp only []
      rw [replaceFrac, matchFracAt_ne d _ hd]
      rfl
    | frac ds =>
      have hds := frac_ok ds hit
      simp only [LayoutItem.render, itemStep, List.cons_append, List.append_assoc,
        List.nil_append, renderItems_text]
      rw [replaceFrac, matchFracAt_frac ds _ hds]
      simp only []
      have := replaceFrac_skip z (renderItems rest) (ds ++ [102])
      simp only [List.append_assoc, List.cons_append, List.nil_append, List.length_append,
        List.length_cons, List.length_nil] at this
      rw [this]

theorem itemStep_ok (z : Bytes) (hz : ∀ b ∈ z, b ≠ 37) (e : StrfKey × Bytes)
    (he : entryOk e = true) (it : LayoutItem) (hit : it.ok = true) :
    ∀ i ∈ itemStep z e it, i.ok = true := by
  have hv : ∀ b ∈ e.2, b ≠ 37 := by
    simp only [entryOk, Bool.and_eq_true, List.all_eq_true, bne_iff_ne, ne_eq] at he
    exact he.2
  have htexts : ∀ (v : Bytes), (∀ b ∈ v, b ≠ 37) →
      ∀ i ∈ v.map LayoutItem.text, i.ok = true := by
    intro v hv i hi
    obtain ⟨b, hb, rfl⟩ := List.mem_map.1 hi
    simpa [LayoutItem.ok] using hv b hb
  obtain ⟨k, v⟩ := e
  cases it with
  | text b => intro i hi; simp only [itemStep, List.mem_singleton] at hi; rw [hi]; exact hit
  | lit d =>
    cases k with
    | lit c =>
      simp only [itemStep]
      split_ifs
      · exact htexts v hv
      · intro i hi; simp only [List.mem_singleton] at hi; rw [hi]; exact hit
    | frac => intro i hi; simp only [itemStep, List.mem_singleton] at hi; rw [hi]; exact hit
  | frac ds =>
    cases k with
    | lit c => intro i hi; simp only [itemStep, List.mem_singleton] at hi; rw [hi]; exact hit
    | frac => exact htexts z hz

theorem stepItems_ok (z : Bytes) (hz : ∀ b ∈ z, b ≠ 37) (e : StrfKey × Bytes)
    (he : entryOk e = true) (its : List LayoutItem) (h : ∀ it ∈ its, it.ok = true) :
    ∀ i ∈ stepItems z e its, i.ok = true := by
  intro i hi
  obtain ⟨it, hit, hi⟩ := List.mem_flatMap.1 hi
  exact itemStep_ok z hz e he it (h it hit) i hi

theorem firstFrac_text_append (v : Bytes) (rest : List LayoutItem) :
    firstFrac (v.map LayoutItem.text ++ rest) = firstFrac rest := by
  induction v with
  | nil => rfl
  | cons b t ih => simpa [firstFrac] using ih

theorem firstFrac_stepItems_lit (z : Bytes) (c : Nat) (v : Bytes) :
    ∀ its : List LayoutItem, firstFrac (stepItems z (.lit c, v) its) = firstFrac its := by
  intro its
  induction its with
  | nil => rfl
  | cons it rest ih =>
    rw [stepItems_cons]
    cases it with
    | text b => simpa [itemStep, firstFrac] using ih
    | lit d =>
      simp only [itemStep]
      split_ifs
      · rw [firstFrac_text_append, ih]; rfl
      · simpa [firstFrac] using ih
    | frac ds => simp [itemStep, firstFrac]

theorem strftimeStep_render_lit (z : Bytes) (c : Nat) (v : Bytes)
    (he : entryOk (.lit c, v) = true) (its : List LayoutItem)
    (h : ∀ it ∈ its, it.ok = true) :
    strftimeStep (renderItems its) (.lit c, v) =
      some (renderItems (stepItems z (.lit c, v) its)) := by
  have hc := lit_ok c (by
    simp only [entryOk, Bool.and_eq_true] at he
    simpa [LayoutItem.ok] using he.1)
  rw [strftimeStep, replaceLit_render z c v hc.2.2 hc.2.1 its h]

theorem strftimeStep_render_frac (v : Bytes) (its : List LayoutItem)
    (h : ∀ it ∈ its, it.ok = true) (ds : Bytes) (hfirst : firstFrac its = some ds)
    (hmax : zeroCount ds ≤ maxAlloc) :
    strftimeStep (renderItems its) (.frac, v) =
      some (renderItems (stepItems (List.replicate (zeroCount ds) 48) (.frac, v) its)) := by
  have hr : Repeat 48 (zeroCount ds) = some (List.replicate (zeroCount ds) 48) := by
    rw [Repeat, if_pos hmax]
  rw [strftimeStep, fracSubmatch_render its h, hfirst]
  show (match Repeat 48 (zeroCount ds) with
    | none => none
    | some z => some (replaceFrac z (renderItems its) 0)) = _
  rw [hr, ← replaceFrac_render _ v its h]

theorem strftimeStep_frac_too_large (v : Bytes) (its : List LayoutItem)
    (h : ∀ it ∈ its, it.ok = true) (ds : Bytes) (hfirst : firstFrac its = some ds)
    (hmax : ¬ zeroCount ds ≤ maxAlloc) :
    strftimeStep (renderItems its) (.frac, v) = none := by
  have hr : Repeat 48 (zeroCount ds) = none := by
    rw [Repeat, if_neg hmax]
  rw [strftimeStep, fracSubmatch_render its h, hfirst]
  show (match Repeat 48 (zeroCount ds) with
    | none => none
    | some z => some (replaceFrac z (renderItems its) 0)) = _
  rw [hr]

theorem strftimeLoop_render (z : Bytes) (hz : ∀ b ∈ z, b ≠ 37) :
    ∀ (order : List (StrfKey × Bytes)) (its : List LayoutItem),
      (∀ e ∈ order, entryOk e = true) → (∀ it ∈ its, it.ok = true) →
      (order.map Prod.fst).count .frac ≤ 1 →
      (StrfKey.frac ∈ order.map Prod.fst →
        ∃ ds, firstFrac its = some ds ∧ List.replicate (zeroCount ds) 48 = z ∧
          zeroCount ds ≤ maxAlloc) →
      strftimeLoop order (renderItems its) =
        some (renderItems (order.foldl (fun i e => stepItems z e i) its)) := by
  intro order
  induction order with
  | nil => intro its _ _ _ _; rfl
  | cons e rest ih =>
    intro its hord hits hcount hfrac
    have he := hord e (List.mem_cons_self _ _)
    have hrest : ∀ e ∈ rest, entryOk e = true := fun x hx => hord x (List.mem_cons_of_mem _ hx)
    obtain ⟨k, v⟩ := e
    cases k with
    | lit c =>
      rw [strftimeLoop, strftimeStep_render_lit z c v he its hits]
      simp only [List.foldl_cons]
      refine ih _ hrest (stepItems_ok z hz _ he its hits) ?_ ?_
      · simpa [List.count_cons] using hcount
      · intro hm
        rw [firstFrac_stepItems_lit]
        exact hfrac (by simp only [List.map_cons, List.mem_cons]; exact Or.inr hm)
    | frac =>
      obtain ⟨ds, hfirst, hzero, hmax⟩ := hfrac (by simp)
      rw [strftimeLoop, strftimeStep_render_frac v its hits ds hfirst hmax, hzero]
      simp only [List.foldl_cons]
      refine ih _ hrest (stepItems_ok z hz _ he its hits) ?_ ?_
      · simp only [List.map_cons, List.count_cons_self] at hcount
        omega
      · intro hm
        have hpos : 0 < (rest.map Prod.fst).count .frac := List.count_pos_iff.2 hm
        simp only [List.map_cons, List.count_cons_self] at hcount
        omega

theorem itemStep_text_flatMap (z : Bytes) (e : StrfKey × Bytes) (v : Bytes) :
    (v.map LayoutItem.text).flatMap (itemStep z e) = v.map LayoutItem.text := by
  induction v with
  | nil => rfl
  | cons b t ih =>
    rw [List.map_cons, List.flatMap_cons, ih]
    rfl

theorem itemStep_single (z : Bytes) (e : StrfKey × Bytes) (it : LayoutItem) :
    [it].flatMap (itemStep z e) = itemStep z e it := by
  simp

theorem itemStep_comm (z : Bytes) (x y : StrfKey × Bytes) (hxy : x.1 = y.1 → x = y)
    (it : LayoutItem) :
    (itemStep z x it).flatMap (itemStep z y) = (itemStep z y it).flatMap (itemStep z x) := by
  obtain ⟨kx, vx⟩ := x
  obtain ⟨ky, vy⟩ := y
  cases it with
  | text b => rfl
  | lit d =>
    cases kx with
    | lit cx =>
      cases ky with
      | lit cy =>
        by_cases h1 : d = cx
        · by_cases h2 : d = cy
          · have hv : vx = vy := by
              have := hxy (by rw [← h1, ← h2])
              exact (Prod.mk.inj this).2
            subst hv
            subst h1
            subst h2
            rfl
          · simp only [itemStep, if_pos h1, if_neg h2, itemStep_text_flatMap,
              itemStep_single]
        · by_cases h2 : d = cy
          · simp only [itemStep, if_neg h1, if_pos h2, itemStep_text_flatMap,
              itemStep_single]
          · simp only [itemStep, if_neg h1, if_neg h2, itemStep_single]
      | frac =>
        by_cases h1 : d = cx
        · simp only [itemStep, if_pos h1, itemStep_text_flatMap, itemStep_single]
        · simp only [itemStep, if_neg h1, itemStep_single]
    | frac =>
      cases ky with
      | lit cy =>
        by_cases h2 : d = cy
        · simp only [itemStep, if_pos h2, itemStep_text_flatMap, itemStep_single]
        · simp only [itemStep, if_neg h2, itemStep_single]
      | frac => rfl
  | frac ds =>
    cases kx with
    | lit cx =>
      cases ky with
      | lit cy => rfl
      | frac => simp only [itemStep, itemStep_text_flatMap, itemStep_single]
    | frac =>
      cases ky with
      | lit cy => simp only [itemStep, itemStep_text_flatMap, itemStep_single]
      | frac => rfl

theorem stepItems_comm (z : Bytes) (x y : StrfKey × Bytes) (hxy : x.1 = y.1 → x = y)
    (its : List LayoutItem) :
    stepItems z y (stepItems z x its) = stepItems z x (stepItems z y its) := by
  induction its with
  | nil => rfl
  | cons it rest ih =>
    simp only [stepItems, List.flatMap_cons, List.flatMap_append] at ih ⊢
    rw [ih, itemStep_comm z x y hxy it]

theorem strf_map_keys : ∀ x ∈ strf_map, ∀ y ∈ strf_map, x.1 = y.1 → x = y := by
  have hnodup : (strf_map.map Prod.fst).Nodup := by decide
  intro x hx y hy hxy
  exact List.inj_on_of_nodup_map hnodup hx hy hxy

theorem strftime_items (order : List (StrfKey × Bytes)) (horder : order.Perm strf_map)
    (its : List LayoutItem) (hits : ∀ it ∈ its, it.ok = true) (ds : Bytes)
    (hfirst : firstFrac its = some ds) (hmax : zeroCount ds ≤ maxAlloc) :
    StrftimeFormatLayout order (renderItems its) =
      some (renderItems
        (strf_map.foldl (fun i e => stepItems (List.replicate (zeroCount ds) 48) e i) its)) := by
  have hz : ∀ b ∈ List.replicate (zeroCount ds) 48, b ≠ 37 := by
    intro b hb
    rw [List.eq_of_mem_replicate hb]
    decide
  have hok : ∀ e ∈ strf_map, entryOk e = true := by decide
  have hcount : (order.map Prod.fst).count .frac ≤ 1 := by
    rw [(horder.map Prod.fst).count_eq]
    decide
  have hfold : order.foldl (fun i e => stepItems (List.replicate (zeroCount ds) 48) e i) its =
      strf_map.foldl (fun i e => stepItems (List.replicate (zeroCount ds) 48) e i) its :=
    List.Perm.foldl_eq' horder
      (fun x hx y hy i => stepItems_comm _ x y
        (strf_map_keys x (horder.mem_iff.1 hx) y (horder.mem_iff.1 hy)) i) its
  rw [StrftimeFormatLayout, strftimeLoop_render _ hz order its
    (fun e he => hok e (horder.mem_iff.1 he)) hits hcount (fun _ => ⟨ds, hfirst, rfl, hmax⟩), hfold]

/-- C13: in every iteration order of the directive table the two layouts of the claim are
translated as it says, `%Y-%m-%d %H:%M:%S.%3f` with three zeros and `%6f` with six, but a
directive does not get its own count when another one precedes it: in `%3f %6f` both
directives become `000`, the count of the first. -/
theorem frac_directives_share_first_count (order : List (StrfKey × Bytes))
    (horder : order.Perm strf_map) :
    StrftimeFormatLayout order (str "%Y-%m-%d %H:%M:%S.%3f") =
        some (str "2006-01-02 15:04:05.000") ∧
      StrftimeFormatLayout order (str "%6f") = some (str "000000") ∧
      StrftimeFormatLayout order (str "%3f %6f") = some (str "000 000") := by
  have h1 : str "%Y-%m-%d %H:%M:%S.%3f" = renderItems (tableLayoutItems.take 13) := by decide
  have h2 : str "%6f" = renderItems [.frac [54]] := by decide
  have h3 : str "%3f %6f" = renderItems twoFracItems := by decide
  rw [h1, h2, h3,
    strftime_items order horder (tableLayoutItems.take 13) (by decide) [51] rfl (by decide),
    strftime_items order horder [.frac [54]] (by decide) [54] rfl (by decide),
    strftime_items order horder twoFracItems (by decide) [51] rfl (by decide)]
  decide

/-- Witness of C13 at the order of the source text. -/
theorem frac_directives_share_first_count_witness :
    strf_map.Perm strf_map ∧
      StrftimeFormatLayout strf_map (str "%3f %6f") = some (str "000 000") :=
  ⟨List.Perm.refl _, (frac_directives_share_first_count strf_map (List.Perm.refl _)).2.2⟩

/-! ## Selection of the level strategy -/

/-- C23: for every mode string, `LevelEncoderOf` selects the capital level encoder exactly
for `upper` and `capital`, the capital colour encoder exactly for `capitalcolor`, the
lowercase colour encoder exactly for `color`, and the plain lowercase encoder for every
other string, `lower` included. -/
theorem levelEncoderOf_selection (level_type : Bytes) :
    (LevelEncoderOf level_type = .CapitalLevelEncoder ↔
        level_type = str "upper" ∨ level_type = str "capital") ∧
      (LevelEncoderOf level_type = .CapitalColorLevelEncoder ↔
        level_type = str "capitalcolor") ∧
      (LevelEncoderOf level_type = .LowercaseColorLevelEncoder ↔ level_type = str "color") ∧
      (LevelEncoderOf level_type = .LowercaseLevelEncoder ↔
        level_type ≠ str "upper" ∧ level_type ≠ str "capital" ∧
          level_type ≠ str "capitalcolor" ∧ level_type ≠ str "color") ∧
      LevelEncoderOf (str "lower") = .LowercaseLevelEncoder := by
  have h12 : str "upper" ≠ str "capitalcolor" := by decide
  have h13 : str "upper" ≠ str "color" := by decide
  have h23 : str "capital" ≠ str "capitalcolor" := by decide
  have h24 : str "capital" ≠ str "color" := by decide
  have h34 : str "capitalcolor" ≠ str "color" := by decide
  refine ⟨?_, ?_, ?_, ?_, by decide⟩
  all_goals
    unfold LevelEncoderOf
    by_cases h1 : level_type = str "upper"
    · subst h1
      simp [h12, h13]
    by_cases h2 : level_type = str "capital"
    · subst h2
      simp [h23, h24]
    by_cases h3 : level_type = str "capitalcolor"
    · subst h3
      simp [h12.symm, h23.symm, h34]
    by_cases h4 : level_type = str "color"
    · subst h4
      simp [h13.symm, h24.symm, h34.symm]
    simp [h1, h2, h3, h4]

/-! ## Fallback of the duration and time encoders -/

theorem toDigitsCore_length_le (fuel : Nat) : ∀ (n : Nat) (acc : List Char),
    acc.length ≤ (Nat.toDigitsCore 10 fuel n acc).length := by
  induction fuel with
  | zero => intro n acc; simp [Nat.toDigitsCore]
  | succ fuel ih =>
    intro n acc
    simp only [Nat.toDigitsCore]
    split_ifs
    · simp
    · have := ih (n / 10) (Nat.digitChar (n % 10) :: acc)
      simp only [List.length_cons] at this
      omega

theorem toDigitsCore_length (fuel : Nat) (n : Nat) (acc : List Char) :
    acc.length + 1 ≤ (Nat.toDigitsCore 10 (fuel + 1) n acc).length := by
  simp only [Nat.toDigitsCore]
  split_ifs
  · simp
  · have := toDigitsCore_length_le fuel (n / 10) (Nat.digitChar (n % 10) :: acc)
    simp only [List.length_cons] at this
    omega

theorem decimal_length (n : Nat) : 1 ≤ (decimal n).length := by
  have := toDigitsCore_length n n []
  simpa [decimal, Nat.toDigits] using this

theorem AppendInt64_buf (enc : logbackEncoder) (val : Int) :
    (enc.AppendInt64 val).buf =
        enc.addElementSeparator.buf ++
          (if val < 0 then 45 :: decimal val.natAbs else decimal val.toNat) ∧
      enc.buf.length < (enc.AppendInt64 val).buf.length := by
  have hsep : enc.buf.length ≤ enc.addElementSeparator.buf.length := by
    obtain ⟨out, h, -⟩ := addElementSeparator_step chunkLaw_true enc
    rw [h]
    simp
  have hbuf : (enc.AppendInt64 val).buf =
      enc.addElementSeparator.buf ++
        (if val < 0 then 45 :: decimal val.natAbs else decimal val.toNat) := by
    unfold logbackEncoder.AppendInt64 AppendInt
    split_ifs <;> rfl
  refine ⟨hbuf, ?_⟩
  rw [hbuf]
  have h1 := decimal_length val.natAbs
  have h2 := decimal_length val.toNat
  split_ifs <;> simp only [List.length_append, List.length_cons] <;> omega

theorem step_length_eq {enc enc' : logbackEncoder}
    (h : Step (fun _ _ => True) 0 enc enc') :
    enc.buf.length ≤ enc'.buf.length ∧ (enc'.buf.length = enc.buf.length → enc' = enc) := by
  obtain ⟨out, rfl, -⟩ := h
  refine ⟨by simp, fun hlen => ?_⟩
  have : out = [] := by
    simp only [List.length_append] at hlen
    exact List.length_eq_zero.1 (by omega)
  subst this
  simp

theorem fallback_longer (enc mid : logbackEncoder) (val : Int)
    (h : Step (fun _ _ => True) 0 enc mid) :
    enc.buf.length <
      (if enc.buf.length = mid.buf.length then mid.AppendInt64 val else mid).buf.length := by
  have hlen := (step_length_eq h).1
  split_ifs with heq
  · have := (AppendInt64_buf mid val).2
    omega
  · omega

theorem primCalls_step_true (enc : logbackEncoder) (calls : List PrimCall) :
    Step (fun _ _ => True) 0 enc (enc.primCalls calls) :=
  primCalls_step chunkLaw_true contentLaw_true calls enc (fun c _ => primCall_all_true c)

/-- C22: for every sink state, duration and timestamp: when no duration (time) encoder is
configured, or the configured one leaves the length of the buffer as it was, `AppendDuration`
(`AppendTime`) does what `AppendInt64` does with the nanoseconds (the nanoseconds since the
epoch), that is, it appends the separator and then the decimal digits, with a minus sign for
a negative value; and whatever the encoder does, the buffer is strictly longer after the
call than before. -/
theorem duration_time_fallback (x : Ext) (enc : logbackEncoder) (d : Int) (t : Time) :
    (enc.EncoderConfig.EncodeDuration = none → enc.AppendDuration d = enc.AppendInt64 d) ∧
      (∀ e, enc.EncoderConfig.EncodeDuration = some (.custom e) →
        (enc.primCalls (e d)).buf.length = enc.buf.length →
        enc.AppendDuration d = enc.AppendInt64 d) ∧
      (enc.EncoderConfig.EncodeTime = none →
        enc.AppendTime x t = enc.AppendInt64 t.UnixNano) ∧
      (∀ layout, enc.EncoderConfig.EncodeTime = some (.ofLayout layout) →
        (enc.AppendString (x.timeFormat t layout)).buf.length = enc.buf.length →
        enc.AppendTime x t = enc.AppendInt64 t.UnixNano) ∧
      (∀ e, enc.EncoderConfig.EncodeTime = some (.custom e) →
        (enc.primCalls (e t)).buf.length = enc.buf.length →
        enc.AppendTime x t = enc.AppendInt64 t.UnixNano) ∧
      (∀ v : Int, (enc.AppendInt64 v).buf =
        enc.addElementSeparator.buf ++
          (if v < 0 then 45 :: decimal v.natAbs else decimal v.toNat)) ∧
      enc.buf.length < (enc.AppendDuration d).buf.length ∧
      enc.buf.length < (enc.AppendTime x t).buf.length := by
  refine ⟨?_, ?_, ?_, ?_, ?_, fun v => (AppendInt64_buf enc v).1, ?_, ?_⟩
  · intro he
    unfold logbackEncoder.AppendDuration
    simp only [he, if_true]
  · intro e he hlen
    have hmid := (step_length_eq (primCalls_step_true enc (e d))).2 hlen
    unfold logbackEncoder.AppendDuration
    simp only [he, hmid, if_true]
  · intro he
    unfold logbackEncoder.AppendTime
    simp only [he, if_true]
  · intro layout he hlen
    have hmid := (step_length_eq
      (AppendString_step enc (x.timeFormat t layout) trivial)).2 hlen
    unfold logbackEncoder.AppendTime
    simp only [he, hmid, if_true]
  · intro e he hlen
    have hmid := (step_length_eq (primCalls_step_true enc (e t))).2 hlen
    unfold logbackEncoder.AppendTime
    simp only [he, hmid, if_true]
  · unfold logbackEncoder.AppendDuration
    cases he : enc.EncoderConfig.EncodeDuration with
    | none => exact fallback_longer enc enc d (Step.refl chunkLaw_true enc)
    | some e =>
      cases e with
      | custom f => exact fallback_longer enc _ d (primCalls_step_true enc (f d))
  · unfold logbackEncoder.AppendTime
    cases he : enc.EncoderConfig.EncodeTime with
    | none => exact fallback_longer enc enc t.UnixNano (Step.refl chunkLaw_true enc)
    | some e =>
      cases e with
      | ofLayout layout =>
        exact fallback_longer enc _ t.UnixNano
          (AppendString_step enc (x.timeFormat t layout) trivial)
      | custom f => exact fallback_longer enc _ t.UnixNano (primCalls_step_true enc (f t))

/-! ## Escaping and concatenation -/

theorem escapeBytes_rune (n : Nat) (hs : IsScalar n) (rest : Bytes) :
    escapeBytes (utf8EncodeNat n ++ rest) 0 = escapeScalar n ++ escapeBytes rest 0 := by
  by_cases h : n < 0x80
  · have hu : utf8EncodeNat n = [n] := by simp [utf8EncodeNat, h]
    have hself : ¬ n ≥ RuneSelf := by unfold RuneSelf; omega
    rw [hu, List.singleton_append, escapeBytes, if_neg hself, escapeScalar, if_pos h]
    split_ifs <;> rfl
  · obtain ⟨hdec, hlen⟩ := DecodeRune_utf8EncodeNat n rest hs (by omega)
    have hhead := utf8EncodeNat_head_ge n (by omega) rest
    rw [escapeScalar, if_neg h]
    cases hu : utf8EncodeNat n with
    | nil => rw [hu] at hlen; simp at hlen
    | cons c t =>
      rw [hu] at hdec hlen hhead
      simp only [List.cons_append, List.getD_cons_zero] at hhead
      rw [List.cons_append, escapeBytes, if_pos (by unfold RuneSelf; omega)]
      rw [← List.cons_append, hdec]
      simp only [List.length_cons] at hlen ⊢
      rw [if_pos (Or.inr (by omega)), Nat.add_sub_cancel, escapeBytes_skip]
      rfl

theorem escapeBytes_validUtf8 (rest : Bytes) :
    ∀ ns : List Nat, (∀ n ∈ ns, IsScalar n) →
      escapeBytes (ns.flatMap utf8EncodeNat ++ rest) 0 =
        ns.flatMap escapeScalar ++ escapeBytes rest 0 := by
  intro ns
  induction ns with
  | nil => intro _; rfl
  | cons n t ih =>
    intro h
    simp only [List.flatMap_cons, List.append_assoc]
    rw [escapeBytes_rune n (h n (List.mem_cons_self _ _)),
      ih (fun m hm => h m (List.mem_cons_of_mem _ hm))]

theorem escapeBytes_append (a b : Bytes) (ha : IsValidUtf8 a) :
    escapeBytes (a ++ b) 0 = escapeBytes a 0 ++ escapeBytes b 0 := by
  obtain ⟨ns, hns, rfl⟩ := ha
  have h1 := escapeBytes_validUtf8 b ns hns
  have h2 := escapeBytes_validUtf8 [] ns hns
  simp only [List.append_nil] at h2
  rw [h1, h2]
  simp [escapeBytes]

theorem escaped_eq_escapeBytes (s : Bytes) : escaped s = escapeBytes s 0 := by
  rw [escaped, safeAppendStringLike_eq_escapeBytes AppendString (fun _ _ => rfl)]
  rfl

theorem safeAddString_eq (enc : logbackEncoder) (s : Bytes) :
    enc.safeAddString s = { enc with buf := enc.buf ++ escaped s } := by
  rw [logbackEncoder.safeAddString,
    safeAppendStringLike_eq_escapeBytes AppendString (fun _ _ => rfl), escaped_eq_escapeBytes]

theorem safeAddByteString_eq (enc : logbackEncoder) (s : Bytes) :
    enc.safeAddByteString s = { enc with buf := enc.buf ++ escaped s } := by
  rw [logbackEncoder.safeAddByteString,
    safeAppendStringLike_eq_escapeBytes AppendBytes (fun _ _ => rfl), escaped_eq_escapeBytes]

/-- C24: for every buffer, every valid UTF-8 string `a` and every string `b` (valid or
not), escaping `a ++ b` appends the bytes escaping `a` appends followed by the bytes
escaping `b` appends, so it is the same as escaping `a` and then `b`; the byte-slice
variant `safeAddByteString` does on every content what `safeAddString` does. -/
theorem escaping_distributes_over_concatenation (enc : logbackEncoder) (a b : Bytes)
    (ha : IsValidUtf8 a) :
    (enc.safeAddString a).buf = enc.buf ++ escaped a ∧
      (enc.safeAddString b).buf = enc.buf ++ escaped b ∧
      (enc.safeAddString (a ++ b)).buf = enc.buf ++ escaped a ++ escaped b ∧
      enc.safeAddString (a ++ b) = (enc.safeAddString a).safeAddString b ∧
      enc.safeAddByteString (a ++ b) = (enc.safeAddByteString a).safeAddByteString b ∧
      ∀ s : Bytes, enc.safeAddByteString s = enc.safeAddString s := by
  have happ : escaped (a ++ b) = escaped a ++ escaped b := by
    simp only [escaped_eq_escapeBytes]
    exact escapeBytes_append a b ha
  refine ⟨?_, ?_, ?_, ?_, ?_, ?_⟩
  · rw [safeAddString_eq]
  · rw [safeAddString_eq]
  · rw [safeAddString_eq, happ, List.append_assoc]
  · simp only [safeAddString_eq, happ, List.append_assoc]
  · simp only [safeAddByteString_eq, happ, List.append_assoc]
  · intro s
    rw [safeAddString_eq, safeAddByteString_eq]

theorem accent_quote_isValidUtf8 : IsValidUtf8 (str "é\"") := by
  refine ⟨[233, 34], ?_, by decide⟩
  intro n hn
  simp only [List.mem_cons, List.mem_singleton, List.not_mem_nil, or_false] at hn
  rcases hn with rfl | rfl <;> exact Or.inl (by decide)

/-- Witness of C24 at `a` = `é"` and `b` = a newline followed by `x`. -/
theorem escaping_distributes_over_concatenation_witness :
    IsValidUtf8 (str "é\"") ∧
      (scenarioEncoder.safeAddString (str "é\"" ++ str "\nx")).buf =
        scenarioEncoder.buf ++ escaped (str "é\"") ++ escaped (str "\nx") ∧
      escaped (str "é\"") = str "é\\\"" ∧ escaped (str "\nx") = str "\\nx" :=
  ⟨accent_quote_isValidUtf8,
    (escaping_distributes_over_concatenation scenarioEncoder (str "é\"") (str "\nx")
      accent_quote_isValidUtf8).2.2.1, by decide, by decide⟩

/-! ## Order of the directive table -/

theorem strftimeLoop_no_frac :
    ∀ (order : List (StrfKey × Bytes)) (its : List LayoutItem),
      (∀ e ∈ order, entryOk e = true) → (∀ it ∈ its, it.ok = true) →
      firstFrac its = none → StrfKey.frac ∈ order.map Prod.fst →
      strftimeLoop order (renderItems its) = none := by
  intro order
  induction order with
  | nil => intro its _ _ _ hm; simp at hm
  | cons e rest ih =>
    intro its hord hits hnone hm
    have he := hord e (List.mem_cons_self _ _)
    have hrest : ∀ e ∈ rest, entryOk e = true := fun x hx => hord x (List.mem_cons_of_mem _ hx)
    obtain ⟨k, v⟩ := e
    cases k with
    | lit c =>
      rw [strftimeLoop, strftimeStep_render_lit [] c v he its hits]
      refine ih _ hrest (stepItems_ok [] (by simp) _ he its hits) ?_ ?_
      · rw [firstFrac_stepItems_lit, hnone]
      · simpa using hm
    | frac =>
      rw [strftimeLoop, strftimeStep, fracSubmatch_render its hits, hnone]

theorem strftimeLoop_frac_too_large (ds : Bytes) (hmax : ¬ zeroCount ds ≤ maxAlloc) :
    ∀ (order : List (StrfKey × Bytes)) (its : List LayoutItem),
      (∀ e ∈ order, entryOk e = true) → (∀ it ∈ its, it.ok = true) →
      firstFrac its = some ds → StrfKey.frac ∈ order.map Prod.fst →
      strftimeLoop order (renderItems its) = none := by
  intro order
  induction order with
  | nil => intro its _ _ _ hm; simp at hm
  | cons e rest ih =>
    intro its hord hits hfirst hm
    have he := hord e (List.mem_cons_self _ _)
    have hrest : ∀ e ∈ rest, entryOk e = true := fun x hx => hord x (List.mem_cons_of_mem _ hx)
    obtain ⟨k, v⟩ := e
    cases k with
    | lit c =>
      rw [strftimeLoop, strftimeStep_render_lit [] c v he its hits]
      refine ih _ hrest (stepItems_ok [] (by simp) _ he its hits) ?_ ?_
      · rw [firstFrac_stepItems_lit, hfirst]
      · simpa using hm
    | frac =>
      rw [strftimeLoop, strftimeStep_frac_too_large v its hits ds hfirst hmax]

theorem strftime_items_order (its : List LayoutItem) (hits : ∀ it ∈ its, it.ok = true)
    (o1 o2 : List (StrfKey × Bytes)) (h1 : o1.Perm strf_map) (h2 : o2.Perm strf_map) :
    StrftimeFormatLayout o1 (renderItems its) = StrftimeFormatLayout o2 (renderItems its) := by
  have hok : ∀ e ∈ strf_map, entryOk e = true := by decide
  have hfrac : ∀ o : List (StrfKey × Bytes), o.Perm strf_map →
      StrfKey.frac ∈ o.map Prod.fst := by
    intro o ho
    exact ((ho.map Prod.fst).mem_iff).2 (by decide)
  cases hf : firstFrac its with
  | none =>
    rw [StrftimeFormatLayout, StrftimeFormatLayout,
      strftimeLoop_no_frac o1 its (fun e he => hok e (h1.mem_iff.1 he)) hits hf (hfrac o1 h1),
      strftimeLoop_no_frac o2 its (fun e he => hok e (h2.mem_iff.1 he)) hits hf (hfrac o2 h2)]
  | some ds =>
    by_cases hmax : zeroCount ds ≤ maxAlloc
    · rw [strftime_items o1 h1 its hits ds hf hmax, strftime_items o2 h2 its hits ds hf hmax]
    · rw [StrftimeFormatLayout, StrftimeFormatLayout,
        strftimeLoop_frac_too_large ds hmax o1 its (fun e he => hok e (h1.mem_iff.1 he)) hits
          hf (hfrac o1 h1),
        strftimeLoop_frac_too_large ds hmax o2 its (fun e he => hok e (h2.mem_iff.1 he)) hits
          hf (hfrac o2 h2)]

/-- C21: the result of `StrftimeFormatLayout` depends on the order in which the entries of
the directive table are applied.  For the layout `%%a %3f` the order of the source text,
where `%a` comes before `%M`, gives `04on 000`, and the reverse order gives `%Mon 000`.
The order does not matter for a layout made of plain bytes other than `%`, of directives
`%c` whose letter is neither `%` nor `f` nor a digit, and of directives `%<digits>f`. -/
theorem layout_translation_depends_on_order :
    strf_map.reverse.Perm strf_map ∧
      StrftimeFormatLayout strf_map (str "%%a %3f") = some (str "04on 000") ∧
      StrftimeFormatLayout strf_map.reverse (str "%%a %3f") = some (str "%Mon 000") ∧
      ∀ its : List LayoutItem, (∀ it ∈ its, it.ok = true) →
        ∀ o1 o2 : List (StrfKey × Bytes), o1.Perm strf_map → o2.Perm strf_map →
          StrftimeFormatLayout o1 (renderItems its) =
            StrftimeFormatLayout o2 (renderItems its) :=
  ⟨List.reverse_perm _, by decide, by decide, strftime_items_order⟩

/-! ## The translation, piece by piece, against the claim -/

end Zaplogback
